import Mathlib

/-!
# OS-course: user-level threads (EX2_OS/uthreads.cpp) and MapReduce (EX3-OS/MapReduceFramework.cpp)

A shallow embedding of the scheduler state of `uthreads.cpp` and of the shuffle phase, the reduce
phase and the progress word of `MapReduceFramework.cpp`, followed by theorems about them.

Conventions of the embedding.
* `int` values are `Int`; the source never guards against signed overflow, and no statement
  below depends on wrap-around.
* Pointers are `Nat` addresses with `0` for `NULL`/`nullptr`.
* `std::unordered_map<unsigned int, Thread>` is an association list keyed by the `int` value of
  the id (the conversion `int → unsigned int` is injective); `find` is `tfind`, `insert` is
  `tinsert` (no overwrite), `erase` is `terase`.
* `std::set<int>` is a strictly increasing list, `std::queue<int>` and `std::list<int>` are lists
  with the front at the head.
* Behaviour the language leaves undefined (`front()` of an empty queue, `find(..)->second` on a
  missing key) is the outcome `undef` / the value `none`.
* The platform state (`sigjmp_buf env[]`, `struct sigaction`, `struct itimerval`, the process
  signal mask) is outside `ThreadGlobals` as embedded here; system calls are taken to succeed.
  The `sigprocmask` calls of the library are embedded on their own, as functions on the set of
  blocked signals (`uthread_spawn_mask` and its siblings).
* Every library call is one atomic step of the model.
-/

namespace Uthreads

/-- The class `Thread` (uthreads.cpp 27-51). `stack` is the address of the owned buffer. -/
structure Thread where
  stack : Nat
  isBlocked : Bool
  threadQuanta : Int
  sleepTime : Int
deriving DecidableEq, Repr

/-- Source `Thread::setIsBlocked`. -/
def Thread.setIsBlocked (t : Thread) (blocked : Bool) : Thread :=
  { t with isBlocked := blocked }

/-- Source `Thread::setThreadQuanta`. -/
def Thread.setThreadQuanta (t : Thread) (quanta : Int) : Thread :=
  { t with threadQuanta := quanta }

/-- Source `Thread::setSleepTime`. -/
def Thread.setSleepTime (t : Thread) (sleep : Int) : Thread :=
  { t with sleepTime := sleep }

/-- Source `threads.find(tid)`: the record stored under `tid`, `none` for `end()`. -/
def tfind : List (Int × Thread) → Int → Option Thread
  | [], _ => none
  | (k, v) :: m, tid => if k = tid then some v else tfind m tid

/-- Source `threads.insert({tid, th})`: adds the record unless the key is already present. -/
def tinsert (m : List (Int × Thread)) (tid : Int) (th : Thread) : List (Int × Thread) :=
  match tfind m tid with
  | some _ => m
  | none => m ++ [(tid, th)]

/-- Source `threads.erase(tid)`. -/
def terase (m : List (Int × Thread)) (tid : Int) : List (Int × Thread) :=
  m.filter (fun e => decide (e.1 ≠ tid))

/-- In-place update `threads.find(tid)->second.set...(..)` of the record stored under `tid`. -/
def tmodify (m : List (Int × Thread)) (tid : Int) (f : Thread → Thread) : List (Int × Thread) :=
  m.map (fun e => if e.1 = tid then (e.1, f e.2) else e)

/-- Source `std::set<int>::insert`: ordered insertion, no duplicate. -/
def setInsert (x : Int) : List Int → List Int
  | [] => [x]
  | y :: ys =>
    if x < y then x :: y :: ys
    else if x = y then y :: ys
    else y :: setInsert x ys

/-- The class `ThreadTidManager` (uthreads.cpp 54-80). -/
structure ThreadTidManager where
  availableTids : List Int
deriving DecidableEq, Repr

/-- Constructor of `ThreadTidManager`: inserts `0 .. MAX_THREAD_NUM - 1`. `MAX_THREAD_NUM` comes
from `uthreads.h` and is a parameter here. -/
def ThreadTidManager.new (MAX_THREAD_NUM : Nat) : ThreadTidManager :=
  ⟨(List.range MAX_THREAD_NUM).map Int.ofNat⟩

/-- Source `ThreadTidManager::allocateTid` (63-72): returned value and manager afterwards. -/
def ThreadTidManager.allocateTid (m : ThreadTidManager) : Int × ThreadTidManager :=
  match m.availableTids with
  | [] => (-1, m)
  | tid :: rest => (tid, ⟨rest⟩)

/-- Source `ThreadTidManager::releaseTid` (74-76). -/
def ThreadTidManager.releaseTid (m : ThreadTidManager) (tid : Int) : ThreadTidManager :=
  ⟨setInsert tid m.availableTids⟩

/-- The class `ThreadGlobals` (82-95), scheduler part. -/
structure ThreadGlobals where
  THREAD_QUANTUM_DURATION : Int
  threads : List (Int × Thread)
  tidManager : ThreadTidManager
  threadQuantumCounter : Int
  tidOfCurrentThread : Int
  readyThreadQueue : List Int
  sleepingThread : List Int
deriving DecidableEq, Repr

/-- The global `threadGlobals` before any call: static initialisation. -/
def pristine (MAX_THREAD_NUM : Nat) : ThreadGlobals :=
  { THREAD_QUANTUM_DURATION := 0
    threads := []
    tidManager := ThreadTidManager.new MAX_THREAD_NUM
    threadQuantumCounter := 0
    tidOfCurrentThread := 0
    readyThreadQueue := []
    sleepingThread := [] }

/-- Loop of `removeTid` (390-395): `q` is the queue still to scan, `tempQueue` what was kept. -/
def removeTidLoop (element : Int) : List Int → List Int → List Int
  | [], tempQueue => tempQueue
  | front :: q, tempQueue =>
    if front ≠ element then removeTidLoop element q (tempQueue ++ [front])
    else removeTidLoop element q tempQueue

/-- Source `removeTid(q, element)` (387-398): the new content of `q`. -/
def removeTid (q : List Int) (element : Int) : List Int :=
  removeTidLoop element q []

/-- Source `std::list<int>::remove(tid)`. -/
def listRemove (l : List Int) (tid : Int) : List Int :=
  l.filter (fun x => decide (x ≠ tid))

/-- Body of the loop over `sleepingThread` in `PassToNextThread` (155-161) for one `tid`. -/
def wakeStep (g : ThreadGlobals) (tid : Int) : Option ThreadGlobals :=
  match tfind g.threads tid with
  | none => none
  | some th =>
    if th.sleepTime ≥ g.threadQuantumCounter then
      let threads1 := tmodify g.threads tid (fun t => t.setSleepTime 0)
      let g1 := { g with threads := threads1, sleepingThread := listRemove g.sleepingThread tid }
      match tfind g1.threads tid with
      | none => none
      | some th1 =>
        if !th1.isBlocked then
          some { g1 with readyThreadQueue := g1.readyThreadQueue ++ [tid] }
        else some g1
    else some g

/-- The range-for over `sleepingThread` (154-162). The list is walked as it stood when the loop
was entered; the `remove` inside the body acts on the list held in the state. (Erasing the
element under the iterator is itself undefined in the source; `wakeLoop_id` below shows that after
`uthread_init` the erasing branch is never taken, because no wake-time is ever stored.) -/
def wakeLoop : List Int → ThreadGlobals → Option ThreadGlobals
  | [], g => some g
  | tid :: rest, g =>
    match wakeStep g tid with
    | none => none
    | some g1 => wakeLoop rest g1

/-- Source `PassToNextThread(tidToterminate, terminate)` (141-186): the globals at the `siglongjmp`,
`none` when the body reads `front()` of an empty queue or a missing record. -/
def PassToNextThread (g : ThreadGlobals) (tidToterminate : Int) (terminate : Bool) :
    Option ThreadGlobals :=
  -- 149-151
  let requeued : Option ThreadGlobals :=
    if terminate then some g
    else
      match tfind g.threads g.tidOfCurrentThread with
      | none => none
      | some cur =>
        if !cur.isBlocked then
          some { g with readyThreadQueue := g.readyThreadQueue ++ [g.tidOfCurrentThread] }
        else some g
  match requeued with
  | none => none
  | some g1 =>
    -- 152-153
    match g1.readyThreadQueue with
    | [] => none
    | front :: rest =>
      let g2 := { g1 with tidOfCurrentThread := front, readyThreadQueue := rest }
      -- 154-162
      match wakeLoop g2.sleepingThread g2 with
      | none => none
      | some g3 =>
        -- 163
        let g4 := { g3 with threadQuantumCounter := g3.threadQuantumCounter + 1 }
        -- 173-174
        match tfind g4.threads g4.tidOfCurrentThread with
        | none => none
        | some nxt =>
          let g5 := { g4 with threads := tmodify g4.threads g4.tidOfCurrentThread
                                (fun t => t.setThreadQuanta (nxt.threadQuanta + 1)) }
          -- 176-182
          if terminate then
            match tfind g5.threads tidToterminate with
            | some _ =>
              some { g5 with tidManager := g5.tidManager.releaseTid tidToterminate,
                             threads := terase g5.threads tidToterminate }
            | none => some g5
          else some g5

/-- How a library call ends. -/
inductive Outcome where
  /-- the call returns `val` and leaves the globals `g` -/
  | ret (val : Int) (g : ThreadGlobals)
  /-- the call entered `PassToNextThread`, which left through `siglongjmp` with globals `g`;
  the caller (if it still exists) continues when it is next scheduled -/
  | jumped (g : ThreadGlobals)
  /-- the call ended the process with `exit(status)` -/
  | exited (status : Int)
  /-- the call ran into behaviour the language leaves undefined -/
  | undef
deriving DecidableEq, Repr

/-- Wraps the result of `PassToNextThread` reached from a library call. -/
def switchOutcome : Option ThreadGlobals → Outcome
  | some g => Outcome.jumped g
  | none => Outcome.undef

/-- Source `timer_handler(SIGVTALRM)` (188-197): saves the context and calls `PassToNextThread()`. -/
def timer_handler (g : ThreadGlobals) : Outcome :=
  switchOutcome (PassToNextThread g (-1) false)

/-- Source `uthread_init` (200-228). -/
def uthread_init (g : ThreadGlobals) (quantum_usecs : Int) : Int × ThreadGlobals :=
  if quantum_usecs ≤ 0 then (-1, g)
  else
    let mainThread : Thread := ⟨0, false, 1, 0⟩
    let g1 := { g with THREAD_QUANTUM_DURATION := quantum_usecs }
    let g2 := { g1 with threads := tinsert g1.threads 0 mainThread }
    let g3 := { g2 with tidManager := g2.tidManager.allocateTid.2 }
    let g4 := { g3 with threadQuantumCounter := g3.threadQuantumCounter + 1 }
    (0, g4)

/-- Source `uthread_spawn` (231-267). `stack` is the value of `new(std::nothrow) char[STACK_SIZE]`. -/
def uthread_spawn (g : ThreadGlobals) (entry_point : Nat) (stack : Nat) : Outcome :=
  if entry_point = 0 then Outcome.ret (-1) g
  else
    let alloc := g.tidManager.allocateTid
    let tid := alloc.1
    let g1 := { g with tidManager := alloc.2 }
    if tid = -1 then Outcome.ret (-1) g1
    else if stack = 0 then Outcome.ret (-1) g1
    else
      let newThread : Thread := ⟨stack, false, 0, 0⟩
      let g2 := { g1 with threads := tinsert g1.threads tid newThread }
      let g3 := { g2 with readyThreadQueue := g2.readyThreadQueue ++ [tid] }
      Outcome.ret tid g3

/-- Source `uthread_terminate` (270-303). -/
def uthread_terminate (g : ThreadGlobals) (tid : Int) : Outcome :=
  if tid = 0 then Outcome.exited 0
  else
    match tfind g.threads tid with
    | none => Outcome.ret (-1) g
    | some _ =>
      if tid = g.tidOfCurrentThread then
        switchOutcome (PassToNextThread g tid true)
      else
        let g1 := { g with tidManager := g.tidManager.releaseTid tid }
        let g2 := { g1 with threads := terase g1.threads tid }
        let g3 := { g2 with readyThreadQueue := removeTid g2.readyThreadQueue tid }
        let g4 := { g3 with sleepingThread := listRemove g3.sleepingThread tid }
        Outcome.ret 0 g4

/-- Source `uthread_block` (305-331). -/
def uthread_block (g : ThreadGlobals) (tid : Int) : Outcome :=
  match tfind g.threads tid with
  | none => Outcome.ret (-1) g
  | some _ =>
    if tid = 0 then Outcome.ret (-1) g
    else
      let g1 := { g with threads := tmodify g.threads tid (fun t => t.setIsBlocked true) }
      if tid = g1.tidOfCurrentThread then
        switchOutcome (PassToNextThread g1 (-1) false)
      else
        Outcome.ret 0 { g1 with readyThreadQueue := removeTid g1.readyThreadQueue tid }

/-- Source `uthread_resume` (333-351). -/
def uthread_resume (g : ThreadGlobals) (tid : Int) : Outcome :=
  match tfind g.threads tid with
  | none => Outcome.ret (-1) g
  | some th =>
    if th.isBlocked then
      let g1 := { g with threads := tmodify g.threads tid (fun t => t.setIsBlocked false) }
      Outcome.ret 0 { g1 with readyThreadQueue := g1.readyThreadQueue ++ [tid] }
    else Outcome.ret 0 g

/-- Source `uthread_get_tid` (371-373). -/
def uthread_get_tid (g : ThreadGlobals) : Int := g.tidOfCurrentThread

/-- Source `uthread_get_total_quantums` (375-377). -/
def uthread_get_total_quantums (g : ThreadGlobals) : Int := g.threadQuantumCounter

/-- Source `uthread_get_quantums` (379-385). -/
def uthread_get_quantums (g : ThreadGlobals) (tid : Int) : Int :=
  match tfind g.threads tid with
  | none => -1
  | some th => th.threadQuanta

/-- Lines 361-363 of `uthread_sleep`: the local `currentThread` after `setSleepTime` and the
globals after `sleepingThread.push_back`; `none` when the current thread has no record. -/
def sleepUpdate (g : ThreadGlobals) (num_quantums : Int) : Option (Thread × ThreadGlobals) :=
  match tfind g.threads g.tidOfCurrentThread with
  | none => none
  | some currentThread =>
    let currentThread1 := currentThread.setSleepTime (num_quantums + uthread_get_total_quantums g)
    some (currentThread1,
      { g with sleepingThread := g.sleepingThread ++ [g.tidOfCurrentThread] })

/-- Source `uthread_sleep` (353-369). -/
def uthread_sleep (g : ThreadGlobals) (num_quantums : Int) : Outcome :=
  if g.tidOfCurrentThread = 0 then Outcome.ret (-1) g
  else
    match sleepUpdate g num_quantums with
    | none => Outcome.undef
    | some (_, g1) => switchOutcome (PassToNextThread g1 (-1) false)

/-- The calls that change scheduler state after `uthread_init`, made by the running thread, and
the delivery of the timer signal. -/
inductive Call where
  | spawn (entry_point : Nat) (stack : Nat)
  | terminate (tid : Int)
  | block (tid : Int)
  | resume (tid : Int)
  | sleep (num_quantums : Int)
  | tick
deriving DecidableEq, Repr

/-- Runs one call on the globals. -/
def perform (g : ThreadGlobals) : Call → Outcome
  | Call.spawn e st => uthread_spawn g e st
  | Call.terminate tid => uthread_terminate g tid
  | Call.block tid => uthread_block g tid
  | Call.resume tid => uthread_resume g tid
  | Call.sleep n => uthread_sleep g n
  | Call.tick => timer_handler g

/-- Globals after a call, when the process goes on with defined behaviour. -/
def Outcome.next : Outcome → Option ThreadGlobals
  | Outcome.ret _ g => some g
  | Outcome.jumped g => some g
  | Outcome.exited _ => none
  | Outcome.undef => none

/-- Runs a sequence of calls; `none` as soon as one of them exits or is undefined. -/
def run (g : ThreadGlobals) : List Call → Option ThreadGlobals
  | [] => some g
  | c :: cs =>
    match (perform g c).next with
    | none => none
    | some g1 => run g1 cs

/-- Scheduler states reachable after one successful `uthread_init` on the pristine globals. -/
inductive Reachable (MAX_THREAD_NUM : Nat) : ThreadGlobals → Prop where
  | init (quantum_usecs : Int) (hq : 0 < quantum_usecs) :
      Reachable MAX_THREAD_NUM (uthread_init (pristine MAX_THREAD_NUM) quantum_usecs).2
  | step (g g1 : ThreadGlobals) (c : Call) (hg : Reachable MAX_THREAD_NUM g)
      (hc : (perform g c).next = some g1) : Reachable MAX_THREAD_NUM g1

/-- Well-formedness of the scheduler state kept by every call, also while `uthread_block` has
flagged the running thread and not yet switched. -/
structure Core (g : ThreadGlobals) : Prop where
  free_sorted : g.tidManager.availableTids.Pairwise (fun a b => a < b)
  free_range : ∀ t ∈ g.tidManager.availableTids, 0 ≤ t
  free_absent : ∀ t ∈ g.tidManager.availableTids, tfind g.threads t = none
  table_range : ∀ t th, tfind g.threads t = some th → 0 ≤ t
  no_wake : ∀ t th, tfind g.threads t = some th → th.sleepTime = 0
  counter_pos : 1 ≤ g.threadQuantumCounter
  ready_ok : ∀ t ∈ g.readyThreadQueue, ∃ th, tfind g.threads t = some th ∧ th.isBlocked = false
  ready_nodup : g.readyThreadQueue.Nodup
  cur_not_ready : g.tidOfCurrentThread ∉ g.readyThreadQueue
  cur_exists : ∃ th, tfind g.threads g.tidOfCurrentThread = some th
  main_ok : ∃ th, tfind g.threads 0 = some th ∧ th.isBlocked = false
  main_runnable : g.tidOfCurrentThread = 0 ∨ 0 ∈ g.readyThreadQueue

/-- The invariant of the scheduler between calls: `Core` and the running thread is not blocked. -/
structure Inv (g : ThreadGlobals) : Prop where
  core : Core g
  cur_unblocked : ∃ th, tfind g.threads g.tidOfCurrentThread = some th ∧ th.isBlocked = false

/-- Example state: the globals right after `uthread_init(100)` with `MAX_THREAD_NUM = 4`. -/
def started : ThreadGlobals := (uthread_init (pristine 4) 100).2

/-- Example state: `started` after two successful spawns (stacks at 4096 and 8192). -/
def twoWorkers : ThreadGlobals :=
  ⟨100, [(0, ⟨0, false, 1, 0⟩), (1, ⟨4096, false, 0, 0⟩), (2, ⟨8192, false, 0, 0⟩)],
    ⟨[3]⟩, 1, 0, [1, 2], []⟩

/-- Example state: `twoWorkers` after one timer signal; thread 1 runs, the counter is 2. -/
def workerRunning : ThreadGlobals :=
  ⟨100, [(0, ⟨0, false, 1, 0⟩), (1, ⟨4096, false, 1, 0⟩), (2, ⟨8192, false, 0, 0⟩)],
    ⟨[3]⟩, 2, 1, [2, 0], []⟩

/-- Example state: `workerRunning` after thread 1 called `uthread_sleep(5)`; thread 2 runs. -/
def workerAsleep : ThreadGlobals :=
  ⟨100, [(0, ⟨0, false, 1, 0⟩), (1, ⟨4096, false, 1, 0⟩), (2, ⟨8192, false, 1, 0⟩)],
    ⟨[3]⟩, 3, 2, [0, 1], [1]⟩

/-- Example state: `workerAsleep` after thread 2 called `uthread_block(1)`. -/
def sleeperBlocked : ThreadGlobals :=
  ⟨100, [(0, ⟨0, false, 1, 0⟩), (1, ⟨4096, true, 1, 0⟩), (2, ⟨8192, false, 1, 0⟩)],
    ⟨[3]⟩, 3, 2, [0], [1]⟩

/-- Example state: `workerRunning` after thread 1 slept (`uthread_sleep(5)`), ran again two
timer signals later and terminated itself; thread 2 runs. -/
def sleeperGone : ThreadGlobals :=
  ⟨100, [(0, ⟨0, false, 2, 0⟩), (2, ⟨8192, false, 2, 0⟩)], ⟨[1, 3]⟩, 6, 2, [0], [1]⟩

/-- Accounting facts about the thread table, the free ids and the quantum counter: the keys of the
table are distinct, quantum counts are not negative and add up to at most the counter, and ids of
records (other than 0) and free ids lie below `MAX_THREAD_NUM`. -/
structure AcctOf (MAX_THREAD_NUM : Nat) (threads : List (Int × Thread)) (avail : List Int)
    (counter : Int) : Prop where
  keys_nodup : (threads.map Prod.fst).Nodup
  quanta_nonneg : ∀ e ∈ threads, 0 ≤ e.2.threadQuanta
  quanta_sum : (threads.map (fun e => e.2.threadQuanta)).sum ≤ counter
  table_bound : ∀ e ∈ threads, e.1 = 0 ∨ e.1 < (MAX_THREAD_NUM : Int)
  free_bound : ∀ t ∈ avail, t < (MAX_THREAD_NUM : Int)

/-- The accounting facts of a scheduler state. -/
def Acct (MAX_THREAD_NUM : Nat) (g : ThreadGlobals) : Prop :=
  AcctOf MAX_THREAD_NUM g.threads g.tidManager.availableTids g.threadQuantumCounter

/-- Example state: `started` after a `uthread_spawn` with a non-null entry point whose stack
allocation failed (`new(std::nothrow)` returned `nullptr`). -/
def idLeaked : ThreadGlobals :=
  ⟨100, [(0, ⟨0, false, 1, 0⟩)], ⟨[2, 3]⟩, 1, 0, [], []⟩

/-- No `uthread_spawn` of the sequence has its stack allocation fail. -/
def allocationsSucceed : List Call → Bool
  | [] => true
  | Call.spawn _ stack :: cs => decide (stack ≠ 0) && allocationsSucceed cs
  | _ :: cs => allocationsSucceed cs

/-- Every id of `[0, MAX_THREAD_NUM)` is free or has a thread record. -/
def Cover (MAX_THREAD_NUM : Nat) (threads : List (Int × Thread)) (avail : List Int) : Prop :=
  ∀ t : Int, 0 ≤ t → t < (MAX_THREAD_NUM : Int) → t ∈ avail ∨ ∃ th, tfind threads t = some th

/-- The two signals the source names: `SIGALRM`, the only signal its `sigprocmask` calls put in
the set (144, 234, 273, 308, 336, 360), and `SIGVTALRM`, the signal for which `uthread_init`
installs `timer_handler` (212) and which the `ITIMER_VIRTUAL` timer (169, 222) raises. -/
inductive Signal where
  | SIGALRM
  | SIGVTALRM
deriving DecidableEq, Repr

/-- Source `sigprocmask(SIG_BLOCK, &mask, NULL)` with `mask = {sig}`, on the set of blocked
signals of the process. -/
def sigBlock (blocked : Finset Signal) (sig : Signal) : Finset Signal :=
  insert sig blocked

/-- Source `sigprocmask(SIG_UNBLOCK, &mask, NULL)` with `mask = {sig}`. -/
def sigUnblock (blocked : Finset Signal) (sig : Signal) : Finset Signal :=
  blocked.erase sig

/-- What a library call does to the blocked-signal mask: `inBody` is the mask in force while the
call reads and writes the scheduler state, `atReturn` the mask at the `return` statement the call
leaves through (`none` when the path ends in `exit` or in the `siglongjmp` of a self-termination,
which never comes back). For a call that switches away and continues when its thread is next
scheduled, `siglongjmp` restores the mask that `sigsetjmp(env, 1)` saved in the call. -/
structure MaskEffect where
  inBody : Finset Signal
  atReturn : Option (Finset Signal)

/-- The `sigprocmask` calls of `uthread_spawn` (232-238, 265) along the path taken. -/
def uthread_spawn_mask (g : ThreadGlobals) (entry_point stack : Nat) (blocked : Finset Signal) :
    MaskEffect :=
  let held := sigBlock blocked Signal.SIGALRM
  if entry_point = 0 then ⟨held, some held⟩
  else if g.tidManager.allocateTid.1 = -1 then ⟨held, some held⟩
  else if stack = 0 then ⟨held, some held⟩
  else ⟨held, some (sigUnblock held Signal.SIGALRM)⟩

/-- The `sigprocmask` calls of `uthread_terminate` (271-277, 301) along the path taken. -/
def uthread_terminate_mask (g : ThreadGlobals) (tid : Int) (blocked : Finset Signal) :
    MaskEffect :=
  let held := sigBlock blocked Signal.SIGALRM
  if tid = 0 then ⟨held, none⟩
  else
    match tfind g.threads tid with
    | none => ⟨held, some held⟩
    | some _ =>
      if tid = g.tidOfCurrentThread then ⟨held, none⟩
      else ⟨held, some (sigUnblock held Signal.SIGALRM)⟩

/-- The `sigprocmask` calls of `uthread_block` (306-312, 329) along the path taken; when the
caller blocks itself the `return` is reached after the thread is resumed, with the mask saved
at 323. -/
def uthread_block_mask (g : ThreadGlobals) (tid : Int) (blocked : Finset Signal) : MaskEffect :=
  let held := sigBlock blocked Signal.SIGALRM
  match tfind g.threads tid with
  | none => ⟨held, some held⟩
  | some _ =>
    if tid = 0 then ⟨held, some held⟩
    else ⟨held, some (sigUnblock held Signal.SIGALRM)⟩

/-- The `sigprocmask` calls of `uthread_resume` (334-340, 349) along the path taken. -/
def uthread_resume_mask (g : ThreadGlobals) (tid : Int) (blocked : Finset Signal) : MaskEffect :=
  let held := sigBlock blocked Signal.SIGALRM
  match tfind g.threads tid with
  | none => ⟨held, some held⟩
  | some _ => ⟨held, some (sigUnblock held Signal.SIGALRM)⟩

/-- The `sigprocmask` calls of `uthread_sleep` (353-369): the set is built at 358-360 and never
passed to `SIG_BLOCK`; the only call is the `SIG_UNBLOCK` of 367, reached after the thread is
scheduled again with the mask saved at 364. -/
def uthread_sleep_mask (g : ThreadGlobals) (blocked : Finset Signal) : MaskEffect :=
  if g.tidOfCurrentThread = 0 then ⟨blocked, some blocked⟩
  else ⟨blocked, some (sigUnblock blocked Signal.SIGALRM)⟩

/-- The `sigprocmask` calls of `PassToNextThread` (142-148, 184): the mask in force in the body
and the mask at the `siglongjmp`. -/
def PassToNextThread_mask (blocked : Finset Signal) : Finset Signal × Finset Signal :=
  let held := sigBlock blocked Signal.SIGALRM
  (held, sigUnblock held Signal.SIGALRM)

/-- The mask bookkeeping of a library call made by the running thread. For the delivery of the
timer signal the kernel itself adds `SIGVTALRM` to the mask while `timer_handler` runs (the
`sa_flags` of 92 and 211-212 are 0), so the switch entered from the handler starts from that
mask. -/
def performMask (g : ThreadGlobals) (blocked : Finset Signal) : Call → MaskEffect
  | Call.spawn e st => uthread_spawn_mask g e st blocked
  | Call.terminate tid => uthread_terminate_mask g tid blocked
  | Call.block tid => uthread_block_mask g tid blocked
  | Call.resume tid => uthread_resume_mask g tid blocked
  | Call.sleep _ => uthread_sleep_mask g blocked
  | Call.tick => ⟨(PassToNextThread_mask (sigBlock blocked Signal.SIGVTALRM)).1, none⟩

end Uthreads

namespace MapReduce

/-!
Embedding of the shuffle phase, the reduce phase and the progress word of
`MapReduceFramework.cpp`.
* An `IntermediatePair` is `(K2*, V2*)`; here it is the pair of the key and the value, and the
  client's `operator<` on keys is the parameter `lt`.
* A `std::vector` is a list in index order, so `back()` is the last element.
* `threadContexts[0 .. multiThreadLevel)` is the list `intermediateVecs` of the workers'
  vectors; `multiThreadLevel` is its length.
* `jobState.percentage` is a `float` in the source; here it is the rational value of that
  `float`. The conversions to `float` and the `float` division and multiplication are rounded
  as IEEE-754 binary32 does in the default mode (to nearest, ties to even): `roundF32`,
  `floatPercent`. Expressions are evaluated in single precision, as on x86-64.
* `unsigned long` sums of vector sizes are natural numbers (they are bounded by the address
  space); the 64-bit atomic word is a natural number reduced modulo `2^64`.
* The `while` loop of `executeShuffleOperation` takes a fuel argument; `none` means the fuel ran
  out.
* The reduce phase is a step function on the shared job context and the control points of the
  workers in `executeReduce`; an interleaving is the list of the workers that act, one atomic
  action each. The client's `reduce` is recorded as a call on a group index.
-/

/-- Modelled from the spec: the enum `stage_t` of `MapReduceFramework.h`, which is not among the
sources; the spec lists the stages undefined, map, shuffle, reduce. -/
inductive stage_t where
  | UNDEFINED_STAGE
  | MAP_STAGE
  | SHUFFLE_STAGE
  | REDUCE_STAGE
deriving DecidableEq, Repr

/-- Modelled from the spec: the struct `JobState` of `MapReduceFramework.h`, which is not among
the sources; the spec gives it a stage and a percentage. -/
structure JobState where
  stage : stage_t
  percentage : ℚ
deriving DecidableEq, Repr

/-- The struct `JobContext` (57-76) with the workers' `intermediateVec`s, without the pthread
handles, mutexes and client pointers. -/
structure JobContext (K V : Type) where
  shuffleArray : List (List (K × V))
  counterAtomic : Nat
  maxSize : Nat
  intermediateVecs : List (List (K × V))
  jobState : JobState

/-- Source `configureShuffleEnvironment` (343-370). -/
def configureShuffleEnvironment {K V : Type} (jobDetails : JobContext K V) : JobContext K V :=
  let j1 := { jobDetails with counterAtomic := 0x8000000000000000 }
  let j2 := { j1 with jobState := { stage := stage_t.SHUFFLE_STAGE, percentage := 0 } }
  let pairCount := (j2.intermediateVecs.map List.length).sum
  let j3 := { j2 with maxSize := pairCount }
  { j3 with counterAtomic := (j3.counterAtomic + (pairCount * 2 ^ 31) % 2 ^ 64) % 2 ^ 64 }

/-- Loop of `findLargestKey` (382-387): `largestPair` is `none` for `nullptr`. -/
def findLargestLoop {K V : Type} (lt : K → K → Bool) :
    List (List (K × V)) → Option (K × V) → Option (K × V)
  | [], largestPair => largestPair
  | vec :: rest, largestPair =>
    match vec.getLast? with
    | none => findLargestLoop lt rest largestPair
    | some back =>
      match largestPair with
      | none => findLargestLoop lt rest (some back)
      | some largest =>
        if lt largest.1 back.1 then findLargestLoop lt rest (some back)
        else findLargestLoop lt rest (some largest)

/-- Source `findLargestKey` (379-391): `none` when every vector is empty (the source then returns a pair
of null pointers, which the caller tests). -/
def findLargestKey {K V : Type} (lt : K → K → Bool) (vecs : List (List (K × V))) :
    Option (K × V) :=
  findLargestLoop lt vecs none

/-- Inner loop of `collectPairsWithKey` (408-416) over the reverse iteration of one vector:
`rvec` is the part of the vector not yet visited, back first; the result is what is left of the
vector (back first) and `collectedPairs`. -/
def popTrailingRev {K V : Type} (lt : K → K → Bool) (largestKey : K) :
    List (K × V) → List (K × V) → List (K × V) × List (K × V)
  | [], collectedPairs => ([], collectedPairs)
  | rit :: rvec, collectedPairs =>
    if !(lt rit.1 largestKey) && !(lt largestKey rit.1) then
      popTrailingRev lt largestKey rvec (collectedPairs ++ [rit])
    else (rit :: rvec, collectedPairs)

/-- Outer loop of `collectPairsWithKey` (404-417) over the workers. -/
def collectLoop {K V : Type} (lt : K → K → Bool) (largestKey : K) :
    List (List (K × V)) → List (K × V) → List (List (K × V)) × List (K × V)
  | [], collectedPairs => ([], collectedPairs)
  | vec :: rest, collectedPairs =>
    let popped := popTrailingRev lt largestKey vec.reverse collectedPairs
    let others := collectLoop lt largestKey rest popped.2
    (popped.1.reverse :: others.1, others.2)

/-- Source `collectPairsWithKey` (400-420): the workers' vectors afterwards and the collected pairs. -/
def collectPairsWithKey {K V : Type} (lt : K → K → Bool) (vecs : List (List (K × V)))
    (largestPair : K × V) : List (List (K × V)) × List (K × V) :=
  collectLoop lt largestPair.1 vecs []

/-- Rounds a rational to the nearest integer; a value halfway between two integers goes to the
even one. -/
def roundHalfEven (q : ℚ) : ℤ :=
  if q - ⌊q⌋ < 1 / 2 then ⌊q⌋
  else if 1 / 2 < q - ⌊q⌋ then ⌊q⌋ + 1
  else if ⌊q⌋ % 2 = 0 then ⌊q⌋
  else ⌊q⌋ + 1

/-- Rounding of a positive rational to 24 significant bits, to nearest with ties to even: the
value is scaled by the power of two that brings it into `[2^23, 2^24)`, rounded to an integer
and scaled back. -/
def roundF32Mag (x : ℚ) : ℚ :=
  (roundHalfEven (x / 2 ^ (Int.log 2 x - 23)) : ℚ) * 2 ^ (Int.log 2 x - 23)

/-- The `float` (IEEE-754 binary32) nearest to a rational, as `static_cast<float>` and the
`float` operators `/` and `*` deliver it in the default rounding mode. The limits of the
exponent are left out: the values rounded here are counts below `2^64`, ratios of such counts
and 100 times such ratios, all in the normal range of `float`. -/
def roundF32 (x : ℚ) : ℚ :=
  if x = 0 then 0
  else if 0 < x then roundF32Mag x
  else -roundF32Mag (-x)

/-- The expression `static_cast<float>(count) / total * 100.0f` of 428-429 and 296-298: both
counts are converted to `float`, and the quotient and the product are each rounded to `float`.
For `total = 0` the source yields an infinity or a NaN, which this value does not represent; the
source never evaluates the expression with `total = 0` (in the shuffle it follows the collection
of a pair that `maxSize` counts, in the reduce phase the completion of one of the `maxSize`
groups). -/
def floatPercent (count total : Nat) : ℚ :=
  roundF32 (roundF32 (roundF32 count / roundF32 total) * 100)

/-- Source `updateShuffleProgress` (427-430). -/
def updateShuffleProgress {K V : Type} (jobContext : JobContext K V) : JobContext K V :=
  { jobContext with jobState :=
      { jobContext.jobState with
        percentage := floatPercent jobContext.shuffleArray.length jobContext.maxSize } }

/-- The `while` loop of `executeShuffleOperation` (439-450). -/
def shuffleLoop {K V : Type} (lt : K → K → Bool) : Nat → JobContext K V → Option (JobContext K V)
  | 0, _ => none
  | fuel + 1, jobContext =>
    if jobContext.jobState.percentage < 100 then
      match findLargestKey lt jobContext.intermediateVecs with
      | none => some jobContext
      | some largestPair =>
        let collected := collectPairsWithKey lt jobContext.intermediateVecs largestPair
        let j1 := { jobContext with intermediateVecs := collected.1 }
        if collected.2.isEmpty then shuffleLoop lt fuel j1
        else
          shuffleLoop lt fuel
            (updateShuffleProgress { j1 with shuffleArray := j1.shuffleArray ++ [collected.2] })
    else some jobContext

/-- Source `executeShuffleOperation` (436-451). -/
def executeShuffleOperation {K V : Type} (lt : K → K → Bool) (fuel : Nat)
    (jobContext : JobContext K V) : Option (JobContext K V) :=
  shuffleLoop lt fuel (configureShuffleEnvironment jobContext)

/-- The requirement on the client's `operator<` on keys: a strict weak order. -/
structure StrictWeakOrder {K : Type} (lt : K → K → Bool) : Prop where
  irrefl : ∀ a, lt a a = false
  trans : ∀ a b c, lt a b = true → lt b c = true → lt a c = true
  incomp_trans : ∀ a b c, lt a b = false → lt b a = false → lt b c = false → lt c b = false →
    lt a c = false ∧ lt c a = false

/-- A vector is sorted ascending by key, as `std::sort` with the comparator of
`sortIntermediatePairsByKeys` (458-464) leaves it: no later element is smaller than an earlier
one. -/
def SortedByKey {K V : Type} (lt : K → K → Bool) (vec : List (K × V)) : Prop :=
  vec.Pairwise (fun p q => lt q.1 p.1 = false)

/-- Total number of pairs held by a family of vectors. -/
def totalPairs {K V : Type} (vecs : List (List (K × V))) : Nat :=
  (vecs.map List.length).sum

/-- Example job: the three intermediate pairs of two workers, keys 1 and 2 on the first worker
and key 1 on the second, with a fresh job context. -/
def exampleJob : JobContext Nat String :=
  { shuffleArray := []
    counterAtomic := 0
    maxSize := 3
    intermediateVecs := [[(1, "a"), (2, "b")], [(1, "c")]]
    jobState := { stage := stage_t.MAP_STAGE, percentage := 0 } }

/-- The order `<` of the natural numbers as a key comparison, for the examples. -/
def natLt (a b : Nat) : Bool := decide (a < b)

/-- Counting invariant of the shuffle loop: the pairs are split between the groups and the
workers' vectors, no group is empty, and the stored percentage is the one last computed. -/
structure CountInv {K V : Type} (job : JobContext K V) : Prop where
  total : (job.shuffleArray.map List.length).sum + totalPairs job.intermediateVecs = job.maxSize
  groups_nonempty : ∀ grp ∈ job.shuffleArray, grp ≠ []
  percent : job.jobState.percentage =
    if job.shuffleArray.length = 0 then 0
    else floatPercent job.shuffleArray.length job.maxSize

/-- Ordering invariant of the shuffle loop: the workers' vectors are sorted, the pairs of a
group have equivalent keys, the groups come in strictly descending key order, and every pair
still in a worker's vector has a key below the keys of all groups. -/
structure OrderInv {K V : Type} (lt : K → K → Bool) (job : JobContext K V) : Prop where
  sorted : ∀ vec ∈ job.intermediateVecs, SortedByKey lt vec
  within : ∀ grp ∈ job.shuffleArray, ∀ p ∈ grp, ∀ q ∈ grp,
    lt p.1 q.1 = false ∧ lt q.1 p.1 = false
  descending : job.shuffleArray.Pairwise (fun g1 g2 => ∀ p ∈ g1, ∀ q ∈ g2, lt q.1 p.1 = true)
  above_rest : ∀ grp ∈ job.shuffleArray, ∀ p ∈ grp, ∀ vec ∈ job.intermediateVecs, ∀ y ∈ vec,
    lt y.1 p.1 = true

/-- Source `getInputPairIndex` (275-281): the claimed index and the job after the `fetch_add(1)`.
The mask `(1 << 31) - 1` is taken at the value `2^31 - 1` it has on the platforms the code is
built for. -/
def getInputPairIndex {K V : Type} (job : JobContext K V) : Nat × JobContext K V :=
  let mask := 2 ^ 31 - 1
  let curValue := job.counterAtomic
  let nextValueIndex := curValue &&& mask
  (nextValueIndex, { job with counterAtomic := (job.counterAtomic + 1) % 2 ^ 64 })

/-- Lines 290-291 of `atomicCounterHandler`: the `fetch_add(0x80000000)` made right after
`counterMutex` is taken. -/
def atomicCounterAdd {K V : Type} (job : JobContext K V) : JobContext K V :=
  { job with counterAtomic := (job.counterAtomic + 0x80000000) % 2 ^ 64 }

/-- Lines 293-299 of `atomicCounterHandler`: the `load`, the extraction of the completed count
and the write of the percentage, made before `counterMutex` is given back. -/
def atomicCounterPublish {K V : Type} (job : JobContext K V) : JobContext K V :=
  let counterValue := job.counterAtomic
  let processedPairs := (counterValue >>> 31) &&& 0x7fffffff
  { job with jobState :=
      { job.jobState with
        percentage := floatPercent processedPairs job.maxSize } }

/-- Source `atomicCounterHandler` (284-306) when nothing runs between its two halves. -/
def atomicCounterHandler {K V : Type} (job : JobContext K V) : JobContext K V :=
  atomicCounterPublish (atomicCounterAdd job)

/-- Source `InitReduceStage` (330-336). -/
def InitReduceStage {K V : Type} (jobContext : JobContext K V) : JobContext K V :=
  let j1 := { jobContext with maxSize := jobContext.shuffleArray.length }
  let j2 := { j1 with counterAtomic := 0 }
  let j3 := { j2 with counterAtomic := (j2.counterAtomic + 0x8000000000000000) % 2 ^ 64 }
  let j4 := { j3 with counterAtomic := (j3.counterAtomic + 0x4000000000000000) % 2 ^ 64 }
  { j4 with jobState := { stage := stage_t.REDUCE_STAGE, percentage := 0 } }

/-- Source `getJobState` (523-534): the snapshot of the job state. -/
def getJobState {K V : Type} (job : JobContext K V) : JobState :=
  job.jobState

/-- Where a worker stands in `executeReduce` (240-251); the argument is its local
`OutputPairIndex`. -/
inductive ReduceWorker where
  /-- at the test of the `while` loop (242) -/
  | atLoop (OutputPairIndex : Nat)
  /-- after 243-246 with a claimed index below the size, about to call `reduce` (247-249, 326) -/
  | claimed (OutputPairIndex : Nat)
  /-- `reduce` has returned; at the entry of `atomicCounterHandler`, before `counterMutex` -/
  | reduced (OutputPairIndex : Nat)
  /-- inside `atomicCounterHandler` holding `counterMutex`, after the `fetch_add` (291) -/
  | inHandler (OutputPairIndex : Nat)
  /-- `executeReduce` has returned -/
  | returned
deriving DecidableEq, Repr

/-- The worker holds `counterMutex`. -/
def ReduceWorker.holdsMutex : ReduceWorker → Bool
  | ReduceWorker.inHandler _ => true
  | _ => false

/-- The worker has called `reduce` and not yet recorded the completion. -/
def ReduceWorker.awaitsMutex : ReduceWorker → Bool
  | ReduceWorker.reduced _ => true
  | _ => false

/-- The reduce phase as seen by an interleaving of the workers: the shared job context, where
each worker stands, and the group indices handed to the client's `reduce` so far, in call
order. -/
structure ReducePhase (K V : Type) where
  job : JobContext K V
  workers : List ReduceWorker
  reduceCalls : List Nat

/-- The reduce phase as the barrier releases it: `InitReduceStage` has run (115) and each of the
`N` workers enters `executeReduce` with `OutputPairIndex = 0`. -/
def reduceStart {K V : Type} (job : JobContext K V) (N : Nat) : ReducePhase K V :=
  { job := InitReduceStage job
    workers := List.replicate N (ReduceWorker.atLoop 0)
    reduceCalls := [] }

/-- One atomic action of worker `w` in `executeReduce`; `none` when `w` is no worker, has
returned, or waits for `counterMutex` while another worker holds it. -/
def reduceStep {K V : Type} (s : ReducePhase K V) (w : Nat) : Option (ReducePhase K V) :=
  match s.workers[w]? with
  | none => none
  | some (ReduceWorker.atLoop i) =>
    if i < s.job.shuffleArray.length then
      let claim := getInputPairIndex s.job
      if claim.1 ≥ s.job.shuffleArray.length then
        some { s with job := claim.2, workers := s.workers.set w ReduceWorker.returned }
      else
        some { s with job := claim.2, workers := s.workers.set w (ReduceWorker.claimed claim.1) }
    else some { s with workers := s.workers.set w ReduceWorker.returned }
  | some (ReduceWorker.claimed i) =>
    some { s with reduceCalls := s.reduceCalls ++ [i],
                  workers := s.workers.set w (ReduceWorker.reduced i) }
  | some (ReduceWorker.reduced i) =>
    if s.workers.any ReduceWorker.holdsMutex then none
    else
      some { s with job := atomicCounterAdd s.job,
                    workers := s.workers.set w (ReduceWorker.inHandler i) }
  | some (ReduceWorker.inHandler i) =>
    some { s with job := atomicCounterPublish s.job,
                  workers := s.workers.set w (ReduceWorker.atLoop i) }
  | some ReduceWorker.returned => none

/-- Runs an interleaving, given as the sequence of the workers that act; `none` when a scheduled
worker cannot act. -/
def runSchedule {K V : Type} (s : ReducePhase K V) : List Nat → Option (ReducePhase K V)
  | [] => some s
  | w :: ws =>
    match reduceStep s w with
    | none => none
    | some s1 => runSchedule s1 ws

/-- Example job: one worker, after the map phase of an empty input collection (nothing was
emitted) and before the barrier. -/
def emptyInputJob : JobContext Nat String :=
  { shuffleArray := []
    counterAtomic := 1
    maxSize := 0
    intermediateVecs := [[]]
    jobState := { stage := stage_t.MAP_STAGE, percentage := 0 } }

/-- Invariant of the reduce phase for `G` groups and `N` workers; `c` is the number of index
claims made so far and `d` the number of completions recorded so far. -/
structure ReduceInv {K V : Type} (G N : Nat) (s : ReducePhase K V) (c d : Nat) : Prop where
  size : s.job.shuffleArray.length = G
  maxSize : s.job.maxSize = G
  stage : s.job.jobState.stage = stage_t.REDUCE_STAGE
  nworkers : s.workers.length = N
  word : s.job.counterAtomic = 3 * 2 ^ 62 + d * 2 ^ 31 + c
  claims_le : c ≤ G + s.workers.count ReduceWorker.returned
  once : ∀ i, s.reduceCalls.count i + s.workers.count (ReduceWorker.claimed i)
    = if i < c ∧ i < G then 1 else 0
  completions : d + s.workers.countP ReduceWorker.awaitsMutex = s.reduceCalls.length
  mutex : s.workers.countP ReduceWorker.holdsMutex ≤ 1
  returned_late : ReduceWorker.returned ∈ s.workers → G ≤ c
  index_ok : ∀ x ∈ s.workers,
    (∀ i, x = ReduceWorker.atLoop i → i = 0 ∨ i < G) ∧
    (∀ i, x = ReduceWorker.claimed i ∨ x = ReduceWorker.reduced i ∨
      x = ReduceWorker.inHandler i → i < G)
  percent : s.workers.countP ReduceWorker.holdsMutex = 0 →
    s.job.jobState.percentage = floatPercent d G

/-- Number of actions a worker makes from where it stands until it is next at the test of the
`while` loop (242), plus one; 0 once `executeReduce` has returned. -/
def ReduceWorker.rank : ReduceWorker → Nat
  | ReduceWorker.atLoop _ => 1
  | ReduceWorker.claimed _ => 4
  | ReduceWorker.reduced _ => 3
  | ReduceWorker.inHandler _ => 2
  | ReduceWorker.returned => 0

/-- Example job: `exampleJob` as the shuffle leaves it, with its two groups. -/
def exampleShuffled : JobContext Nat String :=
  { shuffleArray := [[(2, "b")], [(1, "a"), (1, "c")]]
    counterAtomic := 0x8000000180000000
    maxSize := 3
    intermediateVecs := [[], []]
    jobState := { stage := stage_t.SHUFFLE_STAGE, percentage := 4369067 / 65536 } }

/-- Example interleaving of two workers on `exampleShuffled`: worker 0 claims index 0, worker 1
claims index 1 and reduces it first, worker 1 records its completion while worker 0 has already
left `reduce`, then worker 0 records its own, and both over-claim and return. -/
def exampleSchedule : List Nat := [0, 1, 1, 0, 1, 1, 0, 0, 0, 1]

/-- The reduce phase of `exampleShuffled` after `exampleSchedule`. -/
def exampleReduced : ReducePhase Nat String :=
  { job :=
      { shuffleArray := [[(2, "b")], [(1, "a"), (1, "c")]]
        counterAtomic := 0xC000000100000004
        maxSize := 2
        intermediateVecs := [[], []]
        jobState := { stage := stage_t.REDUCE_STAGE, percentage := 100 } }
    workers := [ReduceWorker.returned, ReduceWorker.returned]
    reduceCalls := [1, 0] }

/-- The job `emptyInputJob` as the shuffle leaves it: no group. -/
def emptyShuffled : JobContext Nat String :=
  { shuffleArray := []
    counterAtomic := 0x8000000000000000
    maxSize := 0
    intermediateVecs := [[]]
    jobState := { stage := stage_t.SHUFFLE_STAGE, percentage := 0 } }

/-- The reduce phase of `emptyShuffled` with one worker after the worker's only action. -/
def emptyReduced : ReducePhase Nat String :=
  { job :=
      { shuffleArray := []
        counterAtomic := 0xC000000000000000
        maxSize := 0
        intermediateVecs := [[]]
        jobState := { stage := stage_t.REDUCE_STAGE, percentage := 0 } }
    workers := [ReduceWorker.returned]
    reduceCalls := [] }

/-- Two keys are equivalent under the client's `operator<`: neither is less than the other (the
test of `collectPairsWithKey`, 409). -/
def keyEquiv {K : Type} (lt : K → K → Bool) (a b : K) : Bool :=
  !(lt a b) && !(lt b a)

/-- Number of distinct key-equivalence classes among the keys of a list, in the words of the
specification: a key is counted when no later key of the list is equivalent to it, so every
class is counted once, at its last occurrence. -/
def classCount {K : Type} (lt : K → K → Bool) : List K → Nat
  | [] => 0
  | k :: ks => (if ks.any (keyEquiv lt k) then 0 else 1) + classCount lt ks

/-- The pairs with the keys `0 .. n - 1` in ascending order, as a sorted worker vector holds
them. -/
def keyRun (n : Nat) : List (Nat × Unit) :=
  (List.range n).map (fun k => (k, ()))

/-- Example job: one worker whose map phase emitted `2^24 + 1 = 16777217` pairs with the
pairwise different keys `0 .. 2^24`; the worker's vector is sorted. -/
def manyKeysJob : JobContext Nat Unit :=
  { shuffleArray := []
    counterAtomic := 0
    maxSize := 0
    intermediateVecs := [keyRun 16777217]
    jobState := { stage := stage_t.MAP_STAGE, percentage := 0 } }

end MapReduce

/-! ## Theorems: thread table, id set and queue helpers -/

namespace Uthreads

/-- Lookup in a concatenation of two tables. -/
theorem tfind_append (m1 m2 : List (Int × Thread)) (k : Int) :
    tfind (m1 ++ m2) k = (tfind m1 k).orElse (fun _ => tfind m2 k) := by
  induction m1 with
  | nil => simp [tfind]
  | cons e m ih =>
    obtain ⟨a, b⟩ := e
    by_cases h : a = k <;> simp [tfind, h, ih]

/-- After `insert` of a new key the key is found with the inserted record. -/
theorem tfind_tinsert_self (m : List (Int × Thread)) (k : Int) (v : Thread)
    (h : tfind m k = none) : tfind (tinsert m k v) k = some v := by
  simp [tinsert, h, tfind_append, tfind]

/-- The `insert` of a key leaves the lookup of every other key as it was. -/
theorem tfind_tinsert_ne (m : List (Int × Thread)) (k k1 : Int) (v : Thread)
    (h : k1 ≠ k) : tfind (tinsert m k v) k1 = tfind m k1 := by
  unfold tinsert
  cases hk : tfind m k with
  | some x => rfl
  | none =>
    simp only [tfind_append, tfind]
    have : ¬ k = k1 := fun e => h e.symm
    cases tfind m k1 <;> simp [this]

/-- After `erase` the key is not found. -/
theorem tfind_terase_self (m : List (Int × Thread)) (k : Int) : tfind (terase m k) k = none := by
  induction m with
  | nil => rfl
  | cons e m ih =>
    obtain ⟨a, b⟩ := e
    by_cases h : a = k
    · simpa [terase, h] using ih
    · simpa [terase, h, tfind] using ih

/-- The `erase` of a key leaves the lookup of every other key as it was. -/
theorem tfind_terase_ne (m : List (Int × Thread)) (k k1 : Int) (h : k1 ≠ k) :
    tfind (terase m k) k1 = tfind m k1 := by
  induction m with
  | nil => rfl
  | cons e m ih =>
    obtain ⟨a, b⟩ := e
    by_cases h1 : a = k
    · have h2 : ¬ k = k1 := fun e => h e.symm
      simpa [terase, h1, tfind, h2] using ih
    · by_cases h2 : a = k1
      · subst h2
        simp [terase, h1, tfind]
      · simpa [terase, h1, tfind, h2] using ih

/-- Unfolding of `tmodify` on a non-empty table. -/
theorem tmodify_cons (a : Int) (b : Thread) (m : List (Int × Thread)) (k : Int)
    (f : Thread → Thread) :
    tmodify ((a, b) :: m) k f = (if a = k then (a, f b) else (a, b)) :: tmodify m k f := rfl

/-- After an in-place update the key is found with the updated record. -/
theorem tfind_tmodify_self (m : List (Int × Thread)) (k : Int) (f : Thread → Thread) :
    tfind (tmodify m k f) k = (tfind m k).map f := by
  induction m with
  | nil => rfl
  | cons e m ih =>
    obtain ⟨a, b⟩ := e
    rw [tmodify_cons]
    by_cases h : a = k
    · rw [if_pos h]; simp [tfind, h]
    · rw [if_neg h]; simp [tfind, h, ih]

/-- An in-place update leaves the lookup of every other key as it was. -/
theorem tfind_tmodify_ne (m : List (Int × Thread)) (k k1 : Int) (f : Thread → Thread)
    (h : k1 ≠ k) : tfind (tmodify m k f) k1 = tfind m k1 := by
  induction m with
  | nil => rfl
  | cons e m ih =>
    obtain ⟨a, b⟩ := e
    rw [tmodify_cons]
    by_cases h1 : a = k
    · have h2 : ¬ a = k1 := by rw [h1]; exact fun e => h e.symm
      rw [if_pos h1]; simp [tfind, h2, ih]
    · rw [if_neg h1]
      by_cases h2 : a = k1
      · simp [tfind, h2]
      · simp [tfind, h2, ih]

/-- The loop of `removeTid` appends the kept ids, in order, to `tempQueue`. -/
theorem removeTidLoop_eq (e : Int) (q temp : List Int) :
    removeTidLoop e q temp = temp ++ listRemove q e := by
  induction q generalizing temp with
  | nil => simp [removeTidLoop, listRemove]
  | cons x q ih =>
    by_cases h : x = e
    · simp [removeTidLoop, h, ih, listRemove]
    · simp [removeTidLoop, h, ih, listRemove]

/-- The function `removeTid` deletes every occurrence of the id and keeps the order. -/
theorem removeTid_eq (q : List Int) (e : Int) : removeTid q e = listRemove q e := by
  simp [removeTid, removeTidLoop_eq]

/-- Membership after `std::set::insert`. -/
theorem mem_setInsert (x y : Int) (l : List Int) : y ∈ setInsert x l ↔ y = x ∨ y ∈ l := by
  induction l with
  | nil => simp [setInsert]
  | cons a l ih =>
    unfold setInsert
    split
    · simp
    · split
      · rename_i h1 h2
        subst h2
        simp
      · simp [ih]
        tauto

/-- The ordered insert keeps the set strictly increasing. -/
theorem setInsert_sorted (x : Int) (l : List Int) (h : l.Pairwise (· < ·)) :
    (setInsert x l).Pairwise (· < ·) := by
  induction l with
  | nil => simp [setInsert]
  | cons a l ih =>
    unfold setInsert
    split
    · rename_i h1
      refine List.Pairwise.cons ?_ h
      intro b hb
      rcases List.mem_cons.1 hb with rfl | hb
      · exact h1
      · exact lt_trans h1 (List.rel_of_pairwise_cons h hb)
    · split
      · exact h
      · rename_i h1 h2
        refine List.Pairwise.cons ?_ (ih h.of_cons)
        intro b hb
        rcases (mem_setInsert x b l).1 hb with rfl | hb
        · omega
        · exact List.rel_of_pairwise_cons h hb

/-- With all wake-times 0 and a positive counter the wake test fails: nothing changes. -/
theorem wakeStep_id (g g1 : ThreadGlobals) (tid : Int) (h : wakeStep g tid = some g1)
    (hw : ∀ t th, tfind g.threads t = some th → th.sleepTime = 0)
    (hc : 1 ≤ g.threadQuantumCounter) : g1 = g := by
  unfold wakeStep at h
  cases hf : tfind g.threads tid with
  | none => simp [hf] at h
  | some th =>
    have h0 := hw tid th hf
    have : ¬ (th.sleepTime ≥ g.threadQuantumCounter) := by omega
    simp only [hf, this, if_false] at h
    exact (Option.some.inj h).symm

/-- With all wake-times 0 and a positive counter the wake-up loop changes nothing. -/
theorem wakeLoop_id (l : List Int) (g g1 : ThreadGlobals) (h : wakeLoop l g = some g1)
    (hw : ∀ t th, tfind g.threads t = some th → th.sleepTime = 0)
    (hc : 1 ≤ g.threadQuantumCounter) : g1 = g := by
  induction l with
  | nil => exact (Option.some.inj h).symm
  | cons tid rest ih =>
    unfold wakeLoop at h
    cases hs : wakeStep g tid with
    | none => simp [hs] at h
    | some g2 =>
      have := wakeStep_id g g2 tid hs hw hc
      subst this
      simp only [hs] at h
      exact ih h

/-- What a switch without termination does on a state whose records all have wake-time 0. -/
theorem pass_keep_spec (g g1 : ThreadGlobals) (x : Int)
    (hw : ∀ t th, tfind g.threads t = some th → th.sleepTime = 0)
    (hc : 1 ≤ g.threadQuantumCounter)
    (h : PassToNextThread g x false = some g1) :
    ∃ cur front rest nxt,
      tfind g.threads g.tidOfCurrentThread = some cur ∧
      g.readyThreadQueue ++ (if cur.isBlocked then [] else [g.tidOfCurrentThread])
        = front :: rest ∧
      tfind g.threads front = some nxt ∧
      g1 = { g with
        tidOfCurrentThread := front
        readyThreadQueue := rest
        threadQuantumCounter := g.threadQuantumCounter + 1
        threads := tmodify g.threads front (fun t => t.setThreadQuanta (nxt.threadQuanta + 1)) } := by
  unfold PassToNextThread at h
  simp only [Bool.false_eq_true, if_false] at h
  cases hf : tfind g.threads g.tidOfCurrentThread with
  | none => simp [hf] at h
  | some cur =>
    simp only [hf] at h
    cases hb : cur.isBlocked with
    | true =>
      simp only [hb, Bool.not_true, Bool.false_eq_true, if_false] at h
      cases hq : g.readyThreadQueue with
      | nil => simp [hq] at h
      | cons front rest =>
        simp only [hq] at h
        cases hl : wakeLoop g.sleepingThread
            { g with tidOfCurrentThread := front, readyThreadQueue := rest } with
        | none => simp [hl] at h
        | some g3 =>
          have e3 := wakeLoop_id _ _ _ hl hw hc
          subst e3
          simp only [hl] at h
          cases hn : tfind g.threads front with
          | none => simp [hn] at h
          | some nxt =>
            simp only [hn] at h
            refine ⟨cur, front, rest, nxt, rfl, by simp [hb, hq], hn, ?_⟩
            exact (Option.some.inj h).symm
    | false =>
      simp only [hb, Bool.not_false, if_true] at h
      cases hq : g.readyThreadQueue ++ [g.tidOfCurrentThread] with
      | nil => simp at hq
      | cons front rest =>
        simp only [hq] at h
        cases hl : wakeLoop g.sleepingThread
            { g with tidOfCurrentThread := front, readyThreadQueue := rest } with
        | none => simp [hl] at h
        | some g3 =>
          have e3 := wakeLoop_id _ _ _ hl hw hc
          subst e3
          simp only [hl] at h
          cases hn : tfind g.threads front with
          | none => simp [hn] at h
          | some nxt =>
            simp only [hn] at h
            refine ⟨cur, front, rest, nxt, rfl, by simpa [hb] using hq, hn, ?_⟩
            exact (Option.some.inj h).symm

/-- What a self-terminating switch does on a state whose records all have wake-time 0. -/
theorem pass_term_spec (g g1 : ThreadGlobals) (tid : Int)
    (hw : ∀ t th, tfind g.threads t = some th → th.sleepTime = 0)
    (hc : 1 ≤ g.threadQuantumCounter)
    (h : PassToNextThread g tid true = some g1) :
    ∃ front rest nxt,
      g.readyThreadQueue = front :: rest ∧
      tfind g.threads front = some nxt ∧
      g1 = (match tfind (tmodify g.threads front
                (fun t => t.setThreadQuanta (nxt.threadQuanta + 1))) tid with
        | some _ =>
          { g with
            tidOfCurrentThread := front
            readyThreadQueue := rest
            threadQuantumCounter := g.threadQuantumCounter + 1
            tidManager := g.tidManager.releaseTid tid
            threads := terase (tmodify g.threads front
                (fun t => t.setThreadQuanta (nxt.threadQuanta + 1))) tid }
        | none =>
          { g with
            tidOfCurrentThread := front
            readyThreadQueue := rest
            threadQuantumCounter := g.threadQuantumCounter + 1
            threads := tmodify g.threads front
                (fun t => t.setThreadQuanta (nxt.threadQuanta + 1)) }) := by
  unfold PassToNextThread at h
  simp only [if_true] at h
  cases hq : g.readyThreadQueue with
  | nil => simp [hq] at h
  | cons front rest =>
    simp only [hq] at h
    cases hl : wakeLoop g.sleepingThread
        { g with tidOfCurrentThread := front, readyThreadQueue := rest } with
    | none => simp [hl] at h
    | some g3 =>
      have e3 := wakeLoop_id _ _ _ hl hw hc
      subst e3
      simp only [hl] at h
      cases hn : tfind g.threads front with
      | none => simp [hn] at h
      | some nxt =>
        simp only [hn] at h
        refine ⟨front, rest, nxt, rfl, hn, ?_⟩
        cases ht : tfind (tmodify g.threads front
                (fun t => t.setThreadQuanta (nxt.threadQuanta + 1))) tid with
        | none =>
          simp only [ht] at h
          exact (Option.some.inj h).symm
        | some th =>
          simp only [ht] at h
          exact (Option.some.inj h).symm

/-- Lookup after an in-place update, for any key. -/
theorem tfind_tmodify (m : List (Int × Thread)) (k t : Int) (f : Thread → Thread) :
    tfind (tmodify m k f) t = if t = k then (tfind m k).map f else tfind m t := by
  by_cases h : t = k
  · subst h; simp [tfind_tmodify_self]
  · simp [h, tfind_tmodify_ne m k t f h]

/-- Lookup after `erase`, for any key. -/
theorem tfind_terase (m : List (Int × Thread)) (k t : Int) :
    tfind (terase m k) t = if t = k then none else tfind m t := by
  by_cases h : t = k
  · subst h; simp [tfind_terase_self]
  · simp [h, tfind_terase_ne m k t h]

/-- Lookup after `insert` of a new key, for any key. -/
theorem tfind_tinsert (m : List (Int × Thread)) (k t : Int) (v : Thread)
    (hk : tfind m k = none) :
    tfind (tinsert m k v) t = if t = k then some v else tfind m t := by
  by_cases h : t = k
  · subst h; simp [tfind_tinsert_self m t v hk]
  · simp [h, tfind_tinsert_ne m k t v h]

/-- Setting the quantum count keeps the blocked flag. -/
theorem quanta_isBlocked (th : Thread) (q : Int) : (th.setThreadQuanta q).isBlocked = th.isBlocked := rfl
/-- Setting the quantum count keeps the wake-time. -/
theorem quanta_sleepTime (th : Thread) (q : Int) : (th.setThreadQuanta q).sleepTime = th.sleepTime := rfl
/-- Setting the blocked flag keeps the wake-time. -/
theorem blocked_sleepTime (th : Thread) (b : Bool) : (th.setIsBlocked b).sleepTime = th.sleepTime := rfl
/-- Reading the blocked flag after setting it. -/
theorem blocked_isBlocked (th : Thread) (b : Bool) : (th.setIsBlocked b).isBlocked = b := rfl

/-- A record found after `tmodify` comes from a record of the old table under the same key. -/
theorem tfind_tmodify_some (m : List (Int × Thread)) (k t : Int) (f : Thread → Thread)
    (th : Thread) (h : tfind (tmodify m k f) t = some th) :
    ∃ th0, tfind m t = some th0 ∧ (th = th0 ∨ (t = k ∧ th = f th0)) := by
  rw [tfind_tmodify] at h
  by_cases e : t = k
  · subst e
    simp only [if_true] at h
    cases h0 : tfind m t with
    | none => simp [h0] at h
    | some th0 =>
      simp [h0] at h
      exact ⟨th0, rfl, Or.inr ⟨rfl, h.symm⟩⟩
  · simp only [e, if_false] at h
    exact ⟨th, h, Or.inl rfl⟩

/-- A record that is present and not blocked stays so when only quantum counts change. -/
theorem runnable_tmodify_quanta (m : List (Int × Thread)) (k t : Int) (q : Int)
    (h : ∃ th, tfind m t = some th ∧ th.isBlocked = false) :
    ∃ th, tfind (tmodify m k (fun x => x.setThreadQuanta q)) t = some th ∧ th.isBlocked = false := by
  obtain ⟨th, h1, h2⟩ := h
  rw [tfind_tmodify]
  by_cases e : t = k
  · subst e
    simp only [if_true, h1, Option.map_some']
    exact ⟨_, rfl, h2⟩
  · simp only [e, if_false]
    exact ⟨th, h1, h2⟩

/-- A switch without termination, run on a `Core` state, ends in a state with the invariant. -/
theorem core_pass_keep (g g1 : ThreadGlobals) (x : Int) (hc : Core g)
    (h : PassToNextThread g x false = some g1) : Inv g1 := by
  obtain ⟨cur, front, rest, nxt, hcur, hq, hn, rfl⟩ :=
    pass_keep_spec g g1 x hc.no_wake hc.counter_pos h
  -- every id of the queue after the re-enqueue is present and not blocked
  have hall : ∀ t ∈ front :: rest, ∃ th, tfind g.threads t = some th ∧ th.isBlocked = false := by
    intro t ht
    rw [← hq, List.mem_append] at ht
    rcases ht with ht | ht
    · exact hc.ready_ok t ht
    · by_cases hb : cur.isBlocked = true
      · simp [hb] at ht
      · simp only [hb, if_false, List.mem_singleton] at ht
        simp only [Bool.false_eq_true, if_false, List.mem_singleton] at ht
        subst ht
        exact ⟨cur, hcur, by simpa using hb⟩
  have hnd : (front :: rest).Nodup := by
    rw [← hq]
    by_cases hb : cur.isBlocked = true
    · simpa [hb] using hc.ready_nodup
    · simp only [hb, if_false]
      exact List.Nodup.append hc.ready_nodup (List.nodup_singleton _)
        (by simpa using hc.cur_not_ready)
  have hmain : (0 : Int) ∈ front :: rest := by
    rw [← hq, List.mem_append]
    rcases hc.main_runnable with h0 | h0
    · right
      obtain ⟨th0, h1, h2⟩ := hc.main_ok
      rw [h0] at hcur
      rw [hcur] at h1
      cases h1
      simp [h2, h0]
    · exact Or.inl h0
  refine ⟨⟨hc.free_sorted, hc.free_range, ?_, ?_, ?_, ?_, ?_, ?_, ?_, ?_, ?_, ?_⟩, ?_⟩
  · intro t ht
    dsimp only
    rw [tfind_tmodify]
    have := hc.free_absent t ht
    by_cases e : t = front
    · subst e; simp [this]
    · simp [e, this]
  · intro t th ht
    dsimp only at ht
    obtain ⟨th0, h0, _⟩ := tfind_tmodify_some _ _ _ _ _ ht
    exact hc.table_range t th0 h0
  · intro t th ht
    dsimp only at ht
    obtain ⟨th0, h0, h1 | ⟨_, h1⟩⟩ := tfind_tmodify_some _ _ _ _ _ ht
    · subst h1; exact hc.no_wake t _ h0
    · subst h1; exact hc.no_wake t th0 h0
  · show 1 ≤ g.threadQuantumCounter + 1
    have := hc.counter_pos
    omega
  · intro t ht
    exact runnable_tmodify_quanta _ _ _ _ (hall t (List.mem_cons_of_mem _ ht))
  · exact (List.nodup_cons.1 hnd).2
  · exact (List.nodup_cons.1 hnd).1
  · obtain ⟨th, h1, _⟩ := runnable_tmodify_quanta g.threads front front (nxt.threadQuanta + 1)
      (hall front (List.mem_cons_self _ _))
    exact ⟨th, h1⟩
  · exact runnable_tmodify_quanta _ _ _ _ hc.main_ok
  · rcases List.mem_cons.1 hmain with h0 | h0
    · exact Or.inl h0.symm
    · exact Or.inr h0
  · exact runnable_tmodify_quanta _ _ _ _ (hall front (List.mem_cons_self _ _))

/-- A self-terminating switch of a non-main running thread ends in a state with the invariant. -/
theorem core_pass_term (g g1 : ThreadGlobals) (hc : Core g)
    (h0 : g.tidOfCurrentThread ≠ 0)
    (h : PassToNextThread g g.tidOfCurrentThread true = some g1) : Inv g1 := by
  obtain ⟨front, rest, nxt, hq, hn, hg1⟩ :=
    pass_term_spec g g1 g.tidOfCurrentThread hc.no_wake hc.counter_pos h
  obtain ⟨cur, hcur⟩ := hc.cur_exists
  have hfc : front ≠ g.tidOfCurrentThread := by
    intro e
    apply hc.cur_not_ready
    rw [hq, ← e]
    exact List.mem_cons_self _ _
  have hfind : tfind (tmodify g.threads front
      (fun t => t.setThreadQuanta (nxt.threadQuanta + 1))) g.tidOfCurrentThread = some cur := by
    rw [tfind_tmodify, if_neg (Ne.symm hfc), hcur]
  rw [hfind] at hg1
  dsimp only at hg1
  subst hg1
  have hnd : (front :: rest).Nodup := hq ▸ hc.ready_nodup
  have hall : ∀ t ∈ front :: rest, ∃ th,
      tfind (terase (tmodify g.threads front
        (fun t => t.setThreadQuanta (nxt.threadQuanta + 1))) g.tidOfCurrentThread) t = some th
      ∧ th.isBlocked = false := by
    intro t ht
    have hne : t ≠ g.tidOfCurrentThread := by
      intro e
      apply hc.cur_not_ready
      rw [hq, ← e]
      exact ht
    rw [tfind_terase, if_neg hne]
    exact runnable_tmodify_quanta _ _ _ _ (hc.ready_ok t (hq ▸ ht))
  have hmain : (0 : Int) ∈ front :: rest := by
    rcases hc.main_runnable with e | e
    · exact absurd e h0
    · exact hq ▸ e
  refine ⟨⟨?_, ?_, ?_, ?_, ?_, ?_, ?_, ?_, ?_, ?_, ?_, ?_⟩, ?_⟩
  · exact setInsert_sorted _ _ hc.free_sorted
  · intro t ht
    rcases (mem_setInsert _ _ _).1 ht with e | e
    · subst e; exact hc.table_range _ cur hcur
    · exact hc.free_range t e
  · intro t ht
    dsimp only
    rw [tfind_terase]
    by_cases e : t = g.tidOfCurrentThread
    · simp [e]
    · rw [if_neg e]
      rcases (mem_setInsert _ _ _).1 ht with e1 | e1
      · exact absurd e1 e
      · rw [tfind_tmodify]
        have := hc.free_absent t e1
        by_cases e2 : t = front
        · subst e2; simp [this]
        · simp [e2, this]
  · intro t th ht
    dsimp only at ht
    rw [tfind_terase] at ht
    by_cases e : t = g.tidOfCurrentThread
    · simp [e] at ht
    · rw [if_neg e] at ht
      obtain ⟨th0, h1, _⟩ := tfind_tmodify_some _ _ _ _ _ ht
      exact hc.table_range t th0 h1
  · intro t th ht
    dsimp only at ht
    rw [tfind_terase] at ht
    by_cases e : t = g.tidOfCurrentThread
    · simp [e] at ht
    · rw [if_neg e] at ht
      obtain ⟨th0, h1, h2 | ⟨_, h2⟩⟩ := tfind_tmodify_some _ _ _ _ _ ht
      · subst h2; exact hc.no_wake t _ h1
      · subst h2; exact hc.no_wake t th0 h1
  · show 1 ≤ g.threadQuantumCounter + 1
    have := hc.counter_pos
    omega
  · intro t ht
    exact hall t (List.mem_cons_of_mem _ ht)
  · exact (List.nodup_cons.1 hnd).2
  · exact (List.nodup_cons.1 hnd).1
  · obtain ⟨th, h1, _⟩ := hall front (List.mem_cons_self _ _)
    exact ⟨th, h1⟩
  · exact hall 0 hmain
  · rcases List.mem_cons.1 hmain with e | e
    · exact Or.inl e.symm
    · exact Or.inr e
  · exact hall front (List.mem_cons_self _ _)

/-- The free set after `allocateTid` is the tail of the free set before. -/
theorem allocateTid_snd (m : ThreadTidManager) :
    m.allocateTid.2.availableTids = m.availableTids.tail := by
  unfold ThreadTidManager.allocateTid
  cases h : m.availableTids with
  | nil => simp [h]
  | cons a l => rfl

/-- The constructor fills the free set in increasing order. -/
theorem new_sorted (M : Nat) : (ThreadTidManager.new M).availableTids.Pairwise (fun a b => a < b) := by
  unfold ThreadTidManager.new
  refine List.Pairwise.map _ ?_ (List.pairwise_lt_range M)
  intro a b hab
  exact Int.ofNat_lt.2 hab

/-- The constructor fills the free set with non-negative ids. -/
theorem new_nonneg (M : Nat) : ∀ t ∈ (ThreadTidManager.new M).availableTids, 0 ≤ t := by
  intro t ht
  unfold ThreadTidManager.new at ht
  obtain ⟨n, _, rfl⟩ := List.mem_map.1 ht
  exact Int.ofNat_nonneg n

/-- All ids of the initial free set but the first are positive. -/
theorem new_tail_pos (M : Nat) : ∀ t ∈ (ThreadTidManager.new M).availableTids.tail, 0 < t := by
  intro t ht
  unfold ThreadTidManager.new at ht
  cases M with
  | zero => simp at ht
  | succ n =>
    rw [List.range_succ_eq_map] at ht
    simp at ht
    obtain ⟨a, _, rfl⟩ := ht
    omega

/-- The globals after a successful `uthread_init` on the pristine state. -/
theorem init_state (M : Nat) (q : Int) (hq : 0 < q) :
    (uthread_init (pristine M) q).2 =
      { THREAD_QUANTUM_DURATION := q
        threads := [(0, ⟨0, false, 1, 0⟩)]
        tidManager := (ThreadTidManager.new M).allocateTid.2
        threadQuantumCounter := 1
        tidOfCurrentThread := 0
        readyThreadQueue := []
        sleepingThread := [] } := by
  unfold uthread_init
  have : ¬ q ≤ 0 := by omega
  simp only [this, if_false]
  rfl

/-- The invariant holds after `uthread_init`. -/
theorem inv_init (M : Nat) (q : Int) (hq : 0 < q) : Inv (uthread_init (pristine M) q).2 := by
  rw [init_state M q hq]
  have hmain : ∃ th, tfind [((0 : Int), (⟨0, false, 1, 0⟩ : Thread))] 0 = some th ∧
      th.isBlocked = false := ⟨_, rfl, rfl⟩
  refine ⟨⟨?_, ?_, ?_, ?_, ?_, ?_, ?_, ?_, ?_, ?_, ?_, ?_⟩, ?_⟩
  · dsimp only
    rw [allocateTid_snd]
    exact (new_sorted M).tail
  · intro t ht
    dsimp only at ht
    rw [allocateTid_snd] at ht
    exact new_nonneg M t (List.mem_of_mem_tail ht)
  · intro t ht
    dsimp only at ht ⊢
    rw [allocateTid_snd] at ht
    have := new_tail_pos M t ht
    have h0 : ¬ (0 : Int) = t := by omega
    simp [tfind, h0]
  · intro t th ht
    dsimp only at ht
    by_cases h0 : (0 : Int) = t
    · omega
    · simp [tfind, h0] at ht
  · intro t th ht
    dsimp only at ht
    by_cases h0 : (0 : Int) = t
    · subst h0
      simp [tfind] at ht
      subst ht
      rfl
    · simp [tfind, h0] at ht
  · exact le_refl _
  · intro t ht
    exact absurd ht (List.not_mem_nil t)
  · exact List.nodup_nil
  · exact List.not_mem_nil _
  · exact ⟨_, rfl⟩
  · exact hmain
  · exact Or.inl rfl
  · exact hmain

/-- The timer signal keeps the invariant. -/
theorem inv_tick (g g1 : ThreadGlobals) (hi : Inv g) (h : (timer_handler g).next = some g1) :
    Inv g1 := by
  unfold timer_handler at h
  cases hp : PassToNextThread g (-1) false with
  | none => simp [hp, switchOutcome, Outcome.next] at h
  | some g2 =>
    simp only [hp, switchOutcome, Outcome.next, Option.some.injEq] at h
    subst h
    exact core_pass_keep g g2 (-1) hi.core hp

/-- The call `uthread_sleep` keeps the invariant. -/
theorem inv_sleep (g g1 : ThreadGlobals) (n : Int) (hi : Inv g)
    (h : (uthread_sleep g n).next = some g1) : Inv g1 := by
  unfold uthread_sleep at h
  by_cases h0 : g.tidOfCurrentThread = 0
  · simp only [h0, if_true, Outcome.next, Option.some.injEq] at h
    subst h
    exact hi
  · simp only [h0, if_false] at h
    unfold sleepUpdate at h
    obtain ⟨cur, hcur⟩ := hi.core.cur_exists
    simp only [hcur] at h
    have hc := hi.core
    have hcore : Core { g with sleepingThread := g.sleepingThread ++ [g.tidOfCurrentThread] } :=
      ⟨hc.free_sorted, hc.free_range, hc.free_absent, hc.table_range, hc.no_wake, hc.counter_pos,
        hc.ready_ok, hc.ready_nodup, hc.cur_not_ready, hc.cur_exists, hc.main_ok, hc.main_runnable⟩
    cases hp : PassToNextThread
        { g with sleepingThread := g.sleepingThread ++ [g.tidOfCurrentThread] } (-1) false with
    | none => simp [hp, switchOutcome, Outcome.next] at h
    | some g2 =>
      simp only [hp, switchOutcome, Outcome.next, Option.some.injEq] at h
      subst h
      exact core_pass_keep _ g2 (-1) hcore hp

/-- The successful path of `uthread_spawn`, as one record update. -/
theorem spawn_ok_eq (g : ThreadGlobals) (e st : Nat) (t : Int) (rest : List Int)
    (ha : g.tidManager.availableTids = t :: rest) (ht : t ≠ -1) (he : e ≠ 0) (hst : st ≠ 0) :
    uthread_spawn g e st = Outcome.ret t
      { g with
        tidManager := ⟨rest⟩
        threads := tinsert g.threads t ⟨st, false, 0, 0⟩
        readyThreadQueue := g.readyThreadQueue ++ [t] } := by
  unfold uthread_spawn
  have hal : g.tidManager.allocateTid = (t, ⟨rest⟩) := by
    unfold ThreadTidManager.allocateTid
    rw [ha]
  simp only [he, if_false, hal, ht, hst]

/-- The path of `uthread_spawn` on which the stack allocation fails. -/
theorem spawn_nostack_eq (g : ThreadGlobals) (e : Nat) (t : Int) (rest : List Int)
    (ha : g.tidManager.availableTids = t :: rest) (ht : t ≠ -1) (he : e ≠ 0) :
    uthread_spawn g e 0 = Outcome.ret (-1) { g with tidManager := ⟨rest⟩ } := by
  unfold uthread_spawn
  have hal : g.tidManager.allocateTid = (t, ⟨rest⟩) := by
    unfold ThreadTidManager.allocateTid
    rw [ha]
  simp only [he, if_false, hal, ht, if_true]

/-- The path of `uthread_spawn` on which no id is free. -/
theorem spawn_full_eq (g : ThreadGlobals) (e st : Nat)
    (ha : g.tidManager.availableTids = []) (he : e ≠ 0) :
    uthread_spawn g e st = Outcome.ret (-1) g := by
  unfold uthread_spawn
  have hal : g.tidManager.allocateTid = (-1, g.tidManager) := by
    unfold ThreadTidManager.allocateTid
    rw [ha]
  simp only [he, if_false, hal, if_true]

/-- The call `uthread_spawn` keeps the invariant on every path. -/
theorem inv_spawn (g g1 : ThreadGlobals) (e st : Nat) (hi : Inv g)
    (h : (uthread_spawn g e st).next = some g1) : Inv g1 := by
  have hc := hi.core
  by_cases he : e = 0
  · simp only [uthread_spawn, he, if_true, Outcome.next, Option.some.injEq] at h
    subst h; exact hi
  cases ha : g.tidManager.availableTids with
  | nil =>
    rw [spawn_full_eq g e st ha he] at h
    simp only [Outcome.next, Option.some.injEq] at h
    subst h; exact hi
  | cons t rest =>
    have htm : t ∈ g.tidManager.availableTids := by rw [ha]; exact List.mem_cons_self _ _
    have hsub : ∀ u ∈ rest, u ∈ g.tidManager.availableTids := by
      intro u hu; rw [ha]; exact List.mem_cons_of_mem _ hu
    have ht : t ≠ -1 := by
      have := hc.free_range t htm
      omega
    have hsorted : (t :: rest).Pairwise (fun a b => a < b) := ha ▸ hc.free_sorted
    have habs : tfind g.threads t = none := hc.free_absent t htm
    by_cases hst : st = 0
    · subst hst
      rw [spawn_nostack_eq g e t rest ha ht he] at h
      simp only [Outcome.next, Option.some.injEq] at h
      subst h
      exact ⟨⟨hsorted.of_cons, fun u hu => hc.free_range u (hsub u hu),
        fun u hu => hc.free_absent u (hsub u hu), hc.table_range, hc.no_wake, hc.counter_pos,
        hc.ready_ok, hc.ready_nodup, hc.cur_not_ready, hc.cur_exists, hc.main_ok,
        hc.main_runnable⟩, hi.cur_unblocked⟩
    · rw [spawn_ok_eq g e st t rest ha ht he hst] at h
      simp only [Outcome.next, Option.some.injEq] at h
      subst h
      -- records of existing threads are untouched
      have hkeep : ∀ u th, tfind g.threads u = some th →
          tfind (tinsert g.threads t ⟨st, false, 0, 0⟩) u = some th := by
        intro u th hu
        have hne : u ≠ t := by
          intro e1; rw [e1, habs] at hu; cases hu
        rw [tfind_tinsert _ _ _ _ habs, if_neg hne, hu]
      have hnew : tfind (tinsert g.threads t ⟨st, false, 0, 0⟩) t = some ⟨st, false, 0, 0⟩ := by
        rw [tfind_tinsert _ _ _ _ habs, if_pos rfl]
      have hnotin : t ∉ g.readyThreadQueue := by
        intro hm
        obtain ⟨th, h1, _⟩ := hc.ready_ok t hm
        rw [habs] at h1; cases h1
      refine ⟨⟨hsorted.of_cons, fun u hu => hc.free_range u (hsub u hu), ?_, ?_, ?_,
        hc.counter_pos, ?_, ?_, ?_, ?_, ?_, ?_⟩, ?_⟩
      · intro u hu
        dsimp only
        have hlt : t < u := List.rel_of_pairwise_cons hsorted hu
        have hne : u ≠ t := by omega
        rw [tfind_tinsert _ _ _ _ habs, if_neg hne]
        exact hc.free_absent u (hsub u hu)
      · intro u th hu
        dsimp only at hu
        rw [tfind_tinsert _ _ _ _ habs] at hu
        by_cases e1 : u = t
        · subst e1; exact hc.free_range u htm
        · rw [if_neg e1] at hu; exact hc.table_range u th hu
      · intro u th hu
        dsimp only at hu
        rw [tfind_tinsert _ _ _ _ habs] at hu
        by_cases e1 : u = t
        · rw [if_pos e1] at hu
          cases hu; rfl
        · rw [if_neg e1] at hu; exact hc.no_wake u th hu
      · intro u hu
        dsimp only at hu ⊢
        rcases List.mem_append.1 hu with hu | hu
        · obtain ⟨th, h1, h2⟩ := hc.ready_ok u hu
          exact ⟨th, hkeep u th h1, h2⟩
        · rw [List.mem_singleton.1 hu]
          exact ⟨_, hnew, rfl⟩
      · exact List.Nodup.append hc.ready_nodup (List.nodup_singleton _)
          (by simpa using hnotin)
      · dsimp only
        intro hm
        rcases List.mem_append.1 hm with hm | hm
        · exact hc.cur_not_ready hm
        · obtain ⟨th, h1⟩ := hc.cur_exists
          rw [List.mem_singleton.1 hm, habs] at h1; cases h1
      · obtain ⟨th, h1⟩ := hc.cur_exists
        exact ⟨th, hkeep _ th h1⟩
      · obtain ⟨th, h1, h2⟩ := hc.main_ok
        exact ⟨th, hkeep _ th h1, h2⟩
      · rcases hc.main_runnable with h0 | h0
        · exact Or.inl h0
        · exact Or.inr (List.mem_append_left _ h0)
      · obtain ⟨th, h1, h2⟩ := hi.cur_unblocked
        exact ⟨th, hkeep _ th h1, h2⟩

/-- Membership after `std::list::remove`. -/
theorem mem_listRemove (l : List Int) (tid x : Int) : x ∈ listRemove l tid ↔ x ∈ l ∧ x ≠ tid := by
  simp [listRemove]

/-- The path of `uthread_terminate` for another, existing thread, as one record update. -/
theorem terminate_other_eq (g : ThreadGlobals) (tid : Int) (th : Thread)
    (h0 : tid ≠ 0) (hf : tfind g.threads tid = some th) (hcur : tid ≠ g.tidOfCurrentThread) :
    uthread_terminate g tid = Outcome.ret 0
      { g with
        tidManager := g.tidManager.releaseTid tid
        threads := terase g.threads tid
        readyThreadQueue := listRemove g.readyThreadQueue tid
        sleepingThread := listRemove g.sleepingThread tid } := by
  unfold uthread_terminate
  simp only [h0, if_false, hf, hcur, removeTid_eq]

/-- The call `uthread_terminate` keeps the invariant. -/
theorem inv_terminate (g g1 : ThreadGlobals) (tid : Int) (hi : Inv g)
    (h : (uthread_terminate g tid).next = some g1) : Inv g1 := by
  have hc := hi.core
  by_cases h0 : tid = 0
  · simp [uthread_terminate, h0, Outcome.next] at h
  cases hf : tfind g.threads tid with
  | none =>
    simp only [uthread_terminate, h0, if_false, hf, Outcome.next, Option.some.injEq] at h
    subst h; exact hi
  | some th =>
    by_cases hcur : tid = g.tidOfCurrentThread
    · subst hcur
      simp only [uthread_terminate, h0, if_false, hf, if_true] at h
      cases hp : PassToNextThread g g.tidOfCurrentThread true with
      | none =>
        simp [hp, switchOutcome, Outcome.next] at h
      | some g2 =>
        simp only [hp, switchOutcome, Outcome.next, Option.some.injEq] at h
        subst h
        exact core_pass_term g g2 hc h0 hp
    · rw [terminate_other_eq g tid th h0 hf hcur] at h
      simp only [Outcome.next, Option.some.injEq] at h
      subst h
      have hkeep : ∀ u x, u ≠ tid → tfind g.threads u = some x →
          tfind (terase g.threads tid) u = some x := by
        intro u x hu hx
        rw [tfind_terase, if_neg hu, hx]
      have hback : ∀ u x, tfind (terase g.threads tid) u = some x → tfind g.threads u = some x := by
        intro u x hx
        rw [tfind_terase] at hx
        by_cases e : u = tid
        · simp [e] at hx
        · simpa [e] using hx
      refine ⟨⟨setInsert_sorted _ _ hc.free_sorted, ?_, ?_, ?_, ?_, hc.counter_pos, ?_, ?_, ?_,
        ?_, ?_, ?_⟩, ?_⟩
      · intro u hu
        rcases (mem_setInsert _ _ _).1 hu with e | e
        · subst e; exact hc.table_range _ th hf
        · exact hc.free_range u e
      · intro u hu
        dsimp only
        rw [tfind_terase]
        by_cases e : u = tid
        · simp [e]
        · rw [if_neg e]
          rcases (mem_setInsert _ _ _).1 hu with e1 | e1
          · exact absurd e1 e
          · exact hc.free_absent u e1
      · intro u x hx
        exact hc.table_range u x (hback u x hx)
      · intro u x hx
        exact hc.no_wake u x (hback u x hx)
      · intro u hu
        obtain ⟨hu1, hu2⟩ := (mem_listRemove _ _ _).1 hu
        obtain ⟨x, h1, h2⟩ := hc.ready_ok u hu1
        exact ⟨x, hkeep u x hu2 h1, h2⟩
      · exact hc.ready_nodup.filter _
      · intro hm
        exact hc.cur_not_ready ((mem_listRemove _ _ _).1 hm).1
      · obtain ⟨x, h1⟩ := hc.cur_exists
        exact ⟨x, hkeep _ x (Ne.symm hcur) h1⟩
      · obtain ⟨x, h1, h2⟩ := hc.main_ok
        exact ⟨x, hkeep _ x (Ne.symm h0) h1, h2⟩
      · rcases hc.main_runnable with e | e
        · exact Or.inl e
        · exact Or.inr ((mem_listRemove _ _ _).2 ⟨e, Ne.symm h0⟩)
      · obtain ⟨x, h1, h2⟩ := hi.cur_unblocked
        exact ⟨x, hkeep _ x (Ne.symm hcur) h1, h2⟩

/-- The path of `uthread_block` for another, existing, non-main thread, as one record update. -/
theorem block_other_eq (g : ThreadGlobals) (tid : Int) (th : Thread)
    (h0 : tid ≠ 0) (hf : tfind g.threads tid = some th) (hcur : tid ≠ g.tidOfCurrentThread) :
    uthread_block g tid = Outcome.ret 0
      { g with
        threads := tmodify g.threads tid (fun t => t.setIsBlocked true)
        readyThreadQueue := listRemove g.readyThreadQueue tid } := by
  unfold uthread_block
  simp only [h0, if_false, hf, hcur, removeTid_eq]

/-- The path of `uthread_resume` for a blocked thread, as one record update. -/
theorem resume_blocked_eq (g : ThreadGlobals) (tid : Int) (th : Thread)
    (hf : tfind g.threads tid = some th) (hb : th.isBlocked = true) :
    uthread_resume g tid = Outcome.ret 0
      { g with
        threads := tmodify g.threads tid (fun t => t.setIsBlocked false)
        readyThreadQueue := g.readyThreadQueue ++ [tid] } := by
  unfold uthread_resume
  simp only [hf, hb, if_true]

/-- The path of `uthread_resume` for a thread that is not blocked. -/
theorem resume_unblocked_eq (g : ThreadGlobals) (tid : Int) (th : Thread)
    (hf : tfind g.threads tid = some th) (hb : th.isBlocked = false) :
    uthread_resume g tid = Outcome.ret 0 g := by
  unfold uthread_resume
  simp [hf, hb]

/-- Changing the blocked flag of `tid` keeps the `Core` fields that do not look at the flag. -/
theorem core_setIsBlocked (g : ThreadGlobals) (tid : Int) (b : Bool) (q : List Int)
    (hc : Core g) (h0 : tid ≠ 0)
    (hq : ∀ u ∈ q, ∃ x, tfind (tmodify g.threads tid (fun t => t.setIsBlocked b)) u = some x ∧
      x.isBlocked = false)
    (hnd : q.Nodup) (hcq : g.tidOfCurrentThread ∉ q)
    (hmain : g.tidOfCurrentThread = 0 ∨ 0 ∈ q) :
    Core { g with
      threads := tmodify g.threads tid (fun t => t.setIsBlocked b)
      readyThreadQueue := q } := by
  refine ⟨hc.free_sorted, hc.free_range, ?_, ?_, ?_, hc.counter_pos, hq, hnd, hcq, ?_, ?_, hmain⟩
  · intro u hu
    dsimp only
    rw [tfind_tmodify]
    have := hc.free_absent u hu
    by_cases e : u = tid
    · subst e; simp [this]
    · simp [e, this]
  · intro u x hx
    dsimp only at hx
    obtain ⟨x0, h1, _⟩ := tfind_tmodify_some _ _ _ _ _ hx
    exact hc.table_range u x0 h1
  · intro u x hx
    dsimp only at hx
    obtain ⟨x0, h1, h2 | ⟨_, h2⟩⟩ := tfind_tmodify_some _ _ _ _ _ hx
    · subst h2; exact hc.no_wake u _ h1
    · subst h2; exact hc.no_wake u x0 h1
  · obtain ⟨x, h1⟩ := hc.cur_exists
    dsimp only
    rw [tfind_tmodify]
    by_cases e : g.tidOfCurrentThread = tid
    · rw [if_pos e, ← e, h1]; exact ⟨_, rfl⟩
    · rw [if_neg e]; exact ⟨x, h1⟩
  · obtain ⟨x, h1, h2⟩ := hc.main_ok
    dsimp only
    rw [tfind_tmodify, if_neg (Ne.symm h0)]
    exact ⟨x, h1, h2⟩

/-- The call `uthread_block` keeps the invariant. -/
theorem inv_block (g g1 : ThreadGlobals) (tid : Int) (hi : Inv g)
    (h : (uthread_block g tid).next = some g1) : Inv g1 := by
  have hc := hi.core
  cases hf : tfind g.threads tid with
  | none =>
    simp only [uthread_block, hf, Outcome.next, Option.some.injEq] at h
    subst h; exact hi
  | some th =>
    by_cases h0 : tid = 0
    · subst h0
      simp only [uthread_block, hf, if_true, Outcome.next, Option.some.injEq] at h
      subst h; exact hi
    by_cases hcur : tid = g.tidOfCurrentThread
    · subst hcur
      have hcore : Core { g with
          threads := tmodify g.threads g.tidOfCurrentThread (fun t => t.setIsBlocked true)
          readyThreadQueue := g.readyThreadQueue } := by
        refine core_setIsBlocked g _ true _ hc h0 ?_ hc.ready_nodup hc.cur_not_ready
          hc.main_runnable
        intro u hu
        have hne : u ≠ g.tidOfCurrentThread := fun e => hc.cur_not_ready (e ▸ hu)
        rw [tfind_tmodify, if_neg hne]
        exact hc.ready_ok u hu
      simp only [uthread_block, hf, h0, if_false, if_true] at h
      cases hp : PassToNextThread { g with
          threads := tmodify g.threads g.tidOfCurrentThread (fun t => t.setIsBlocked true) }
          (-1) false with
      | none => simp [hp, switchOutcome, Outcome.next] at h
      | some g2 =>
        simp only [hp, switchOutcome, Outcome.next, Option.some.injEq] at h
        subst h
        exact core_pass_keep _ g2 (-1) hcore hp
    · rw [block_other_eq g tid th h0 hf hcur] at h
      simp only [Outcome.next, Option.some.injEq] at h
      subst h
      refine ⟨core_setIsBlocked g tid true _ hc h0 ?_ (hc.ready_nodup.filter _) ?_ ?_, ?_⟩
      · intro u hu
        obtain ⟨hu1, hu2⟩ := (mem_listRemove _ _ _).1 hu
        rw [tfind_tmodify, if_neg hu2]
        exact hc.ready_ok u hu1
      · intro hm
        exact hc.cur_not_ready ((mem_listRemove _ _ _).1 hm).1
      · rcases hc.main_runnable with e | e
        · exact Or.inl e
        · exact Or.inr ((mem_listRemove _ _ _).2 ⟨e, Ne.symm h0⟩)
      · obtain ⟨x, h1, h2⟩ := hi.cur_unblocked
        dsimp only
        rw [tfind_tmodify, if_neg (Ne.symm hcur)]
        exact ⟨x, h1, h2⟩

/-- The call `uthread_resume` keeps the invariant. -/
theorem inv_resume (g g1 : ThreadGlobals) (tid : Int) (hi : Inv g)
    (h : (uthread_resume g tid).next = some g1) : Inv g1 := by
  have hc := hi.core
  cases hf : tfind g.threads tid with
  | none =>
    simp only [uthread_resume, hf, Outcome.next, Option.some.injEq] at h
    subst h; exact hi
  | some th =>
    cases hb : th.isBlocked with
    | false =>
      rw [resume_unblocked_eq g tid th hf hb] at h
      simp only [Outcome.next, Option.some.injEq] at h
      subst h; exact hi
    | true =>
      rw [resume_blocked_eq g tid th hf hb] at h
      simp only [Outcome.next, Option.some.injEq] at h
      subst h
      have h0 : tid ≠ 0 := by
        intro e
        obtain ⟨x, h1, h2⟩ := hc.main_ok
        rw [e, h1] at hf
        cases hf
        rw [hb] at h2; cases h2
      have hcur : tid ≠ g.tidOfCurrentThread := by
        intro e
        obtain ⟨x, h1, h2⟩ := hi.cur_unblocked
        rw [← e, hf] at h1
        cases h1
        rw [hb] at h2; cases h2
      have hnotin : tid ∉ g.readyThreadQueue := by
        intro hm
        obtain ⟨x, h1, h2⟩ := hc.ready_ok tid hm
        rw [hf] at h1
        cases h1
        rw [hb] at h2; cases h2
      refine ⟨core_setIsBlocked g tid false _ hc h0 ?_ ?_ ?_ ?_, ?_⟩
      · intro u hu
        rw [tfind_tmodify]
        rcases List.mem_append.1 hu with hu | hu
        · have hne : u ≠ tid := fun e => hnotin (e ▸ hu)
          rw [if_neg hne]
          exact hc.ready_ok u hu
        · rw [List.mem_singleton.1 hu, if_pos rfl, hf]
          exact ⟨_, rfl, rfl⟩
      · exact List.Nodup.append hc.ready_nodup (List.nodup_singleton _) (by simpa using hnotin)
      · intro hm
        rcases List.mem_append.1 hm with hm | hm
        · exact hc.cur_not_ready hm
        · exact hcur (List.mem_singleton.1 hm).symm
      · rcases hc.main_runnable with e | e
        · exact Or.inl e
        · exact Or.inr (List.mem_append_left _ e)
      · obtain ⟨x, h1, h2⟩ := hi.cur_unblocked
        dsimp only
        rw [tfind_tmodify, if_neg (Ne.symm hcur)]
        exact ⟨x, h1, h2⟩

/-- Every call keeps the invariant. -/
theorem inv_perform (g g1 : ThreadGlobals) (c : Call) (hi : Inv g)
    (h : (perform g c).next = some g1) : Inv g1 := by
  cases c with
  | spawn e st => exact inv_spawn g g1 e st hi h
  | terminate tid => exact inv_terminate g g1 tid hi h
  | block tid => exact inv_block g g1 tid hi h
  | resume tid => exact inv_resume g g1 tid hi h
  | sleep n => exact inv_sleep g g1 n hi h
  | tick => exact inv_tick g g1 hi h

/-- The invariant holds in every reachable state. -/
theorem reachable_inv (M : Nat) (g : ThreadGlobals) (hg : Reachable M g) : Inv g := by
  induction hg with
  | init q hq => exact inv_init M q hq
  | step g g1 c _ hc ih => exact inv_perform g g1 c ih hc

/-- The invariant is kept along a run. -/
theorem inv_run (cs : List Call) (g g1 : ThreadGlobals) (hi : Inv g) (h : run g cs = some g1) :
    Inv g1 := by
  induction cs generalizing g with
  | nil =>
    simp only [run, Option.some.injEq] at h
    subst h; exact hi
  | cons c cs ih =>
    unfold run at h
    cases hn : (perform g c).next with
    | none => simp [hn] at h
    | some g2 =>
      simp only [hn] at h
      exact ih g2 (inv_perform g g2 c hi hn) h

/-- A run from a reachable state ends in a reachable state. -/
theorem reachable_run (M : Nat) (cs : List Call) (g g1 : ThreadGlobals) (hg : Reachable M g)
    (h : run g cs = some g1) : Reachable M g1 := by
  induction cs generalizing g with
  | nil =>
    simp only [run, Option.some.injEq] at h
    subst h; exact hg
  | cons c cs ih =>
    unfold run at h
    cases hn : (perform g c).next with
    | none => simp [hn] at h
    | some g2 =>
      simp only [hn] at h
      exact ih g2 (Reachable.step g g2 c hg hn) h

/-- The example state `started` is reachable. -/
theorem started_reachable : Reachable 4 started := Reachable.init 100 (by decide)

/-- The example state `twoWorkers` is `started` after two spawns. -/
theorem twoWorkers_run : run started [Call.spawn 1 4096, Call.spawn 1 8192] = some twoWorkers := by
  decide

/-- The example state `workerRunning` is `twoWorkers` after a timer signal. -/
theorem workerRunning_run : run twoWorkers [Call.tick] = some workerRunning := by decide

/-- The example state `workerAsleep` is `workerRunning` after `uthread_sleep(5)`. -/
theorem workerAsleep_run : run workerRunning [Call.sleep 5] = some workerAsleep := by decide

/-- The example state `sleeperBlocked` is `workerAsleep` after `uthread_block(1)`. -/
theorem sleeperBlocked_run : run workerAsleep [Call.block 1] = some sleeperBlocked := by decide

/-- The example state `twoWorkers` is reachable. -/
theorem twoWorkers_reachable : Reachable 4 twoWorkers :=
  reachable_run 4 _ _ _ started_reachable twoWorkers_run

/-- The example state `workerRunning` is reachable. -/
theorem workerRunning_reachable : Reachable 4 workerRunning :=
  reachable_run 4 _ _ _ twoWorkers_reachable workerRunning_run

/-- The example state `workerAsleep` is reachable. -/
theorem workerAsleep_reachable : Reachable 4 workerAsleep :=
  reachable_run 4 _ _ _ workerRunning_reachable workerAsleep_run

/-- The example state `sleeperBlocked` is reachable. -/
theorem sleeperBlocked_reachable : Reachable 4 sleeperBlocked :=
  reachable_run 4 _ _ _ workerAsleep_reachable sleeperBlocked_run

/-- C2: for an existing thread `tid` that is neither 0 nor the running thread,
`uthread_terminate(tid)` returns 0, removes `tid` from the thread table, removes every occurrence
of `tid` from the ready queue and the sleep list keeping the order of the other ids, puts `tid`
back into the free-id set (changing no other id's freeness), and leaves the current id, the
quantum counter and every other thread record unchanged. -/
theorem uthread_terminate_other (g : ThreadGlobals) (tid : Int)
    (hex : tfind g.threads tid ≠ none) (h0 : tid ≠ 0) (hcur : tid ≠ g.tidOfCurrentThread) :
    ∃ g1, uthread_terminate g tid = Outcome.ret 0 g1 ∧
      tfind g1.threads tid = none ∧
      g1.readyThreadQueue = g.readyThreadQueue.filter (fun x => decide (x ≠ tid)) ∧
      g1.sleepingThread = g.sleepingThread.filter (fun x => decide (x ≠ tid)) ∧
      tid ∉ g1.readyThreadQueue ∧ tid ∉ g1.sleepingThread ∧
      tid ∈ g1.tidManager.availableTids ∧
      (∀ u, u ≠ tid → (u ∈ g1.tidManager.availableTids ↔ u ∈ g.tidManager.availableTids)) ∧
      g1.tidOfCurrentThread = g.tidOfCurrentThread ∧
      g1.threadQuantumCounter = g.threadQuantumCounter ∧
      (∀ u, u ≠ tid → tfind g1.threads u = tfind g.threads u) := by
  cases hf : tfind g.threads tid with
  | none => exact absurd hf hex
  | some th =>
    refine ⟨_, terminate_other_eq g tid th h0 hf hcur, ?_, rfl, rfl, ?_, ?_, ?_, ?_, rfl, rfl, ?_⟩
    · exact tfind_terase_self _ _
    · simp [listRemove]
    · simp [listRemove]
    · exact (mem_setInsert _ _ _).2 (Or.inl rfl)
    · intro u hu
      show u ∈ setInsert tid g.tidManager.availableTids ↔ _
      rw [mem_setInsert]
      simp [hu]
    · intro u hu
      exact tfind_terase_ne _ _ _ hu

/-- Witness for C2: in `workerAsleep` the running thread 2 terminates thread 1, which is in the
ready queue and in the sleep list. -/
theorem uthread_terminate_other_witness :
    tfind workerAsleep.threads 1 ≠ none ∧ (1 : Int) ≠ 0 ∧
    (1 : Int) ≠ workerAsleep.tidOfCurrentThread ∧
    ∃ g1, uthread_terminate workerAsleep 1 = Outcome.ret 0 g1 ∧
      tfind g1.threads 1 = none ∧
      g1.readyThreadQueue = workerAsleep.readyThreadQueue.filter (fun x => decide (x ≠ 1)) ∧
      g1.sleepingThread = workerAsleep.sleepingThread.filter (fun x => decide (x ≠ 1)) ∧
      (1 : Int) ∉ g1.readyThreadQueue ∧ (1 : Int) ∉ g1.sleepingThread ∧
      (1 : Int) ∈ g1.tidManager.availableTids ∧
      (∀ u, u ≠ 1 →
        (u ∈ g1.tidManager.availableTids ↔ u ∈ workerAsleep.tidManager.availableTids)) ∧
      g1.tidOfCurrentThread = workerAsleep.tidOfCurrentThread ∧
      g1.threadQuantumCounter = workerAsleep.threadQuantumCounter ∧
      (∀ u, u ≠ 1 → tfind g1.threads u = tfind workerAsleep.threads u) :=
  ⟨by decide, by decide, by decide,
    uthread_terminate_other workerAsleep 1 (by decide) (by decide) (by decide)⟩

/-- C3: for an existing thread `tid` that is neither 0 nor the running thread,
`uthread_block(tid)` returns 0, sets the blocked flag of `tid` (its other fields stay), removes
`tid` from the ready queue keeping the order of the other ids, and changes nothing else: no other
thread record, nor the current id, the quantum counter, the sleep list or the free-id set. -/
theorem uthread_block_other (g : ThreadGlobals) (tid : Int)
    (hex : tfind g.threads tid ≠ none) (h0 : tid ≠ 0) (hcur : tid ≠ g.tidOfCurrentThread) :
    ∃ g1 th, tfind g.threads tid = some th ∧
      uthread_block g tid = Outcome.ret 0 g1 ∧
      tfind g1.threads tid = some { th with isBlocked := true } ∧
      g1.readyThreadQueue = g.readyThreadQueue.filter (fun x => decide (x ≠ tid)) ∧
      (∀ u, u ≠ tid → tfind g1.threads u = tfind g.threads u) ∧
      g1.tidOfCurrentThread = g.tidOfCurrentThread ∧
      g1.threadQuantumCounter = g.threadQuantumCounter ∧
      g1.sleepingThread = g.sleepingThread ∧
      g1.tidManager = g.tidManager ∧
      g1.THREAD_QUANTUM_DURATION = g.THREAD_QUANTUM_DURATION := by
  cases hf : tfind g.threads tid with
  | none => exact absurd hf hex
  | some th =>
    refine ⟨_, th, rfl, block_other_eq g tid th h0 hf hcur, ?_, rfl, ?_, rfl, rfl, rfl, rfl, rfl⟩
    · dsimp only
      rw [tfind_tmodify_self, hf]
      rfl
    · intro u hu
      dsimp only
      exact tfind_tmodify_ne _ _ _ _ hu

/-- Witness for C3: in `workerAsleep` the running thread 2 blocks thread 1. -/
theorem uthread_block_other_witness :
    tfind workerAsleep.threads 1 ≠ none ∧ (1 : Int) ≠ 0 ∧
    (1 : Int) ≠ workerAsleep.tidOfCurrentThread ∧
    ∃ g1 th, tfind workerAsleep.threads 1 = some th ∧
      uthread_block workerAsleep 1 = Outcome.ret 0 g1 ∧
      tfind g1.threads 1 = some { th with isBlocked := true } ∧
      g1.readyThreadQueue = workerAsleep.readyThreadQueue.filter (fun x => decide (x ≠ 1)) ∧
      (∀ u, u ≠ 1 → tfind g1.threads u = tfind workerAsleep.threads u) ∧
      g1.tidOfCurrentThread = workerAsleep.tidOfCurrentThread ∧
      g1.threadQuantumCounter = workerAsleep.threadQuantumCounter ∧
      g1.sleepingThread = workerAsleep.sleepingThread ∧
      g1.tidManager = workerAsleep.tidManager ∧
      g1.THREAD_QUANTUM_DURATION = workerAsleep.THREAD_QUANTUM_DURATION :=
  ⟨by decide, by decide, by decide,
    uthread_block_other workerAsleep 1 (by decide) (by decide) (by decide)⟩

/-- Calling `uthread_resume` on a blocked thread appends it to the ready queue whatever the sleep list
holds. -/
theorem resume_blocked_ready (g : ThreadGlobals) (tid : Int) (th : Thread)
    (hf : tfind g.threads tid = some th) (hb : th.isBlocked = true) :
    ∃ g1, uthread_resume g tid = Outcome.ret 0 g1 ∧
      g1.readyThreadQueue = g.readyThreadQueue ++ [tid] ∧
      g1.sleepingThread = g.sleepingThread :=
  ⟨_, resume_blocked_eq g tid th hf hb, rfl, rfl⟩

/-- C4 (code at the failing input): in the reachable state `sleeperBlocked` thread 1 is blocked
and in the sleep list; `uthread_resume(1)` returns 0, clears the flag and appends 1 to the ready
queue, so the queue does not stay unchanged. -/
theorem uthread_resume_sleeping_enqueues :
    Reachable 4 sleeperBlocked ∧
    (1 : Int) ∈ sleeperBlocked.sleepingThread ∧
    tfind sleeperBlocked.threads 1 = some ⟨4096, true, 1, 0⟩ ∧
    uthread_resume sleeperBlocked 1 = Outcome.ret 0 workerAsleep ∧
    tfind workerAsleep.threads 1 = some ⟨4096, false, 1, 0⟩ ∧
    workerAsleep.readyThreadQueue = sleeperBlocked.readyThreadQueue ++ [1] ∧
    workerAsleep.readyThreadQueue ≠ sleeperBlocked.readyThreadQueue :=
  ⟨sleeperBlocked_reachable, by decide, by decide, by decide, by decide, by decide, by decide⟩

/-- C5: `uthread_resume(t)` on an existing thread that is not blocked returns 0 and leaves the
whole state unchanged; and for a non-main, non-running thread `t` in the ready queue,
`uthread_block(t)` followed by `uthread_resume(t)` both return 0 and leave `t` not blocked and
exactly once in the ready queue. -/
theorem resume_noop_and_block_resume (g : ThreadGlobals) (t : Int) (th : Thread)
    (hf : tfind g.threads t = some th) :
    (th.isBlocked = false → uthread_resume g t = Outcome.ret 0 g) ∧
    (t ≠ 0 → t ≠ g.tidOfCurrentThread → t ∈ g.readyThreadQueue →
      ∃ g1 g2, uthread_block g t = Outcome.ret 0 g1 ∧
        uthread_resume g1 t = Outcome.ret 0 g2 ∧
        (∃ th2, tfind g2.threads t = some th2 ∧ th2.isBlocked = false) ∧
        g2.readyThreadQueue.count t = 1) := by
  refine ⟨fun hb => resume_unblocked_eq g t th hf hb, ?_⟩
  intro h0 hcur _
  have hf1 : tfind (tmodify g.threads t (fun x => x.setIsBlocked true)) t
      = some (th.setIsBlocked true) := by
    rw [tfind_tmodify_self, hf]; rfl
  refine ⟨_, _, block_other_eq g t th h0 hf hcur,
    resume_blocked_eq _ t (th.setIsBlocked true) hf1 rfl, ?_, ?_⟩
  · dsimp only
    rw [tfind_tmodify_self, hf1]
    exact ⟨_, rfl, rfl⟩
  · dsimp only
    rw [List.count_append]
    simp [listRemove, List.count_eq_zero]

/-- Witness for C5: thread 1 of `twoWorkers`, queued and not blocked, seen from thread 0. -/
theorem resume_noop_and_block_resume_witness :
    tfind twoWorkers.threads 1 = some ⟨4096, false, 0, 0⟩ ∧
    (⟨4096, false, 0, 0⟩ : Thread).isBlocked = false ∧
    (1 : Int) ≠ 0 ∧ (1 : Int) ≠ twoWorkers.tidOfCurrentThread ∧
    (1 : Int) ∈ twoWorkers.readyThreadQueue ∧
    uthread_resume twoWorkers 1 = Outcome.ret 0 twoWorkers ∧
    (∃ g1 g2, uthread_block twoWorkers 1 = Outcome.ret 0 g1 ∧
        uthread_resume g1 1 = Outcome.ret 0 g2 ∧
        (∃ th2, tfind g2.threads 1 = some th2 ∧ th2.isBlocked = false) ∧
        g2.readyThreadQueue.count 1 = 1) :=
  ⟨by decide, rfl, by decide, by decide, by decide,
    (resume_noop_and_block_resume twoWorkers 1 ⟨4096, false, 0, 0⟩ (by decide)).1 rfl,
    (resume_noop_and_block_resume twoWorkers 1 ⟨4096, false, 0, 0⟩ (by decide)).2
      (by decide) (by decide) (by decide)⟩

/-- The update `sleepUpdate` never writes the thread table: the wake-time goes to the local copy only. -/
theorem sleepUpdate_threads (g g1 : ThreadGlobals) (n : Int) (loc : Thread)
    (h : sleepUpdate g n = some (loc, g1)) :
    g1.threads = g.threads ∧ loc.sleepTime = n + g.threadQuantumCounter ∧
    g1.sleepingThread = g.sleepingThread ++ [g.tidOfCurrentThread] := by
  unfold sleepUpdate at h
  cases hf : tfind g.threads g.tidOfCurrentThread with
  | none => simp [hf] at h
  | some cur =>
    simp only [hf, Option.some.injEq, Prod.mk.injEq] at h
    obtain ⟨h1, h2⟩ := h
    subst h1 h2
    exact ⟨rfl, rfl, rfl⟩

/-- C6 (code at the failing input): thread 1 runs in the reachable state `workerRunning` with the
quantum counter at 2 and calls `uthread_sleep(5)`; two timer signals later thread 1 is the running
thread again while the counter is 5, below 2 + 5. -/
theorem sleeper_scheduled_early :
    Reachable 4 workerRunning ∧
    workerRunning.tidOfCurrentThread = 1 ∧
    workerRunning.threadQuantumCounter = 2 ∧
    ∃ g1, run workerRunning [Call.sleep 5, Call.tick, Call.tick] = some g1 ∧
      Reachable 4 g1 ∧
      g1.tidOfCurrentThread = 1 ∧
      g1.threadQuantumCounter = 5 ∧
      g1.threadQuantumCounter < workerRunning.threadQuantumCounter + 5 :=
  ⟨workerRunning_reachable, by decide, by decide,
    ⟨100, [(0, ⟨0, false, 2, 0⟩), (1, ⟨4096, false, 2, 0⟩), (2, ⟨8192, false, 1, 0⟩)],
      ⟨[3]⟩, 5, 1, [2, 0], [1]⟩,
    by decide,
    reachable_run 4 [Call.sleep 5, Call.tick, Call.tick] workerRunning _ workerRunning_reachable
      (by decide),
    by decide, by decide, by decide⟩

/-- C7 (code at the failing input): thread 1 calls `uthread_sleep(5)` in `workerRunning` with the
counter at 2. The state update puts 1 into the sleep list and sets wake-time 7 on the local copy
only; the record of thread 1 in the table keeps wake-time 0, also after the switch. -/
theorem sleep_wake_time_not_stored :
    workerRunning.tidOfCurrentThread = 1 ∧
    workerRunning.threadQuantumCounter = 2 ∧
    sleepUpdate workerRunning 5 =
      some (⟨4096, false, 1, 7⟩, { workerRunning with sleepingThread := [1] }) ∧
    tfind ({ workerRunning with sleepingThread := [1] } : ThreadGlobals).threads 1
      = some ⟨4096, false, 1, 0⟩ ∧
    uthread_sleep workerRunning 5 = Outcome.jumped workerAsleep ∧
    tfind workerAsleep.threads 1 = some ⟨4096, false, 1, 0⟩ ∧
    (1 : Int) ∈ workerAsleep.sleepingThread :=
  ⟨by decide, by decide, by decide, by decide, by decide, by decide, by decide⟩

/-- The globals after a switch reached from a library call. -/
theorem switchOutcome_next (o : Option ThreadGlobals) : (switchOutcome o).next = o := by
  cases o <;> rfl

/-- C16: in every state reachable after init, each invalid-argument call returns -1 and leaves
the whole scheduler state as it was: `uthread_spawn` with a null entry point; `uthread_terminate`,
`uthread_block`, `uthread_resume` and `uthread_get_quantums` (which never writes) with an id that
has no thread record; `uthread_block(0)`; and `uthread_sleep` called while thread 0 runs. -/
theorem invalid_calls_rejected (M : Nat) (g : ThreadGlobals) (hg : Reachable M g) :
    (∀ stack, uthread_spawn g 0 stack = Outcome.ret (-1) g) ∧
    (∀ tid, tfind g.threads tid = none →
      uthread_terminate g tid = Outcome.ret (-1) g ∧
      uthread_block g tid = Outcome.ret (-1) g ∧
      uthread_resume g tid = Outcome.ret (-1) g ∧
      uthread_get_quantums g tid = -1) ∧
    uthread_block g 0 = Outcome.ret (-1) g ∧
    (∀ n, g.tidOfCurrentThread = 0 → uthread_sleep g n = Outcome.ret (-1) g) := by
  have hi := reachable_inv M g hg
  obtain ⟨th0, h0, _⟩ := hi.core.main_ok
  refine ⟨?_, ?_, ?_, ?_⟩
  · intro stack
    simp [uthread_spawn]
  · intro tid hf
    have hne : tid ≠ 0 := by
      intro e
      rw [e, h0] at hf
      cases hf
    refine ⟨?_, ?_, ?_, ?_⟩
    · simp [uthread_terminate, hne, hf]
    · simp [uthread_block, hf]
    · simp [uthread_resume, hf]
    · simp [uthread_get_quantums, hf]
  · simp [uthread_block, h0]
  · intro n hn
    simp [uthread_sleep, hn]

/-- Witness for C16: the reachable state `twoWorkers`, where thread 0 runs and id 3 has no
record. -/
theorem invalid_calls_rejected_witness :
    Reachable 4 twoWorkers ∧
    tfind twoWorkers.threads 3 = none ∧
    twoWorkers.tidOfCurrentThread = 0 ∧
    uthread_spawn twoWorkers 0 4096 = Outcome.ret (-1) twoWorkers ∧
    uthread_terminate twoWorkers 3 = Outcome.ret (-1) twoWorkers ∧
    uthread_block twoWorkers 3 = Outcome.ret (-1) twoWorkers ∧
    uthread_resume twoWorkers 3 = Outcome.ret (-1) twoWorkers ∧
    uthread_get_quantums twoWorkers 3 = -1 ∧
    uthread_block twoWorkers 0 = Outcome.ret (-1) twoWorkers ∧
    uthread_sleep twoWorkers 5 = Outcome.ret (-1) twoWorkers :=
  ⟨twoWorkers_reachable, by decide, by decide,
    (invalid_calls_rejected 4 twoWorkers twoWorkers_reachable).1 4096,
    ((invalid_calls_rejected 4 twoWorkers twoWorkers_reachable).2.1 3 (by decide)).1,
    ((invalid_calls_rejected 4 twoWorkers twoWorkers_reachable).2.1 3 (by decide)).2.1,
    ((invalid_calls_rejected 4 twoWorkers twoWorkers_reachable).2.1 3 (by decide)).2.2.1,
    ((invalid_calls_rejected 4 twoWorkers twoWorkers_reachable).2.1 3 (by decide)).2.2.2,
    (invalid_calls_rejected 4 twoWorkers twoWorkers_reachable).2.2.1,
    (invalid_calls_rejected 4 twoWorkers twoWorkers_reachable).2.2.2 5 (by decide)⟩

/-- The ordered insert puts a smaller-than-all id at the front. -/
theorem setInsert_head (x : Int) (l : List Int) (h : l.Pairwise (fun a b => a < b)) :
    ∃ t rest, setInsert x l = t :: rest ∧ t ≤ x ∧ (∀ u ∈ l, t ≤ u) ∧ (t = x ∨ t ∈ l) := by
  cases l with
  | nil => exact ⟨x, [], rfl, le_refl _, by simp, Or.inl rfl⟩
  | cons y ys =>
    unfold setInsert
    by_cases h1 : x < y
    · rw [if_pos h1]
      refine ⟨x, y :: ys, rfl, le_refl _, ?_, Or.inl rfl⟩
      intro u hu
      rcases List.mem_cons.1 hu with e | e
      · omega
      · have := List.rel_of_pairwise_cons h e
        omega
    · rw [if_neg h1]
      have hy : ∀ u ∈ y :: ys, y ≤ u := by
        intro u hu
        rcases List.mem_cons.1 hu with e | e
        · omega
        · exact le_of_lt (List.rel_of_pairwise_cons h e)
      by_cases h2 : x = y
      · rw [if_pos h2]
        exact ⟨y, ys, rfl, by omega, hy, Or.inr (List.mem_cons_self _ _)⟩
      · rw [if_neg h2]
        exact ⟨y, _, rfl, by omega, hy, Or.inr (List.mem_cons_self _ _)⟩

/-- C18: for every allocator state (a strictly increasing free set): when the free set is not
empty `allocateTid` returns its minimum and removes exactly that id; when it is empty
`allocateTid` returns -1 and leaves the set unchanged; and `releaseTid(i)` makes `i` free (adding
nothing else and keeping the set increasing), so that the next `allocateTid` returns the minimum
of `i` and the ids that were free before. -/
theorem tid_allocator_spec (m : ThreadTidManager)
    (hs : m.availableTids.Pairwise (fun a b => a < b)) :
    (m.availableTids ≠ [] →
      m.allocateTid.1 ∈ m.availableTids ∧
      (∀ u ∈ m.availableTids, m.allocateTid.1 ≤ u) ∧
      (∀ u, u ∈ m.allocateTid.2.availableTids ↔ u ∈ m.availableTids ∧ u ≠ m.allocateTid.1)) ∧
    (m.availableTids = [] → m.allocateTid = (-1, m)) ∧
    (∀ i, i ∈ (m.releaseTid i).availableTids ∧
      (∀ u, u ∈ (m.releaseTid i).availableTids ↔ u = i ∨ u ∈ m.availableTids) ∧
      (m.releaseTid i).availableTids.Pairwise (fun a b => a < b) ∧
      (m.releaseTid i).allocateTid.1 ≤ i ∧
      (∀ u ∈ m.availableTids, (m.releaseTid i).allocateTid.1 ≤ u) ∧
      ((m.releaseTid i).allocateTid.1 = i ∨
        (m.releaseTid i).allocateTid.1 ∈ m.availableTids)) := by
  refine ⟨?_, ?_, ?_⟩
  · intro hne
    cases ha : m.availableTids with
    | nil => exact absurd ha hne
    | cons t rest =>
      rw [ha] at hs
      have hal : m.allocateTid = (t, ⟨rest⟩) := by
        unfold ThreadTidManager.allocateTid
        rw [ha]
      rw [hal]
      refine ⟨List.mem_cons_self _ _, ?_, ?_⟩
      · intro u hu
        rcases List.mem_cons.1 hu with e | e
        · exact le_of_eq e.symm
        · exact le_of_lt (List.rel_of_pairwise_cons hs e)
      · intro u
        constructor
        · intro hu
          have hlt : t < u := List.rel_of_pairwise_cons hs hu
          exact ⟨List.mem_cons_of_mem _ hu, by dsimp only; omega⟩
        · rintro ⟨hu, hne1⟩
          rcases List.mem_cons.1 hu with e | e
          · exact absurd e hne1
          · exact e
  · intro he
    unfold ThreadTidManager.allocateTid
    rw [he]
  · intro i
    obtain ⟨t, rest, h1, h2, h3, h4⟩ := setInsert_head i m.availableTids hs
    have hal : (m.releaseTid i).allocateTid = (t, ⟨rest⟩) := by
      unfold ThreadTidManager.allocateTid ThreadTidManager.releaseTid
      rw [h1]
    refine ⟨(mem_setInsert _ _ _).2 (Or.inl rfl), fun u => mem_setInsert _ _ _,
      setInsert_sorted _ _ hs, ?_, ?_, ?_⟩
    · rw [hal]; exact h2
    · rw [hal]; exact h3
    · rw [hal]; exact h4

/-- Witness for C18: the free set `[2, 5]`; allocation returns 2, and after `releaseTid(1)` the
next allocation returns 1. -/
theorem tid_allocator_spec_witness :
    (⟨[2, 5]⟩ : ThreadTidManager).availableTids.Pairwise (fun a b => a < b) ∧
    (⟨[2, 5]⟩ : ThreadTidManager).availableTids ≠ [] ∧
    (⟨[2, 5]⟩ : ThreadTidManager).allocateTid = (2, ⟨[5]⟩) ∧
    (⟨[]⟩ : ThreadTidManager).allocateTid = (-1, ⟨[]⟩) ∧
    ((⟨[2, 5]⟩ : ThreadTidManager).releaseTid 1).allocateTid.1 ≤ 1 ∧
    (((⟨[2, 5]⟩ : ThreadTidManager).releaseTid 1).allocateTid.1 = 1 ∨
      ((⟨[2, 5]⟩ : ThreadTidManager).releaseTid 1).allocateTid.1 ∈
        (⟨[2, 5]⟩ : ThreadTidManager).availableTids) :=
  ⟨by decide, by decide, by decide,
    (tid_allocator_spec ⟨[]⟩ (by decide)).2.1 rfl,
    ((tid_allocator_spec ⟨[2, 5]⟩ (by decide)).2.2 1).2.2.2.1,
    ((tid_allocator_spec ⟨[2, 5]⟩ (by decide)).2.2 1).2.2.2.2.2⟩

/-- The example state `sleeperGone` is `workerRunning` after sleep, two timer signals and the
self-termination of thread 1. -/
theorem sleeperGone_run :
    run workerRunning [Call.sleep 5, Call.tick, Call.tick, Call.terminate 1]
      = some sleeperGone := by
  decide

/-- The example state `sleeperGone` is reachable. -/
theorem sleeperGone_reachable : Reachable 4 sleeperGone :=
  reachable_run 4 _ _ _ workerRunning_reachable sleeperGone_run

/-- In a reachable state a switch never changes the sleep list: no sleeper is ever woken. -/
theorem switch_keeps_sleepers (M : Nat) (g g1 : ThreadGlobals) (hg : Reachable M g)
    (h : (timer_handler g).next = some g1) : g1.sleepingThread = g.sleepingThread := by
  have hc := (reachable_inv M g hg).core
  unfold timer_handler at h
  rw [switchOutcome_next] at h
  obtain ⟨cur, front, rest, nxt, _, _, _, rfl⟩ :=
    pass_keep_spec g g1 (-1) hc.no_wake hc.counter_pos h
  rfl

/-- The wake test of line 155 leaves alone every sleeper whose wake-time is below the counter. -/
theorem wakeStep_due_not_woken (g : ThreadGlobals) (tid : Int) (th : Thread)
    (hf : tfind g.threads tid = some th) (hlt : th.sleepTime < g.threadQuantumCounter) :
    wakeStep g tid = some g := by
  unfold wakeStep
  have : ¬ (th.sleepTime ≥ g.threadQuantumCounter) := by omega
  simp only [hf, this, if_false]

/-- C13 (code at the failing input): in the reachable state `workerAsleep`, reached when thread 1
calls `uthread_sleep(5)`, the existing thread 1 is in the ready queue and in the sleep list at
once; two timer signals later thread 1 is the running thread while still in the sleep list. -/
theorem sleeper_in_two_classes :
    Reachable 4 workerAsleep ∧
    tfind workerAsleep.threads 1 = some ⟨4096, false, 1, 0⟩ ∧
    (1 : Int) ∈ workerAsleep.readyThreadQueue ∧
    (1 : Int) ∈ workerAsleep.sleepingThread ∧
    ∃ g1, run workerAsleep [Call.tick, Call.tick] = some g1 ∧
      Reachable 4 g1 ∧
      g1.tidOfCurrentThread = 1 ∧
      (1 : Int) ∈ g1.sleepingThread :=
  ⟨workerAsleep_reachable, by decide, by decide, by decide,
    ⟨100, [(0, ⟨0, false, 2, 0⟩), (1, ⟨4096, false, 2, 0⟩), (2, ⟨8192, false, 1, 0⟩)],
      ⟨[3]⟩, 5, 1, [2, 0], [1]⟩,
    by decide,
    reachable_run 4 [Call.tick, Call.tick] workerAsleep _ workerAsleep_reachable (by decide),
    by decide, by decide⟩

/-- C19 (code at the failing input): thread 1 sleeps, runs again and terminates itself. In the
reachable state `sleeperGone` that follows, id 1 has no record, is free again and is not in the
ready queue, but it is still in the sleep list; the next timer signal reads the missing record. -/
theorem self_terminate_leaves_sleeper :
    Reachable 4 workerRunning ∧
    workerRunning.tidOfCurrentThread = 1 ∧
    run workerRunning [Call.sleep 5, Call.tick, Call.tick] =
      some ⟨100, [(0, ⟨0, false, 2, 0⟩), (1, ⟨4096, false, 2, 0⟩), (2, ⟨8192, false, 1, 0⟩)],
        ⟨[3]⟩, 5, 1, [2, 0], [1]⟩ ∧
    uthread_terminate ⟨100, [(0, ⟨0, false, 2, 0⟩), (1, ⟨4096, false, 2, 0⟩),
        (2, ⟨8192, false, 1, 0⟩)], ⟨[3]⟩, 5, 1, [2, 0], [1]⟩ 1 = Outcome.jumped sleeperGone ∧
    Reachable 4 sleeperGone ∧
    tfind sleeperGone.threads 1 = none ∧
    (1 : Int) ∈ sleeperGone.tidManager.availableTids ∧
    (1 : Int) ∉ sleeperGone.readyThreadQueue ∧
    (1 : Int) ∈ sleeperGone.sleepingThread ∧
    timer_handler sleeperGone = Outcome.undef :=
  ⟨workerRunning_reachable, by decide, by decide, by decide, sleeperGone_reachable, by decide,
    by decide, by decide, by decide, by decide⟩

/-- C20 (code at the failing input): the switch entered from the reachable state `workerAsleep`
with the counter at 3 meets the sleeper 1, whose stored wake-time 0 is at most 3, and does not
wake it: thread 1 stays in the sleep list. The successor is the head of the ready queue. -/
theorem due_sleeper_not_woken :
    Reachable 4 workerAsleep ∧
    workerAsleep.threadQuantumCounter = 3 ∧
    workerAsleep.sleepingThread = [1] ∧
    tfind workerAsleep.threads 1 = some ⟨4096, false, 1, 0⟩ ∧
    (0 : Int) ≤ workerAsleep.threadQuantumCounter ∧
    PassToNextThread workerAsleep (-1) false =
      some ⟨100, [(0, ⟨0, false, 2, 0⟩), (1, ⟨4096, false, 1, 0⟩), (2, ⟨8192, false, 1, 0⟩)],
        ⟨[3]⟩, 4, 0, [1, 2], [1]⟩ ∧
    (1 : Int) ∈ (⟨100, [(0, ⟨0, false, 2, 0⟩), (1, ⟨4096, false, 1, 0⟩),
        (2, ⟨8192, false, 1, 0⟩)], ⟨[3]⟩, 4, 0, [1, 2], [1]⟩ : ThreadGlobals).sleepingThread :=
  ⟨workerAsleep_reachable, by decide, by decide, by decide, by decide, by decide, by decide⟩

/-- An in-place update keeps the keys of the table. -/
theorem keys_tmodify (m : List (Int × Thread)) (k : Int) (f : Thread → Thread) :
    (tmodify m k f).map Prod.fst = m.map Prod.fst := by
  induction m with
  | nil => rfl
  | cons e m ih =>
    obtain ⟨a, b⟩ := e
    rw [tmodify_cons]
    by_cases h : a = k
    · rw [if_pos h]; simp [ih]
    · rw [if_neg h]; simp [ih]

/-- A key is found exactly when it is among the keys of the table. -/
theorem tfind_none_iff (m : List (Int × Thread)) (k : Int) :
    tfind m k = none ↔ k ∉ m.map Prod.fst := by
  induction m with
  | nil => simp [tfind]
  | cons e m ih =>
    obtain ⟨a, b⟩ := e
    by_cases h : a = k
    · subst h; simp [tfind]
    · have h1 : ¬ k = a := fun e => h e.symm
      simp [tfind, h, h1, ih]

/-- An in-place update under a key that is absent changes nothing. -/
theorem tmodify_absent (m : List (Int × Thread)) (k : Int) (f : Thread → Thread)
    (h : k ∉ m.map Prod.fst) : tmodify m k f = m := by
  induction m with
  | nil => rfl
  | cons e m ih =>
    obtain ⟨a, b⟩ := e
    rw [tmodify_cons]
    have h1 : ¬ a = k := by
      intro e1; apply h; simp [e1]
    have h2 : k ∉ m.map Prod.fst := by
      intro hm; apply h; simp only [List.map_cons, List.mem_cons]; exact Or.inr hm
    rw [if_neg h1, ih h2]

/-- The entries of an updated table carry the old keys and old or updated records. -/
theorem mem_tmodify (m : List (Int × Thread)) (k : Int) (f : Thread → Thread)
    (e : Int × Thread) (h : e ∈ tmodify m k f) :
    ∃ e0 ∈ m, e.1 = e0.1 ∧ (e.2 = e0.2 ∨ e.2 = f e0.2) := by
  unfold tmodify at h
  obtain ⟨e0, h0, h1⟩ := List.mem_map.1 h
  refine ⟨e0, h0, ?_⟩
  by_cases hk : e0.1 = k
  · rw [if_pos hk] at h1
    subst h1
    exact ⟨rfl, Or.inr rfl⟩
  · rw [if_neg hk] at h1
    subst h1
    exact ⟨rfl, Or.inl rfl⟩

/-- Changing a blocked flag keeps the quantum counts. -/
theorem quanta_tmodify_blocked (m : List (Int × Thread)) (k : Int) (b : Bool) :
    (tmodify m k (fun t => t.setIsBlocked b)).map (fun e => e.2.threadQuanta)
      = m.map (fun e => e.2.threadQuanta) := by
  induction m with
  | nil => rfl
  | cons e m ih =>
    obtain ⟨a, r⟩ := e
    rw [tmodify_cons]
    by_cases h : a = k
    · rw [if_pos h, List.map_cons, List.map_cons, ih]; rfl
    · rw [if_neg h, List.map_cons, List.map_cons, ih]

/-- With distinct keys, charging one quantum to the successor raises the sum by one. -/
theorem quanta_sum_switch (m : List (Int × Thread)) (k : Int) (nxt : Thread)
    (hnd : (m.map Prod.fst).Nodup) (hf : tfind m k = some nxt) :
    ((tmodify m k (fun t => t.setThreadQuanta (nxt.threadQuanta + 1))).map
        (fun e => e.2.threadQuanta)).sum
      = (m.map (fun e => e.2.threadQuanta)).sum + 1 := by
  induction m with
  | nil => simp [tfind] at hf
  | cons e m ih =>
    obtain ⟨a, r⟩ := e
    rw [tmodify_cons]
    simp only [List.map_cons, List.nodup_cons] at hnd
    by_cases h : a = k
    · subst h
      simp only [tfind, if_true, Option.some.injEq] at hf
      subst hf
      rw [if_pos rfl, tmodify_absent m a _ hnd.1]
      simp only [List.map_cons, List.sum_cons, Thread.setThreadQuanta]
      omega
    · simp only [tfind, h, if_false] at hf
      rw [if_neg h]
      simp only [List.map_cons, List.sum_cons]
      rw [ih hnd.2 hf]
      omega

/-- Unfolding of `terase` on a non-empty table. -/
theorem terase_cons (e : Int × Thread) (m : List (Int × Thread)) (k : Int) :
    terase (e :: m) k = if e.1 = k then terase m k else e :: terase m k := by
  unfold terase
  by_cases h : e.1 = k
  · simp [List.filter_cons, h]
  · simp [List.filter_cons, h]

/-- Erasing a record does not raise the sum of the quantum counts when none is negative. -/
theorem quanta_sum_terase (m : List (Int × Thread)) (k : Int)
    (hnn : ∀ e ∈ m, 0 ≤ e.2.threadQuanta) :
    ((terase m k).map (fun e => e.2.threadQuanta)).sum
      ≤ (m.map (fun e => e.2.threadQuanta)).sum := by
  induction m with
  | nil => simp [terase]
  | cons e m ih =>
    have h1 := hnn e (List.mem_cons_self _ _)
    have h2 := ih (fun x hx => hnn x (List.mem_cons_of_mem _ hx))
    rw [terase_cons]
    by_cases h : e.1 = k
    · rw [if_pos h]
      simp only [List.map_cons, List.sum_cons]
      omega
    · rw [if_neg h]
      simp only [List.map_cons, List.sum_cons]
      omega

/-- The entries of a table after `erase` are entries of the table before. -/
theorem mem_terase (m : List (Int × Thread)) (k : Int) (e : Int × Thread)
    (h : e ∈ terase m k) : e ∈ m := by
  unfold terase at h
  exact (List.mem_filter.1 h).1

/-- Keys stay distinct under `erase`. -/
theorem keys_terase_nodup (m : List (Int × Thread)) (k : Int) (h : (m.map Prod.fst).Nodup) :
    ((terase m k).map Prod.fst).Nodup := by
  unfold terase
  exact h.sublist (List.Sublist.map _ (List.filter_sublist _))

/-- A record that is found is an entry of the table. -/
theorem mem_of_tfind (m : List (Int × Thread)) (k : Int) (th : Thread)
    (h : tfind m k = some th) : (k, th) ∈ m := by
  induction m with
  | nil => simp [tfind] at h
  | cons e m ih =>
    obtain ⟨a, b⟩ := e
    by_cases h1 : a = k
    · subst h1
      simp only [tfind, if_true, Option.some.injEq] at h
      subst h
      exact List.mem_cons_self _ _
    · simp only [tfind, h1, if_false] at h
      exact List.mem_cons_of_mem _ (ih h)

/-- The accounting facts survive a change of a blocked flag. -/
theorem acct_flag (M : Nat) (th : List (Int × Thread)) (av : List Int) (c : Int) (tid : Int)
    (b : Bool) (h : AcctOf M th av c) :
    AcctOf M (tmodify th tid (fun t => t.setIsBlocked b)) av c := by
  refine ⟨?_, ?_, ?_, ?_, h.free_bound⟩
  · rw [keys_tmodify]; exact h.keys_nodup
  · intro e he
    obtain ⟨e0, h0, _, h1 | h1⟩ := mem_tmodify _ _ _ _ he
    · rw [h1]; exact h.quanta_nonneg e0 h0
    · rw [h1]; exact h.quanta_nonneg e0 h0
  · rw [quanta_tmodify_blocked]; exact h.quanta_sum
  · intro e he
    obtain ⟨e0, h0, h1, _⟩ := mem_tmodify _ _ _ _ he
    rw [h1]; exact h.table_bound e0 h0

/-- The accounting facts survive a switch: the successor is charged one quantum and the counter
advances by one. -/
theorem acct_switch (M : Nat) (th : List (Int × Thread)) (av : List Int) (c : Int) (front : Int)
    (nxt : Thread) (h : AcctOf M th av c) (hf : tfind th front = some nxt) :
    AcctOf M (tmodify th front (fun t => t.setThreadQuanta (nxt.threadQuanta + 1))) av
      (c + 1) := by
  have hn := h.quanta_nonneg _ (mem_of_tfind th front nxt hf)
  refine ⟨?_, ?_, ?_, ?_, h.free_bound⟩
  · rw [keys_tmodify]; exact h.keys_nodup
  · intro e he
    obtain ⟨e0, h0, _, h1 | h1⟩ := mem_tmodify _ _ _ _ he
    · rw [h1]; exact h.quanta_nonneg e0 h0
    · rw [h1]
      show 0 ≤ nxt.threadQuanta + 1
      dsimp only at hn
      omega
  · rw [quanta_sum_switch th front nxt h.keys_nodup hf]
    have := h.quanta_sum
    omega
  · intro e he
    obtain ⟨e0, h0, h1, _⟩ := mem_tmodify _ _ _ _ he
    rw [h1]; exact h.table_bound e0 h0

/-- The accounting facts survive the removal of a thread other than 0 and the release of its
id. -/
theorem acct_erase (M : Nat) (th : List (Int × Thread)) (av : List Int) (c : Int) (tid : Int)
    (x : Thread) (h : AcctOf M th av c) (hf : tfind th tid = some x) (h0 : tid ≠ 0) :
    AcctOf M (terase th tid) (setInsert tid av) c := by
  refine ⟨keys_terase_nodup _ _ h.keys_nodup, ?_, ?_, ?_, ?_⟩
  · intro e he
    exact h.quanta_nonneg e (mem_terase _ _ _ he)
  · exact le_trans (quanta_sum_terase th tid h.quanta_nonneg) h.quanta_sum
  · intro e he
    exact h.table_bound e (mem_terase _ _ _ he)
  · intro t ht
    rcases (mem_setInsert _ _ _).1 ht with e | e
    · subst e
      rcases h.table_bound _ (mem_of_tfind th t x hf) with e1 | e1
      · exact absurd e1 h0
      · exact e1
    · exact h.free_bound t e

/-- The accounting facts survive a successful spawn. -/
theorem acct_insert (M : Nat) (th : List (Int × Thread)) (t : Int) (rest : List Int) (c : Int)
    (st : Nat) (h : AcctOf M th (t :: rest) c) (hf : tfind th t = none) :
    AcctOf M (tinsert th t ⟨st, false, 0, 0⟩) rest c := by
  have hins : tinsert th t ⟨st, false, 0, 0⟩ = th ++ [(t, ⟨st, false, 0, 0⟩)] := by
    unfold tinsert
    rw [hf]
  rw [hins]
  refine ⟨?_, ?_, ?_, ?_, fun u hu => h.free_bound u (List.mem_cons_of_mem _ hu)⟩
  · rw [List.map_append]
    refine List.Nodup.append h.keys_nodup (List.nodup_singleton _) ?_
    simpa using (tfind_none_iff th t).1 hf
  · intro e he
    rcases List.mem_append.1 he with e1 | e1
    · exact h.quanta_nonneg e e1
    · rw [List.mem_singleton.1 e1]
  · rw [List.map_append, List.sum_append]
    have := h.quanta_sum
    simpa using this
  · intro e he
    rcases List.mem_append.1 he with e1 | e1
    · exact h.table_bound e e1
    · rw [List.mem_singleton.1 e1]
      exact Or.inr (h.free_bound t (List.mem_cons_self _ _))

/-- The accounting facts survive the loss of the smallest free id. -/
theorem acct_drop (M : Nat) (th : List (Int × Thread)) (t : Int) (rest : List Int) (c : Int)
    (h : AcctOf M th (t :: rest) c) : AcctOf M th rest c :=
  ⟨h.keys_nodup, h.quanta_nonneg, h.quanta_sum, h.table_bound,
    fun u hu => h.free_bound u (List.mem_cons_of_mem _ hu)⟩

/-- The accounting facts hold after `uthread_init`. -/
theorem acct_init (M : Nat) (q : Int) (hq : 0 < q) : Acct M (uthread_init (pristine M) q).2 := by
  unfold Acct
  rw [init_state M q hq]
  refine ⟨by simp, ?_, by simp, ?_, ?_⟩
  · intro e he
    rw [List.mem_singleton.1 he]
    decide
  · intro e he
    rw [List.mem_singleton.1 he]
    exact Or.inl rfl
  · intro t ht
    dsimp only at ht
    rw [allocateTid_snd] at ht
    have hm := List.mem_of_mem_tail ht
    unfold ThreadTidManager.new at hm
    obtain ⟨n, hn, rfl⟩ := List.mem_map.1 hm
    have := List.mem_range.1 hn
    exact Int.ofNat_lt.2 this

/-- A switch without termination keeps the accounting facts. -/
theorem pass_keep_acct (M : Nat) (g g1 : ThreadGlobals) (x : Int) (hc : Core g)
    (ha : Acct M g) (h : PassToNextThread g x false = some g1) : Acct M g1 := by
  obtain ⟨cur, front, rest, nxt, _, _, hn, rfl⟩ :=
    pass_keep_spec g g1 x hc.no_wake hc.counter_pos h
  exact acct_switch M g.threads _ _ front nxt ha hn

/-- A self-terminating switch of a thread other than 0 keeps the accounting facts. -/
theorem pass_term_acct (M : Nat) (g g1 : ThreadGlobals) (hc : Core g) (ha : Acct M g)
    (h0 : g.tidOfCurrentThread ≠ 0)
    (h : PassToNextThread g g.tidOfCurrentThread true = some g1) : Acct M g1 := by
  obtain ⟨front, rest, nxt, hq, hn, hg1⟩ :=
    pass_term_spec g g1 g.tidOfCurrentThread hc.no_wake hc.counter_pos h
  obtain ⟨cur, hcur⟩ := hc.cur_exists
  have hfc : front ≠ g.tidOfCurrentThread := by
    intro e
    apply hc.cur_not_ready
    rw [hq, ← e]
    exact List.mem_cons_self _ _
  have hfind : tfind (tmodify g.threads front
      (fun t => t.setThreadQuanta (nxt.threadQuanta + 1))) g.tidOfCurrentThread = some cur := by
    rw [tfind_tmodify, if_neg (Ne.symm hfc), hcur]
  rw [hfind] at hg1
  dsimp only at hg1
  subst hg1
  exact acct_erase M _ _ _ _ cur (acct_switch M g.threads _ _ front nxt ha hn) hfind h0

/-- Every call keeps the accounting facts. -/
theorem acct_perform (M : Nat) (g g1 : ThreadGlobals) (c : Call) (hi : Inv g) (ha : Acct M g)
    (h : (perform g c).next = some g1) : Acct M g1 := by
  have hc := hi.core
  cases c with
  | tick =>
    simp only [perform, timer_handler] at h
    rw [switchOutcome_next] at h
    exact pass_keep_acct M g g1 (-1) hc ha h
  | sleep n =>
    by_cases h0 : g.tidOfCurrentThread = 0
    · simp only [perform, uthread_sleep, h0, if_true, Outcome.next, Option.some.injEq] at h
      subst h; exact ha
    · simp only [perform, uthread_sleep, h0, if_false] at h
      unfold sleepUpdate at h
      obtain ⟨th, h3⟩ := hc.cur_exists
      simp only [h3] at h
      rw [switchOutcome_next] at h
      have hcore : Core { g with sleepingThread := g.sleepingThread ++ [g.tidOfCurrentThread] } :=
        ⟨hc.free_sorted, hc.free_range, hc.free_absent, hc.table_range, hc.no_wake,
          hc.counter_pos, hc.ready_ok, hc.ready_nodup, hc.cur_not_ready, hc.cur_exists,
          hc.main_ok, hc.main_runnable⟩
      exact pass_keep_acct M _ g1 (-1) hcore ha h
  | resume tid =>
    cases hf : tfind g.threads tid with
    | none =>
      simp only [perform, uthread_resume, hf, Outcome.next, Option.some.injEq] at h
      subst h; exact ha
    | some th =>
      cases hb : th.isBlocked with
      | false =>
        simp only [perform] at h
        rw [resume_unblocked_eq g tid th hf hb] at h
        simp only [Outcome.next, Option.some.injEq] at h
        subst h; exact ha
      | true =>
        simp only [perform] at h
        rw [resume_blocked_eq g tid th hf hb] at h
        simp only [Outcome.next, Option.some.injEq] at h
        subst h
        exact acct_flag M g.threads _ _ tid false ha
  | block tid =>
    cases hf : tfind g.threads tid with
    | none =>
      simp only [perform, uthread_block, hf, Outcome.next, Option.some.injEq] at h
      subst h; exact ha
    | some th =>
      by_cases h0 : tid = 0
      · subst h0
        simp only [perform, uthread_block, hf, if_true, Outcome.next, Option.some.injEq] at h
        subst h; exact ha
      by_cases hcur : tid = g.tidOfCurrentThread
      · subst hcur
        have hcore : Core { g with
            threads := tmodify g.threads g.tidOfCurrentThread (fun t => t.setIsBlocked true)
            readyThreadQueue := g.readyThreadQueue } := by
          refine core_setIsBlocked g _ true _ hc h0 ?_ hc.ready_nodup hc.cur_not_ready
            hc.main_runnable
          intro u hu
          have hne : u ≠ g.tidOfCurrentThread := fun e => hc.cur_not_ready (e ▸ hu)
          rw [tfind_tmodify, if_neg hne]
          exact hc.ready_ok u hu
        simp only [perform, uthread_block, hf, h0, if_false, if_true] at h
        rw [switchOutcome_next] at h
        exact pass_keep_acct M _ g1 (-1) hcore
          (acct_flag M g.threads _ _ g.tidOfCurrentThread true ha) h
      · simp only [perform] at h
        rw [block_other_eq g tid th h0 hf hcur] at h
        simp only [Outcome.next, Option.some.injEq] at h
        subst h
        exact acct_flag M g.threads _ _ tid true ha
  | terminate tid =>
    by_cases h0 : tid = 0
    · simp [perform, uthread_terminate, h0, Outcome.next] at h
    cases hf : tfind g.threads tid with
    | none =>
      simp only [perform, uthread_terminate, h0, if_false, hf, Outcome.next,
        Option.some.injEq] at h
      subst h; exact ha
    | some th =>
      by_cases hcur : tid = g.tidOfCurrentThread
      · subst hcur
        simp only [perform, uthread_terminate, h0, if_false, hf, if_true] at h
        rw [switchOutcome_next] at h
        exact pass_term_acct M g g1 hc ha h0 h
      · simp only [perform] at h
        rw [terminate_other_eq g tid th h0 hf hcur] at h
        simp only [Outcome.next, Option.some.injEq] at h
        subst h
        exact acct_erase M g.threads _ _ tid th ha hf h0
  | spawn e st =>
    by_cases he : e = 0
    · simp only [perform, uthread_spawn, he, if_true, Outcome.next, Option.some.injEq] at h
      subst h; exact ha
    cases hav : g.tidManager.availableTids with
    | nil =>
      simp only [perform] at h
      rw [spawn_full_eq g e st hav he] at h
      simp only [Outcome.next, Option.some.injEq] at h
      subst h; exact ha
    | cons t rest =>
      have htm : t ∈ g.tidManager.availableTids := by rw [hav]; exact List.mem_cons_self _ _
      have ht : t ≠ -1 := by
        have := hc.free_range t htm
        omega
      have ha1 : AcctOf M g.threads (t :: rest) g.threadQuantumCounter := by
        have := ha
        unfold Acct at this
        rwa [hav] at this
      by_cases hst : st = 0
      · subst hst
        simp only [perform] at h
        rw [spawn_nostack_eq g e t rest hav ht he] at h
        simp only [Outcome.next, Option.some.injEq] at h
        subst h
        exact acct_drop M g.threads t rest _ ha1
      · simp only [perform] at h
        rw [spawn_ok_eq g e st t rest hav ht he hst] at h
        simp only [Outcome.next, Option.some.injEq] at h
        subst h
        exact acct_insert M g.threads t rest _ st ha1 (hc.free_absent t htm)

/-- The accounting facts hold in every reachable state. -/
theorem reachable_acct (M : Nat) (g : ThreadGlobals) (hg : Reachable M g) : Acct M g := by
  induction hg with
  | init q hq => exact acct_init M q hq
  | step g g1 c hg hc ih => exact acct_perform M g g1 c (reachable_inv M g hg) ih hc

/-- C14: in every state reachable after init the thread table holds one record per existing
id, and the quantum counts of all existing threads add up to at most the global quantum counter
`k`, hence to at most `k + 1`. -/
theorem quanta_sum_bounded (M : Nat) (g : ThreadGlobals) (hg : Reachable M g) :
    (g.threads.map Prod.fst).Nodup ∧
    (g.threads.map (fun e => e.2.threadQuanta)).sum ≤ g.threadQuantumCounter ∧
    (g.threads.map (fun e => e.2.threadQuanta)).sum ≤ g.threadQuantumCounter + 1 := by
  have ha := reachable_acct M g hg
  refine ⟨ha.keys_nodup, ha.quanta_sum, ?_⟩
  have := ha.quanta_sum
  omega

/-- Witness for C14: the reachable state `sleeperGone`, with quantum counts 2 and 2 and the
counter at 6. -/
theorem quanta_sum_bounded_witness :
    Reachable 4 sleeperGone ∧
    (sleeperGone.threads.map Prod.fst).Nodup ∧
    (sleeperGone.threads.map (fun e => e.2.threadQuanta)).sum
      ≤ sleeperGone.threadQuantumCounter ∧
    (sleeperGone.threads.map (fun e => e.2.threadQuanta)).sum
      ≤ sleeperGone.threadQuantumCounter + 1 :=
  ⟨sleeperGone_reachable, quanta_sum_bounded 4 sleeperGone sleeperGone_reachable⟩

/-- In every reachable state thread 0 has a record, is not blocked, and runs or is queued. -/
theorem reachable_main_thread (M : Nat) (g : ThreadGlobals) (hg : Reachable M g) :
    (∃ th, tfind g.threads 0 = some th ∧ th.isBlocked = false) ∧
    (g.tidOfCurrentThread = 0 ∨ 0 ∈ g.readyThreadQueue) :=
  ⟨(reachable_inv M g hg).core.main_ok, (reachable_inv M g hg).core.main_runnable⟩

/-- The pop of a switch (152-153, 173-174): when the running thread is re-enqueued, or is not
thread 0, the queue is not empty at the pop and its head has a record. -/
theorem switch_front_exists (g : ThreadGlobals) (hc : Core g) (requeue : Bool)
    (h : requeue = false → g.tidOfCurrentThread ≠ 0) :
    ∃ front rest nxt,
      g.readyThreadQueue ++ (if requeue then [g.tidOfCurrentThread] else []) = front :: rest ∧
      tfind g.threads front = some nxt := by
  cases hq : g.readyThreadQueue with
  | cons a l =>
    obtain ⟨th, hth, _⟩ := hc.ready_ok a (by rw [hq]; exact List.mem_cons_self _ _)
    exact ⟨a, _, th, rfl, hth⟩
  | nil =>
    cases requeue with
    | true =>
      obtain ⟨th, hth⟩ := hc.cur_exists
      exact ⟨g.tidOfCurrentThread, [], th, by simp, hth⟩
    | false =>
      have h0 := h rfl
      rcases hc.main_runnable with e | e
      · exact absurd e h0
      · rw [hq] at e
        cases e

/-- C25 (code at the failing input): in the reachable state `sleeperGone` thread 0 has a record,
is not blocked and is queued, and at the pop of the next switch the queue `[0, 2]` is not empty
and its head 0 has a record; but the sleep list still holds the id 1 of the thread that
terminated itself, so the wake-up loop of that switch looks up a missing record. -/
theorem switch_reads_dead_sleeper :
    Reachable 4 sleeperGone ∧
    tfind sleeperGone.threads 0 = some ⟨0, false, 2, 0⟩ ∧
    (0 : Int) ∈ sleeperGone.readyThreadQueue ∧
    tfind sleeperGone.threads sleeperGone.tidOfCurrentThread = some ⟨8192, false, 2, 0⟩ ∧
    sleeperGone.readyThreadQueue ++ [sleeperGone.tidOfCurrentThread] = [0, 2] ∧
    sleeperGone.sleepingThread = [1] ∧
    tfind sleeperGone.threads 1 = none ∧
    wakeLoop sleeperGone.sleepingThread
      { sleeperGone with tidOfCurrentThread := 0, readyThreadQueue := [2] } = none ∧
    PassToNextThread sleeperGone (-1) false = none :=
  ⟨sleeperGone_reachable, by decide, by decide, by decide, by decide, by decide, by decide,
    by decide, by decide⟩

/-- An in-place update of a record keeps every id covered. -/
theorem cover_modify (M : Nat) (th : List (Int × Thread)) (av : List Int) (k : Int)
    (f : Thread → Thread) (h : Cover M th av) : Cover M (tmodify th k f) av := by
  intro t h0 hM
  rcases h t h0 hM with e | ⟨x, hx⟩
  · exact Or.inl e
  · right
    rw [tfind_tmodify]
    by_cases hk : t = k
    · subst hk
      rw [if_pos rfl, hx]
      exact ⟨f x, rfl⟩
    · rw [if_neg hk]
      exact ⟨x, hx⟩

/-- A successful spawn moves the smallest free id into the table. -/
theorem cover_insert (M : Nat) (th : List (Int × Thread)) (t : Int) (rest : List Int)
    (v : Thread) (h : Cover M th (t :: rest)) (hf : tfind th t = none) :
    Cover M (tinsert th t v) rest := by
  intro u h0 hM
  rw [tfind_tinsert th t u v hf]
  by_cases hu : u = t
  · right
    rw [if_pos hu]
    exact ⟨v, rfl⟩
  · rw [if_neg hu]
    rcases h u h0 hM with e | e
    · rcases List.mem_cons.1 e with e1 | e1
      · exact absurd e1 hu
      · exact Or.inl e1
    · exact Or.inr e

/-- The removal of a record together with the release of its id keeps every id covered. -/
theorem cover_erase (M : Nat) (th : List (Int × Thread)) (av : List Int) (tid : Int)
    (h : Cover M th av) : Cover M (terase th tid) (setInsert tid av) := by
  intro u h0 hM
  rw [tfind_terase, mem_setInsert]
  by_cases hu : u = tid
  · exact Or.inl (Or.inl hu)
  · rw [if_neg hu]
    rcases h u h0 hM with e | e
    · exact Or.inl (Or.inr e)
    · exact Or.inr e

/-- After `uthread_init` every id below `MAX_THREAD_NUM` is free or is thread 0. -/
theorem cover_init (M : Nat) (q : Int) (hq : 0 < q) :
    Cover M (uthread_init (pristine M) q).2.threads
      (uthread_init (pristine M) q).2.tidManager.availableTids := by
  rw [init_state M q hq]
  intro t h0 hM
  dsimp only
  rw [allocateTid_snd]
  by_cases ht : t = 0
  · right
    subst ht
    exact ⟨⟨0, false, 1, 0⟩, by simp [tfind]⟩
  · left
    unfold ThreadTidManager.new
    dsimp only
    obtain ⟨n, rfl⟩ := Int.eq_ofNat_of_zero_le h0
    have hn : n < M := by exact_mod_cast hM
    have hn0 : n ≠ 0 := by
      intro e
      apply ht
      rw [e]
      rfl
    cases M with
    | zero => omega
    | succ m =>
      rw [List.range_succ_eq_map, List.map_cons, List.tail_cons, List.map_map]
      refine List.mem_map.2 ⟨n - 1, List.mem_range.2 (by omega), ?_⟩
      simp only [Function.comp]
      congr 1
      omega

/-- A switch without termination keeps every id covered. -/
theorem pass_keep_cover (M : Nat) (g g1 : ThreadGlobals) (x : Int) (hc : Core g)
    (ha : Cover M g.threads g.tidManager.availableTids)
    (h : PassToNextThread g x false = some g1) :
    Cover M g1.threads g1.tidManager.availableTids := by
  obtain ⟨cur, front, rest, nxt, _, _, hn, rfl⟩ :=
    pass_keep_spec g g1 x hc.no_wake hc.counter_pos h
  dsimp only
  exact cover_modify M g.threads _ front _ ha

/-- A self-terminating switch keeps every id covered. -/
theorem pass_term_cover (M : Nat) (g g1 : ThreadGlobals) (hc : Core g)
    (ha : Cover M g.threads g.tidManager.availableTids)
    (h : PassToNextThread g g.tidOfCurrentThread true = some g1) :
    Cover M g1.threads g1.tidManager.availableTids := by
  obtain ⟨front, rest, nxt, hq, hn, hg1⟩ :=
    pass_term_spec g g1 g.tidOfCurrentThread hc.no_wake hc.counter_pos h
  obtain ⟨cur, hcur⟩ := hc.cur_exists
  have hfc : front ≠ g.tidOfCurrentThread := by
    intro e
    apply hc.cur_not_ready
    rw [hq, ← e]
    exact List.mem_cons_self _ _
  have hfind : tfind (tmodify g.threads front
      (fun t => t.setThreadQuanta (nxt.threadQuanta + 1))) g.tidOfCurrentThread = some cur := by
    rw [tfind_tmodify, if_neg (Ne.symm hfc), hcur]
  rw [hfind] at hg1
  dsimp only at hg1
  subst hg1
  dsimp only [ThreadTidManager.releaseTid]
  exact cover_erase M _ _ _ (cover_modify M g.threads _ front _ ha)

/-- Every call other than a spawn whose stack allocation fails keeps every id covered. -/
theorem cover_perform (M : Nat) (g g1 : ThreadGlobals) (c : Call) (hi : Inv g)
    (ha : Cover M g.threads g.tidManager.availableTids)
    (hok : allocationsSucceed [c] = true)
    (h : (perform g c).next = some g1) :
    Cover M g1.threads g1.tidManager.availableTids := by
  have hc := hi.core
  cases c with
  | tick =>
    simp only [perform, timer_handler] at h
    rw [switchOutcome_next] at h
    exact pass_keep_cover M g g1 (-1) hc ha h
  | sleep n =>
    by_cases h0 : g.tidOfCurrentThread = 0
    · simp only [perform, uthread_sleep, h0, if_true, Outcome.next, Option.some.injEq] at h
      subst h; exact ha
    · simp only [perform, uthread_sleep, h0, if_false] at h
      unfold sleepUpdate at h
      obtain ⟨th, h3⟩ := hc.cur_exists
      simp only [h3] at h
      rw [switchOutcome_next] at h
      have hcore : Core { g with sleepingThread := g.sleepingThread ++ [g.tidOfCurrentThread] } :=
        ⟨hc.free_sorted, hc.free_range, hc.free_absent, hc.table_range, hc.no_wake,
          hc.counter_pos, hc.ready_ok, hc.ready_nodup, hc.cur_not_ready, hc.cur_exists,
          hc.main_ok, hc.main_runnable⟩
      exact pass_keep_cover M _ g1 (-1) hcore ha h
  | resume tid =>
    cases hf : tfind g.threads tid with
    | none =>
      simp only [perform, uthread_resume, hf, Outcome.next, Option.some.injEq] at h
      subst h; exact ha
    | some th =>
      cases hb : th.isBlocked with
      | false =>
        simp only [perform] at h
        rw [resume_unblocked_eq g tid th hf hb] at h
        simp only [Outcome.next, Option.some.injEq] at h
        subst h; exact ha
      | true =>
        simp only [perform] at h
        rw [resume_blocked_eq g tid th hf hb] at h
        simp only [Outcome.next, Option.some.injEq] at h
        subst h
        dsimp only
        exact cover_modify M g.threads _ tid _ ha
  | block tid =>
    cases hf : tfind g.threads tid with
    | none =>
      simp only [perform, uthread_block, hf, Outcome.next, Option.some.injEq] at h
      subst h; exact ha
    | some th =>
      by_cases h0 : tid = 0
      · subst h0
        simp only [perform, uthread_block, hf, if_true, Outcome.next, Option.some.injEq] at h
        subst h; exact ha
      by_cases hcur : tid = g.tidOfCurrentThread
      · subst hcur
        have hcore : Core { g with
            threads := tmodify g.threads g.tidOfCurrentThread (fun t => t.setIsBlocked true)
            readyThreadQueue := g.readyThreadQueue } := by
          refine core_setIsBlocked g _ true _ hc h0 ?_ hc.ready_nodup hc.cur_not_ready
            hc.main_runnable
          intro u hu
          have hne : u ≠ g.tidOfCurrentThread := fun e => hc.cur_not_ready (e ▸ hu)
          rw [tfind_tmodify, if_neg hne]
          exact hc.ready_ok u hu
        simp only [perform, uthread_block, hf, h0, if_false, if_true] at h
        rw [switchOutcome_next] at h
        exact pass_keep_cover M _ g1 (-1) hcore
          (by dsimp only; exact cover_modify M g.threads _ g.tidOfCurrentThread _ ha) h
      · simp only [perform] at h
        rw [block_other_eq g tid th h0 hf hcur] at h
        simp only [Outcome.next, Option.some.injEq] at h
        subst h
        dsimp only
        exact cover_modify M g.threads _ tid _ ha
  | terminate tid =>
    by_cases h0 : tid = 0
    · simp [perform, uthread_terminate, h0, Outcome.next] at h
    cases hf : tfind g.threads tid with
    | none =>
      simp only [perform, uthread_terminate, h0, if_false, hf, Outcome.next,
        Option.some.injEq] at h
      subst h; exact ha
    | some th =>
      by_cases hcur : tid = g.tidOfCurrentThread
      · subst hcur
        simp only [perform, uthread_terminate, h0, if_false, hf, if_true] at h
        rw [switchOutcome_next] at h
        exact pass_term_cover M g g1 hc ha h
      · simp only [perform] at h
        rw [terminate_other_eq g tid th h0 hf hcur] at h
        simp only [Outcome.next, Option.some.injEq] at h
        subst h
        dsimp only [ThreadTidManager.releaseTid]
        exact cover_erase M g.threads _ tid ha
  | spawn e st =>
    by_cases he : e = 0
    · simp only [perform, uthread_spawn, he, if_true, Outcome.next, Option.some.injEq] at h
      subst h; exact ha
    cases hav : g.tidManager.availableTids with
    | nil =>
      simp only [perform] at h
      rw [spawn_full_eq g e st hav he] at h
      simp only [Outcome.next, Option.some.injEq] at h
      subst h
      rw [hav] at ha
      rw [hav]
      exact ha
    | cons t rest =>
      have htm : t ∈ g.tidManager.availableTids := by rw [hav]; exact List.mem_cons_self _ _
      have ht : t ≠ -1 := by
        have := hc.free_range t htm
        omega
      have hst : st ≠ 0 := by
        simpa [allocationsSucceed] using hok
      simp only [perform] at h
      rw [spawn_ok_eq g e st t rest hav ht he hst] at h
      simp only [Outcome.next, Option.some.injEq] at h
      subst h
      rw [hav] at ha
      dsimp only
      exact cover_insert M g.threads t rest _ ha (hc.free_absent t htm)

/-- A sequence of calls without a failed stack allocation keeps every id covered. -/
theorem cover_run (M : Nat) (cs : List Call) :
    ∀ g g1 : ThreadGlobals, Inv g → Cover M g.threads g.tidManager.availableTids →
      allocationsSucceed cs = true → run g cs = some g1 →
      Cover M g1.threads g1.tidManager.availableTids := by
  induction cs with
  | nil =>
    intro g g1 _ ha _ h
    simp only [run, Option.some.injEq] at h
    subst h
    exact ha
  | cons c cs ih =>
    intro g g1 hi ha hok h
    unfold run at h
    cases hn : (perform g c).next with
    | none => simp [hn] at h
    | some g2 =>
      simp only [hn] at h
      have hok1 : allocationsSucceed [c] = true ∧ allocationsSucceed cs = true := by
        cases c <;> simp_all [allocationsSucceed]
      exact ih g2 g1 (inv_perform g g2 c hi hn) (cover_perform M g g2 c hi ha hok1.1 hn)
        hok1.2 h

/-- After `uthread_init` and any sequence of calls in which no stack allocation fails, the free
ids are exactly the ids of `[0, MAX_THREAD_NUM)` without a thread record. -/
theorem free_ids_exact (M : Nat) (q : Int) (hq : 0 < q) (cs : List Call) (g : ThreadGlobals)
    (hok : allocationsSucceed cs = true)
    (h : run (uthread_init (pristine M) q).2 cs = some g) :
    ∀ t : Int, t ∈ g.tidManager.availableTids ↔
      (0 ≤ t ∧ t < (M : Int) ∧ tfind g.threads t = none) := by
  have hr0 : Reachable M (uthread_init (pristine M) q).2 := Reachable.init q hq
  have hr := reachable_run M cs _ g hr0 h
  have hc := (reachable_inv M g hr).core
  have hacct := reachable_acct M g hr
  have hcov := cover_run M cs _ g (reachable_inv M _ hr0) (cover_init M q hq) hok h
  intro t
  constructor
  · intro ht
    exact ⟨hc.free_range t ht, hacct.free_bound t ht, hc.free_absent t ht⟩
  · rintro ⟨h0, hM, hn⟩
    rcases hcov t h0 hM with e | ⟨x, hx⟩
    · exact e
    · rw [hn] at hx
      cases hx

/-- C26 (code at the failing input): right after `uthread_init(100)` with `MAX_THREAD_NUM = 4`, a
`uthread_spawn` with a non-null entry point whose stack allocation fails returns -1 and leaves
the reachable state `idLeaked`, in which id 1 of `[0, 4)` has no thread record and is not free;
the next successful spawn gets id 2. -/
theorem failed_allocation_leaks_id :
    Reachable 4 started ∧
    started.tidManager.availableTids = [1, 2, 3] ∧
    uthread_spawn started 1 0 = Outcome.ret (-1) idLeaked ∧
    Reachable 4 idLeaked ∧
    ((0 : Int) ≤ 1 ∧ (1 : Int) < 4) ∧
    tfind idLeaked.threads 1 = none ∧
    (1 : Int) ∉ idLeaked.tidManager.availableTids ∧
    uthread_spawn idLeaked 1 4096 = Outcome.ret 2
      ⟨100, [(0, ⟨0, false, 1, 0⟩), (2, ⟨4096, false, 0, 0⟩)], ⟨[3]⟩, 1, 0, [2], []⟩ :=
  ⟨started_reachable, by decide, by decide,
    Reachable.step started idLeaked (Call.spawn 1 0) started_reachable (by decide),
    by decide, by decide, by decide, by decide⟩

/-- No library call puts the signal of the timer in the mask: each blocks `SIGALRM` or nothing,
so `SIGVTALRM` is blocked while the call works on the scheduler state only if it was blocked
before the call. -/
theorem preemption_signal_not_blocked (g : ThreadGlobals) (blocked : Finset Signal) (c : Call)
    (hc : c ≠ Call.tick) (h : Signal.SIGVTALRM ∉ blocked) :
    Signal.SIGVTALRM ∉ (performMask g blocked c).inBody := by
  have hb : Signal.SIGVTALRM ∉ sigBlock blocked Signal.SIGALRM := by
    simp [sigBlock, h]
  cases c with
  | tick => exact absurd rfl hc
  | sleep n =>
    simp only [performMask, uthread_sleep_mask]
    split <;> exact h
  | spawn e st =>
    simp only [performMask, uthread_spawn_mask]
    split
    · exact hb
    · split
      · exact hb
      · split <;> exact hb
  | terminate tid =>
    simp only [performMask, uthread_terminate_mask]
    split
    · exact hb
    · split
      · exact hb
      · split <;> exact hb
  | block tid =>
    simp only [performMask, uthread_block_mask]
    split
    · exact hb
    · split <;> exact hb
  | resume tid =>
    simp only [performMask, uthread_resume_mask]
    split <;> exact hb

/-- Every `return -1` of `uthread_spawn`, `uthread_terminate`, `uthread_block` and
`uthread_resume` is reached with `SIGALRM` blocked, whatever the mask was at the call. -/
theorem error_return_mask (g g1 : ThreadGlobals) (blocked : Finset Signal) (c : Call)
    (hc : ∀ n, c ≠ Call.sleep n) (h : perform g c = Outcome.ret (-1) g1) :
    (performMask g blocked c).atReturn = some (insert Signal.SIGALRM blocked) := by
  cases c with
  | tick =>
    simp only [perform, timer_handler] at h
    cases hp : PassToNextThread g (-1) false <;> rw [hp] at h <;> cases h
  | sleep n => exact absurd rfl (hc n)
  | spawn e st =>
    simp only [perform, uthread_spawn] at h
    simp only [performMask, uthread_spawn_mask, sigBlock]
    by_cases he : e = 0
    · simp [he]
    · by_cases ht : g.tidManager.allocateTid.1 = -1
      · simp [he, ht]
      · by_cases hst : st = 0
        · simp [he, ht, hst]
        · simp only [he, ht, hst, if_false, Outcome.ret.injEq] at h
          exact h.1.elim
  | terminate tid =>
    simp only [perform, uthread_terminate] at h
    simp only [performMask, uthread_terminate_mask, sigBlock]
    by_cases h0 : tid = 0
    · simp [h0] at h
    · cases hf : tfind g.threads tid with
      | none => simp [h0]
      | some th =>
        by_cases hcur : tid = g.tidOfCurrentThread
        · simp only [h0, hf, if_false, if_pos hcur] at h
          cases hp : PassToNextThread g tid true <;> rw [hp] at h <;> cases h
        · simp [h0, hf, hcur] at h
  | block tid =>
    simp only [perform, uthread_block] at h
    simp only [performMask, uthread_block_mask, sigBlock]
    cases hf : tfind g.threads tid with
    | none => simp
    | some th =>
      by_cases h0 : tid = 0
      · simp [h0]
      · by_cases hcur : tid = g.tidOfCurrentThread
        · simp only [hf, h0, if_false, if_pos hcur] at h
          revert h
          generalize PassToNextThread _ (-1) false = o
          intro h
          cases o <;> cases h
        · simp [hf, h0, hcur] at h
  | resume tid =>
    simp only [perform, uthread_resume] at h
    simp only [performMask, uthread_resume_mask, sigBlock]
    cases hf : tfind g.threads tid with
    | none => simp
    | some th =>
      by_cases hb : th.isBlocked = true
      · simp [hf, hb] at h
      · simp [hf, hb] at h

/-- C24 (code at the failing input): right after `uthread_init(100)`, with no signal blocked,
`uthread_spawn(nullptr)` returns -1; while it ran only `SIGALRM` was blocked, not the `SIGVTALRM`
of the timer, and at the `return` `SIGALRM` is still blocked, so the mask is not the one the
call was entered with. A successful spawn also leaves `SIGVTALRM` unblocked in its body, and
`uthread_sleep` blocks nothing before it changes the sleep list. -/
theorem error_return_leaves_signal_blocked :
    Reachable 4 started ∧
    uthread_spawn started 0 4096 = Outcome.ret (-1) started ∧
    (uthread_spawn_mask started 0 4096 ∅).inBody = {Signal.SIGALRM} ∧
    Signal.SIGVTALRM ∉ (uthread_spawn_mask started 0 4096 ∅).inBody ∧
    (uthread_spawn_mask started 0 4096 ∅).atReturn = some {Signal.SIGALRM} ∧
    ({Signal.SIGALRM} : Finset Signal) ≠ ∅ ∧
    Signal.SIGVTALRM ∉ (uthread_spawn_mask started 1 4096 ∅).inBody ∧
    (uthread_spawn_mask started 1 4096 ∅).atReturn = some ∅ ∧
    Reachable 4 workerRunning ∧
    workerRunning.tidOfCurrentThread ≠ 0 ∧
    (uthread_sleep_mask workerRunning ∅).inBody = ∅ :=
  ⟨started_reachable, by decide, by decide, by decide, by decide, by decide, by decide,
    by decide, workerRunning_reachable, by decide, by decide⟩

end Uthreads

/-! ## Theorems: shuffle, reduce phase and progress word -/

namespace MapReduce

variable {K V : Type}

/-- Rounding to the nearest integer finds the integer that is less than a half away. -/
theorem roundHalfEven_near (q : ℚ) (m : ℤ) (h1 : (m : ℚ) - 1 / 2 < q) (h2 : q < m + 1 / 2) :
    roundHalfEven q = m := by
  unfold roundHalfEven
  by_cases hm : (m : ℚ) ≤ q
  · have hf : ⌊q⌋ = m := Int.floor_eq_iff.2 ⟨hm, by linarith⟩
    rw [hf, if_pos (by linarith)]
  · push_neg at hm
    have hf : ⌊q⌋ = m - 1 := Int.floor_eq_iff.2 ⟨by push_cast; linarith, by push_cast; linarith⟩
    rw [hf]
    have h3 : ¬ (q - ((m - 1 : ℤ) : ℚ) < 1 / 2) := by push_cast; linarith
    have h4 : 1 / 2 < q - ((m - 1 : ℤ) : ℚ) := by push_cast; linarith
    rw [if_neg h3, if_pos h4]
    ring

/-- An integer rounds to itself. -/
theorem roundHalfEven_int (m : ℤ) : roundHalfEven (m : ℚ) = m :=
  roundHalfEven_near _ m (by linarith) (by linarith)

/-- A value halfway above an even integer rounds down to it. -/
theorem roundHalfEven_tie_even (m : ℤ) (hm : m % 2 = 0) : roundHalfEven ((m : ℚ) + 1 / 2) = m := by
  unfold roundHalfEven
  have hf : ⌊(m : ℚ) + 1 / 2⌋ = m := Int.floor_eq_iff.2 ⟨by linarith, by linarith⟩
  rw [hf]
  have h3 : ¬ ((m : ℚ) + 1 / 2 - (m : ℚ) < 1 / 2) := by linarith
  have h4 : ¬ (1 / 2 < (m : ℚ) + 1 / 2 - (m : ℚ)) := by linarith
  rw [if_neg h3, if_neg h4, if_pos hm]

/-- Rounding does not pass an integer that lies more than a half above. -/
theorem roundHalfEven_le (q : ℚ) (n : ℤ) (h : q < n + 1 / 2) : roundHalfEven q ≤ n := by
  have hfl : ⌊q⌋ ≤ n := by
    have : ⌊q⌋ < n + 1 := Int.floor_lt.2 (by push_cast; linarith)
    omega
  have hq := Int.floor_le q
  unfold roundHalfEven
  by_cases h1 : q - ⌊q⌋ < 1 / 2
  · rw [if_pos h1]; exact hfl
  · rw [if_neg h1]
    have hlt : ⌊q⌋ < n := by
      by_contra hge
      have : ⌊q⌋ = n := by omega
      rw [this] at h1
      exact h1 (by linarith)
    by_cases h2 : 1 / 2 < q - ⌊q⌋
    · rw [if_pos h2]; omega
    · rw [if_neg h2]
      by_cases h3 : ⌊q⌋ % 2 = 0
      · rw [if_pos h3]; omega
      · rw [if_neg h3]; omega

/-- Rounding does not fall below an integer that the value reaches. -/
theorem le_roundHalfEven (q : ℚ) (n : ℤ) (h : (n : ℚ) ≤ q) : n ≤ roundHalfEven q := by
  have hfl : n ≤ ⌊q⌋ := Int.le_floor.2 h
  unfold roundHalfEven
  by_cases h1 : q - ⌊q⌋ < 1 / 2
  · rw [if_pos h1]; exact hfl
  · rw [if_neg h1]
    by_cases h2 : 1 / 2 < q - ⌊q⌋
    · rw [if_pos h2]; omega
    · rw [if_neg h2]
      by_cases h3 : ⌊q⌋ % 2 = 0
      · rw [if_pos h3]; omega
      · rw [if_neg h3]; omega

/-- The binary exponent of a positive value lying in `[2^e, 2^(e+1))`. -/
theorem log_eq_of_bounds (x : ℚ) (e : ℤ) (h1 : (2 : ℚ) ^ e ≤ x) (h2 : x < (2 : ℚ) ^ (e + 1)) :
    Int.log 2 x = e := by
  have hx : 0 < x := lt_of_lt_of_le (by positivity) h1
  have a : e ≤ Int.log 2 x := (Int.zpow_le_iff_le_log (by norm_num) hx).1 (by exact_mod_cast h1)
  have b : Int.log 2 x < e + 1 := (Int.lt_zpow_iff_log_lt (by norm_num) hx).1 (by exact_mod_cast h2)
  omega

/-- On positive values `roundF32` is the rounding of the magnitude. -/
theorem roundF32_of_pos (x : ℚ) (hx : 0 < x) : roundF32 x = roundF32Mag x := by
  unfold roundF32
  rw [if_neg (ne_of_gt hx), if_pos hx]

/-- The rounding of a value of `[2^e, 2^(e+1))` whose scaled significand is less than a half
away from `m`. -/
theorem roundF32_eval (x : ℚ) (e m : ℤ) (h1 : (2 : ℚ) ^ e ≤ x) (h2 : x < (2 : ℚ) ^ (e + 1))
    (h3 : (m : ℚ) - 1 / 2 < x / 2 ^ (e - 23)) (h4 : x / 2 ^ (e - 23) < m + 1 / 2) :
    roundF32 x = m * 2 ^ (e - 23) := by
  have hx : 0 < x := lt_of_lt_of_le (by positivity) h1
  rw [roundF32_of_pos x hx]
  unfold roundF32Mag
  rw [log_eq_of_bounds x e h1 h2, roundHalfEven_near _ m h3 h4]

/-- A power of two times a power of two with an integer exponent. -/
theorem two_pow_mul_zpow (a : ℕ) (e : ℤ) : (2 : ℚ) ^ a * 2 ^ e = 2 ^ (e + a) := by
  rw [← zpow_natCast, ← zpow_add₀ (by norm_num : (2 : ℚ) ≠ 0)]
  congr 1
  ring

/-- The cast of an integer power of two times a power of two with an integer exponent. -/
theorem int_pow_mul_zpow (a : ℕ) (e : ℤ) : (((2 : ℤ) ^ a : ℤ) : ℚ) * 2 ^ e = 2 ^ (e + a) := by
  rw [Int.cast_pow, Int.cast_ofNat]
  exact two_pow_mul_zpow a e

/-- The rounding of a positive value is positive. -/
theorem roundF32_pos (x : ℚ) (hx : 0 < x) : 0 < roundF32 x := by
  rw [roundF32_of_pos x hx]
  unfold roundF32Mag
  have hp : (0 : ℚ) < 2 ^ (Int.log 2 x - 23) := by positivity
  have hlow : (2 : ℚ) ^ Int.log 2 x ≤ x := by
    have := Int.zpow_log_le_self (b := 2) (r := x) (by norm_num) hx
    exact_mod_cast this
  have hq : ((2 ^ 23 : ℤ) : ℚ) ≤ x / 2 ^ (Int.log 2 x - 23) := by
    rw [le_div_iff₀ hp]
    have : ((2 ^ 23 : ℤ) : ℚ) * 2 ^ (Int.log 2 x - 23) = 2 ^ Int.log 2 x := by
      rw [int_pow_mul_zpow]
      congr 1
      push_cast
      ring
    rw [this]
    exact hlow
  have hr := le_roundHalfEven _ _ hq
  have hr1 : (0 : ℚ) < (roundHalfEven (x / 2 ^ (Int.log 2 x - 23)) : ℚ) := by
    have : (0 : ℤ) < roundHalfEven (x / 2 ^ (Int.log 2 x - 23)) := by
      have : (0 : ℤ) < 2 ^ 23 := by norm_num
      omega
    exact_mod_cast this
  positivity

/-- A value with at most 24 significant bits is a `float`: it rounds to itself. -/
theorem roundF32_dyadic (k : ℕ) (j : ℤ) (hk1 : 0 < k) (hk : k < 2 ^ 24) :
    roundF32 ((k : ℚ) * 2 ^ j) = (k : ℚ) * 2 ^ j := by
  have hkq : (0 : ℚ) < (k : ℚ) := by exact_mod_cast hk1
  have hx : (0 : ℚ) < (k : ℚ) * 2 ^ j := by positivity
  rw [roundF32_of_pos _ hx]
  unfold roundF32Mag
  have hlt : (k : ℚ) * 2 ^ j < 2 ^ (j + 24) := by
    have h2 : (0 : ℚ) < 2 ^ j := by positivity
    have h3 : (k : ℚ) < (2 : ℚ) ^ (24 : ℕ) := by exact_mod_cast hk
    have h4 := two_pow_mul_zpow 24 j
    push_cast at h4
    rw [← h4]
    exact mul_lt_mul_of_pos_right h3 h2
  have he : Int.log 2 ((k : ℚ) * 2 ^ j) < j + 24 :=
    (Int.lt_zpow_iff_log_lt (by norm_num) hx).1 (by exact_mod_cast hlt)
  generalize Int.log 2 ((k : ℚ) * 2 ^ j) = e at he
  obtain ⟨n, hn⟩ : ∃ n : ℕ, j - (e - 23) = (n : ℤ) := ⟨(j - (e - 23)).toNat, by omega⟩
  have hq : (k : ℚ) * 2 ^ j / 2 ^ (e - 23) = (((k * 2 ^ n : ℕ) : ℤ) : ℚ) := by
    rw [mul_div_assoc, ← zpow_sub₀ (by norm_num : (2 : ℚ) ≠ 0), hn, zpow_natCast]
    push_cast
    ring
  rw [hq, roundHalfEven_int]
  push_cast
  rw [mul_assoc, ← zpow_natCast, ← hn, ← zpow_add₀ (by norm_num : (2 : ℚ) ≠ 0)]
  congr 2
  ring

/-- A count of at most `2^24` converts to `float` without rounding. -/
theorem roundF32_nat (n : ℕ) (h : n ≤ 2 ^ 24) : roundF32 (n : ℚ) = n := by
  by_cases h0 : n = 0
  · subst h0
    simp [roundF32]
  by_cases h1 : n = 2 ^ 24
  · subst h1
    have := roundF32_dyadic (2 ^ 23) 1 (by norm_num) (by norm_num)
    norm_num at this ⊢
    exact this
  · have := roundF32_dyadic n 0 (by omega) (by omega)
    simpa using this

/-- Rounding does not pass a `float` `m * 2^(e-23)`, `2^23 ≤ m < 2^24`, that lies more than
half a unit in the last place above or anywhere below half a unit above the value. -/
theorem roundF32_le (x : ℚ) (hx : 0 < x) (e m : ℤ) (hm1 : 2 ^ 23 ≤ m) (hm : m < 2 ^ 24)
    (h : x < ((m : ℚ) + 1 / 2) * 2 ^ (e - 23)) : roundF32 x ≤ (m : ℚ) * 2 ^ (e - 23) := by
  rw [roundF32_of_pos x hx]
  unfold roundF32Mag
  have hu : (0 : ℚ) < 2 ^ (e - 23) := by positivity
  have hmq : (m : ℚ) + 1 / 2 < 2 ^ (24 : ℤ) := by
    have : (m : ℚ) ≤ ((2 ^ 24 - 1 : ℤ) : ℚ) := by
      have : m ≤ 2 ^ 24 - 1 := by omega
      exact_mod_cast this
    push_cast at this
    norm_num
    linarith
  have hxe : x < 2 ^ (e + 1) := by
    have : ((2 : ℚ) ^ (24 : ℤ)) * 2 ^ (e - 23) = 2 ^ (e + 1) := by
      rw [← zpow_add₀ (by norm_num : (2 : ℚ) ≠ 0)]
      congr 1
      ring
    rw [← this]
    exact lt_trans h (mul_lt_mul_of_pos_right hmq hu)
  have hle : Int.log 2 x < e + 1 :=
    (Int.lt_zpow_iff_log_lt (by norm_num) hx).1 (by exact_mod_cast hxe)
  have hup : x < 2 ^ (Int.log 2 x + 1) := by
    have := Int.lt_zpow_succ_log_self (b := 2) (by norm_num) x
    exact_mod_cast this
  generalize Int.log 2 x = e1 at hle hup
  have hu1 : (0 : ℚ) < 2 ^ (e1 - 23) := by positivity
  by_cases heq : e1 = e
  · subst heq
    have hq : x / 2 ^ (e1 - 23) < (m : ℚ) + 1 / 2 := by
      rw [div_lt_iff₀ hu1]
      exact h
    have hr := roundHalfEven_le _ m hq
    have hr1 : (roundHalfEven (x / 2 ^ (e1 - 23)) : ℚ) ≤ (m : ℚ) := by exact_mod_cast hr
    exact mul_le_mul_of_nonneg_right hr1 (le_of_lt hu1)
  · have hlt : e1 + 1 ≤ e := by omega
    have hq : x / 2 ^ (e1 - 23) < ((2 ^ 24 : ℤ) : ℚ) + 1 / 2 := by
      rw [div_lt_iff₀ hu1]
      have : ((2 ^ 24 : ℤ) : ℚ) * 2 ^ (e1 - 23) = 2 ^ (e1 + 1) := by
        rw [int_pow_mul_zpow]
        congr 1
        push_cast
        ring
      have h5 : ((2 ^ 24 : ℤ) : ℚ) * 2 ^ (e1 - 23)
          ≤ (((2 ^ 24 : ℤ) : ℚ) + 1 / 2) * 2 ^ (e1 - 23) :=
        mul_le_mul_of_nonneg_right (by linarith) (le_of_lt hu1)
      rw [this] at h5
      exact lt_of_lt_of_le hup h5
    have hr := roundHalfEven_le _ (2 ^ 24) hq
    have hr1 : (roundHalfEven (x / 2 ^ (e1 - 23)) : ℚ) ≤ ((2 ^ 24 : ℤ) : ℚ) := by
      exact_mod_cast hr
    have h6 : (roundHalfEven (x / 2 ^ (e1 - 23)) : ℚ) * 2 ^ (e1 - 23)
        ≤ ((2 ^ 24 : ℤ) : ℚ) * 2 ^ (e1 - 23) :=
      mul_le_mul_of_nonneg_right hr1 (le_of_lt hu1)
    have h7 : ((2 ^ 24 : ℤ) : ℚ) * 2 ^ (e1 - 23) = 2 ^ (e1 + 1) := by
      rw [int_pow_mul_zpow]
      congr 1
      push_cast
      ring
    have h8 : (2 : ℚ) ^ (e1 + 1) ≤ 2 ^ e := zpow_le_zpow_right₀ (by norm_num) hlt
    have h9 : (2 : ℚ) ^ e = ((2 ^ 23 : ℤ) : ℚ) * 2 ^ (e - 23) := by
      rw [int_pow_mul_zpow]
      congr 1
      push_cast
      ring
    have h10 : ((2 ^ 23 : ℤ) : ℚ) * 2 ^ (e - 23) ≤ (m : ℚ) * 2 ^ (e - 23) :=
      mul_le_mul_of_nonneg_right (by exact_mod_cast hm1) (le_of_lt hu)
    exact le_trans h6 (le_trans (le_of_eq h7) (le_trans h8 (le_trans (le_of_eq h9) h10)))

/-- The value `2^24 + 1` lies halfway between two `float`s and converts to the even one,
`2^24`. -/
theorem roundF32_big : roundF32 ((2 ^ 24 + 1 : ℕ) : ℚ) = 2 ^ 24 := by
  have hx : (0 : ℚ) < ((2 ^ 24 + 1 : ℕ) : ℚ) := by norm_num
  rw [roundF32_of_pos _ hx]
  unfold roundF32Mag
  have hl : Int.log 2 ((2 ^ 24 + 1 : ℕ) : ℚ) = 24 :=
    log_eq_of_bounds _ 24 (by norm_num) (by norm_num)
  rw [hl]
  have hq : ((2 ^ 24 + 1 : ℕ) : ℚ) / 2 ^ ((24 : ℤ) - 23) = ((2 ^ 23 : ℤ) : ℚ) + 1 / 2 := by
    norm_num
  rw [hq, roundHalfEven_tie_even _ (by norm_num)]
  norm_num

/-- A ratio of at most `1 - 2^-24`, multiplied by `100.0f`, rounds to a `float` below 100. -/
theorem percent_round_lt (y : ℚ) (hy : 0 < y) (h : y ≤ (2 ^ 24 - 1) / 2 ^ 24) :
    roundF32 (y * 100) < 100 := by
  have h1 := roundF32_le (y * 100) (by positivity) 6 13107199 (by norm_num) (by norm_num)
    (by
      have : (((13107199 : ℤ) : ℚ) + 1 / 2) * 2 ^ ((6 : ℤ) - 23) = 26214399 / 262144 := by
        norm_num
      rw [this]
      norm_num at h ⊢
      linarith)
  have h2 : ((13107199 : ℤ) : ℚ) * 2 ^ ((6 : ℤ) - 23) < 100 := by norm_num
  linarith

/-- The percentage of nothing is `0.0f`. -/
theorem floatPercent_zero (P : ℕ) : floatPercent 0 P = 0 := by
  simp [floatPercent, roundF32]

/-- The percentage of a whole is `100.0f`. -/
theorem floatPercent_self (P : ℕ) (hP : 0 < P) : floatPercent P P = 100 := by
  unfold floatPercent
  have hp : (0 : ℚ) < roundF32 (P : ℚ) := roundF32_pos _ (by exact_mod_cast hP)
  rw [div_self (ne_of_gt hp)]
  have h1 : roundF32 (1 : ℚ) = 1 := by
    have := roundF32_nat 1 (by norm_num)
    simpa using this
  rw [h1, one_mul]
  have := roundF32_nat 100 (by norm_num)
  simpa using this

/-- Up to `2^24` pairs the percentage of a proper part is a `float` below 100. -/
theorem floatPercent_lt (g P : ℕ) (hg : 0 < g) (hlt : g < P) (hP : P ≤ 2 ^ 24) :
    floatPercent g P < 100 := by
  unfold floatPercent
  rw [roundF32_nat g (by omega), roundF32_nat P hP]
  have hPq : (0 : ℚ) < (P : ℚ) := by exact_mod_cast (by omega : 0 < P)
  have hgq : (0 : ℚ) < (g : ℚ) := by exact_mod_cast hg
  have hratio : (g : ℚ) / P ≤ (2 ^ 24 - 1) / 2 ^ 24 := by
    rw [div_le_div_iff₀ hPq (by norm_num)]
    have h1 : (g : ℚ) ≤ (P : ℚ) - 1 := by
      have : g + 1 ≤ P := hlt
      have : ((g + 1 : ℕ) : ℚ) ≤ (P : ℚ) := by exact_mod_cast this
      push_cast at this
      linarith
    have h2 : (P : ℚ) ≤ 2 ^ 24 := by exact_mod_cast hP
    nlinarith
  have hr := roundF32_le ((g : ℚ) / P) (by positivity) (-1) (2 ^ 24 - 1) (by norm_num)
    (by norm_num)
    (by
      have : ((((2 : ℤ) ^ 24 - 1 : ℤ) : ℚ) + 1 / 2) * 2 ^ ((-1 : ℤ) - 23)
          = 33554431 / 33554432 := by norm_num
      rw [this]
      norm_num at hratio ⊢
      linarith)
  have hr2 : (((2 : ℤ) ^ 24 - 1 : ℤ) : ℚ) * 2 ^ ((-1 : ℤ) - 23) = (2 ^ 24 - 1) / 2 ^ 24 := by
    norm_num
  rw [hr2] at hr
  exact percent_round_lt _ (roundF32_pos _ (by positivity)) hr

/-- With `2^24 + 1` pairs the percentage of fewer than `2^24` groups is below 100. -/
theorem floatPercent_big_lt (g : ℕ) (hg : 0 < g) (hlt : g < 2 ^ 24) :
    floatPercent g (2 ^ 24 + 1) < 100 := by
  unfold floatPercent
  rw [roundF32_nat g (by omega), roundF32_big]
  have hgq : (0 : ℚ) < (g : ℚ) := by exact_mod_cast hg
  have hd := roundF32_dyadic g (-24) hg hlt
  have he : (g : ℚ) * 2 ^ (-24 : ℤ) = (g : ℚ) / 2 ^ 24 := by
    rw [zpow_neg, div_eq_mul_inv]
    norm_num
  rw [he] at hd
  rw [hd]
  apply percent_round_lt _ (by positivity)
  have h1 : (g : ℚ) ≤ 2 ^ 24 - 1 := by
    have : g + 1 ≤ 2 ^ 24 := hlt
    have : ((g + 1 : ℕ) : ℚ) ≤ ((2 ^ 24 : ℕ) : ℚ) := by exact_mod_cast this
    push_cast at this
    linarith
  exact div_le_div_of_nonneg_right h1 (by norm_num)

/-- With `2^24 + 1` pairs the percentage of `2^24` groups is exactly `100.0f`. -/
theorem floatPercent_big_eq : floatPercent (2 ^ 24) (2 ^ 24 + 1) = 100 := by
  unfold floatPercent
  rw [roundF32_nat (2 ^ 24) (le_refl _), roundF32_big]
  have h0 : (((2 ^ 24 : ℕ) : ℚ)) / 2 ^ 24 = 1 := by norm_num
  rw [h0]
  have h1 : roundF32 (1 : ℚ) = 1 := by
    have := roundF32_nat 1 (by norm_num)
    simpa using this
  rw [h1, one_mul]
  have := roundF32_nat 100 (by norm_num)
  simpa using this

/-- The `float` percentage of two groups out of three pairs. -/
theorem floatPercent_two_three : floatPercent 2 3 = 4369067 / 65536 := by
  unfold floatPercent
  rw [roundF32_nat 2 (by norm_num), roundF32_nat 3 (by norm_num)]
  have h1 : roundF32 (((2 : ℕ) : ℚ) / ((3 : ℕ) : ℚ)) = 11184811 / 16777216 := by
    have := roundF32_eval (((2 : ℕ) : ℚ) / ((3 : ℕ) : ℚ)) (-1) 11184811 (by norm_num)
      (by norm_num) (by norm_num) (by norm_num)
    rw [this]
    norm_num
  rw [h1]
  have := roundF32_eval ((11184811 : ℚ) / 16777216 * 100) 6 8738134 (by norm_num)
    (by norm_num) (by norm_num) (by norm_num)
  rw [this]
  norm_num

/-- The `float` percentage of one group out of two. -/
theorem floatPercent_one_two : floatPercent 1 2 = 50 := by
  unfold floatPercent
  rw [roundF32_nat 1 (by norm_num), roundF32_nat 2 (by norm_num)]
  have h1 : roundF32 (((1 : ℕ) : ℚ) / ((2 : ℕ) : ℚ)) = 1 / 2 := by
    have := roundF32_dyadic 1 (-1) (by norm_num) (by norm_num)
    norm_num at this ⊢
    exact this
  rw [h1]
  have := roundF32_nat 50 (by norm_num)
  norm_num at this ⊢
  exact this

/-- What the inner loop of `collectPairsWithKey` does to one vector: it moves a leading run of
pairs equivalent to the key (in reverse iteration) to `collectedPairs` and stops at the first pair
that is not equivalent. -/
theorem popTrailingRev_spec (lt : K → K → Bool) (k : K) (r c : List (K × V)) :
    ∃ popped, (popTrailingRev lt k r c).2 = c ++ popped ∧
      r = popped ++ (popTrailingRev lt k r c).1 ∧
      (∀ p ∈ popped, lt p.1 k = false ∧ lt k p.1 = false) ∧
      (∀ z rest, (popTrailingRev lt k r c).1 = z :: rest →
        ¬ (lt z.1 k = false ∧ lt k z.1 = false)) := by
  induction r generalizing c with
  | nil => exact ⟨[], by simp [popTrailingRev]⟩
  | cons p r ih =>
    unfold popTrailingRev
    by_cases h : (!(lt p.1 k) && !(lt k p.1)) = true
    · rw [if_pos h]
      obtain ⟨popped, h1, h2, h3, h4⟩ := ih (c ++ [p])
      refine ⟨p :: popped, by rw [h1]; simp, by rw [List.cons_append, ← h2], ?_, h4⟩
      intro q hq
      rcases List.mem_cons.1 hq with e | e
      · subst e; simpa using h
      · exact h3 q e
    · rw [if_neg h]
      refine ⟨[], by simp, by simp, by simp, ?_⟩
      intro z rest e
      simp only [List.cons.injEq] at e
      obtain ⟨e1, _⟩ := e
      subst e1
      simpa using h

/-- Pair count of a family with one more vector. -/
theorem totalPairs_cons (vec : List (K × V)) (vecs : List (List (K × V))) :
    totalPairs (vec :: vecs) = vec.length + totalPairs vecs := by
  simp [totalPairs]

/-- Pair count of the empty family. -/
theorem totalPairs_nil : totalPairs ([] : List (List (K × V))) = 0 := rfl

/-- The call of `collectPairsWithKey` moves pairs: none is lost or added. -/
theorem collectLoop_count (lt : K → K → Bool) (k : K) (vecs : List (List (K × V)))
    (c : List (K × V)) :
    totalPairs (collectLoop lt k vecs c).1 + (collectLoop lt k vecs c).2.length
      = totalPairs vecs + c.length := by
  induction vecs generalizing c with
  | nil => simp [collectLoop, totalPairs]
  | cons vec rest ih =>
    obtain ⟨popped, h1, h2, _, _⟩ := popTrailingRev_spec lt k vec.reverse c
    have hlen : vec.length = popped.length + (popTrailingRev lt k vec.reverse c).1.length := by
      have := congrArg List.length h2
      simpa using this
    have := ih (popTrailingRev lt k vec.reverse c).2
    simp only [collectLoop, totalPairs_cons, List.length_reverse]
    rw [h1] at this
    simp only [List.length_append] at this
    rw [h1]
    omega

/-- The vector `collectedPairs` only grows. -/
theorem collectLoop_grows (lt : K → K → Bool) (k : K) (vecs : List (List (K × V)))
    (c : List (K × V)) : c.length ≤ (collectLoop lt k vecs c).2.length := by
  induction vecs generalizing c with
  | nil => simp [collectLoop]
  | cons vec rest ih =>
    obtain ⟨popped, h1, _, _, _⟩ := popTrailingRev_spec lt k vec.reverse c
    have := ih (popTrailingRev lt k vec.reverse c).2
    simp only [collectLoop]
    rw [h1] at this
    simp only [List.length_append] at this
    rw [h1]
    omega

/-- With an irreflexive `<`, a vector whose back carries the key loses at least that pair. -/
theorem collectLoop_nonempty (lt : K → K → Bool) (hirr : ∀ a, lt a a = false) (L : K × V)
    (vecs : List (List (K × V))) (c : List (K × V))
    (h : ∃ vec ∈ vecs, vec.getLast? = some L) :
    c.length < (collectLoop lt L.1 vecs c).2.length := by
  induction vecs generalizing c with
  | nil => obtain ⟨vec, hv, _⟩ := h; simp at hv
  | cons vec rest ih =>
    obtain ⟨popped, h1, h2, h3, h4⟩ := popTrailingRev_spec lt L.1 vec.reverse c
    simp only [collectLoop]
    by_cases hb : vec.getLast? = some L
    · have hpos : 0 < popped.length := by
        cases popped with
        | nil =>
          exfalso
          simp only [List.nil_append] at h2
          have hh : vec.reverse.head? = some L := by simpa using hb
          cases hr : (popTrailingRev lt L.1 vec.reverse c).1 with
          | nil => rw [← h2] at hr; rw [hr] at hh; simp at hh
          | cons z zs =>
            rw [← h2] at hr
            rw [hr] at hh
            simp only [List.head?_cons, Option.some.injEq] at hh
            subst hh
            rw [h2] at hr
            exact h4 z zs hr ⟨hirr _, hirr _⟩
        | cons _ _ => simp
      have := collectLoop_grows lt L.1 rest (popTrailingRev lt L.1 vec.reverse c).2
      rw [h1] at this ⊢
      simp only [List.length_append] at this
      omega
    · obtain ⟨v, hv, hl⟩ := h
      rcases List.mem_cons.1 hv with e | e
      · subst e; exact absurd hl hb
      · have := ih (popTrailingRev lt L.1 vec.reverse c).2 ⟨v, e, hl⟩
        rw [h1] at this ⊢
        simp only [List.length_append] at this
        omega

/-- The result of the scan of `findLargestKey` is the incoming candidate or some vector's back. -/
theorem findLargestLoop_mem (lt : K → K → Bool) (vecs : List (List (K × V)))
    (acc : Option (K × V)) (L : K × V) (h : findLargestLoop lt vecs acc = some L) :
    acc = some L ∨ ∃ vec ∈ vecs, vec.getLast? = some L := by
  induction vecs generalizing acc with
  | nil => left; simpa [findLargestLoop] using h
  | cons vec rest ih =>
    unfold findLargestLoop at h
    cases hb : vec.getLast? with
    | none =>
      simp only [hb] at h
      rcases ih acc h with e | ⟨v, hv, hl⟩
      · exact Or.inl e
      · exact Or.inr ⟨v, List.mem_cons_of_mem _ hv, hl⟩
    | some bk =>
      simp only [hb] at h
      cases acc with
      | none =>
        simp only at h
        rcases ih _ h with e | ⟨v, hv, hl⟩
        · right
          exact ⟨vec, List.mem_cons_self _ _, by rw [hb, e]⟩
        · exact Or.inr ⟨v, List.mem_cons_of_mem _ hv, hl⟩
      | some a =>
        simp only at h
        by_cases hlt : lt a.1 bk.1 = true
        · rw [if_pos hlt] at h
          rcases ih _ h with e | ⟨v, hv, hl⟩
          · right
            exact ⟨vec, List.mem_cons_self _ _, by rw [hb, e]⟩
          · exact Or.inr ⟨v, List.mem_cons_of_mem _ hv, hl⟩
        · rw [if_neg hlt] at h
          rcases ih _ h with e | ⟨v, hv, hl⟩
          · exact Or.inl e
          · exact Or.inr ⟨v, List.mem_cons_of_mem _ hv, hl⟩

/-- The scan of `findLargestKey` finds nothing only when every vector is empty. -/
theorem findLargestLoop_none (lt : K → K → Bool) (vecs : List (List (K × V)))
    (acc : Option (K × V)) (h : findLargestLoop lt vecs acc = none) :
    acc = none ∧ ∀ vec ∈ vecs, vec = [] := by
  induction vecs generalizing acc with
  | nil => exact ⟨by simpa [findLargestLoop] using h, by simp⟩
  | cons vec rest ih =>
    unfold findLargestLoop at h
    cases hb : vec.getLast? with
    | none =>
      simp only [hb] at h
      obtain ⟨h1, h2⟩ := ih acc h
      refine ⟨h1, ?_⟩
      intro v hv
      rcases List.mem_cons.1 hv with e | e
      · subst e; exact List.getLast?_eq_none_iff.1 hb
      · exact h2 v e
    | some bk =>
      simp only [hb] at h
      cases acc with
      | none =>
        simp only at h
        exact absurd (ih _ h).1 (by simp)
      | some a =>
        simp only at h
        by_cases hlt : lt a.1 bk.1 = true
        · rw [if_pos hlt] at h
          exact absurd (ih _ h).1 (by simp)
        · rw [if_neg hlt] at h
          exact absurd (ih _ h).1 (by simp)

/-- Non-empty groups hold at least as many pairs as there are groups. -/
theorem length_le_sum_of_nonempty (gs : List (List (K × V))) (h : ∀ grp ∈ gs, grp ≠ []) :
    gs.length ≤ (gs.map List.length).sum := by
  induction gs with
  | nil => simp
  | cons grp gs ih =>
    have h1 : 0 < grp.length := List.length_pos.2 (h grp (List.mem_cons_self _ _))
    have h2 := ih (fun x hx => h x (List.mem_cons_of_mem _ hx))
    simp only [List.length_cons, List.map_cons, List.sum_cons]
    omega

/-- A family without pairs consists of empty vectors. -/
theorem totalPairs_zero (vecs : List (List (K × V))) (h : totalPairs vecs = 0) :
    ∀ vec ∈ vecs, vec = [] := by
  induction vecs with
  | nil => simp
  | cons v vs ih =>
    rw [totalPairs_cons] at h
    intro x hx
    rcases List.mem_cons.1 hx with e | e
    · subst e; exact List.length_eq_zero.1 (by omega)
    · exact ih (by omega) x e

/-- Up to `2^24` pairs, when the loop guard `percentage < 100` fails every worker vector is
empty. -/
theorem guard_exit_empty (job : JobContext K V) (hinv : CountInv job)
    (hmax : job.maxSize ≤ 2 ^ 24)
    (hg : ¬ job.jobState.percentage < 100) : totalPairs job.intermediateVecs = 0 := by
  have hp := hinv.percent
  by_cases h0 : job.shuffleArray.length = 0
  · rw [if_pos h0] at hp
    rw [hp] at hg
    exact absurd (by norm_num) hg
  · rw [if_neg h0] at hp
    rw [hp] at hg
    have hle := length_le_sum_of_nonempty job.shuffleArray hinv.groups_nonempty
    have ht := hinv.total
    by_contra hne
    apply hg
    exact floatPercent_lt _ _ (by omega) (by omega) hmax

/-- The call of `collectPairsWithKey` keeps the number of workers. -/
theorem collectLoop_length (lt : K → K → Bool) (k : K) (vecs : List (List (K × V)))
    (c : List (K × V)) : (collectLoop lt k vecs c).1.length = vecs.length := by
  induction vecs generalizing c with
  | nil => rfl
  | cons vec rest ih => simp [collectLoop, ih]

/-- The state after one productive iteration of the shuffle loop. -/
theorem countInv_step (lt : K → K → Bool) (job : JobContext K V) (L : K × V)
    (hinv : CountInv job)
    (hne : (collectPairsWithKey lt job.intermediateVecs L).2.isEmpty = false) :
    CountInv (updateShuffleProgress
      { job with
        intermediateVecs := (collectPairsWithKey lt job.intermediateVecs L).1
        shuffleArray := job.shuffleArray ++ [(collectPairsWithKey lt job.intermediateVecs L).2] })
    := by
  have hcount := collectLoop_count lt L.1 job.intermediateVecs []
  have ht := hinv.total
  refine ⟨?_, ?_, ?_⟩
  · simp only [updateShuffleProgress, collectPairsWithKey, List.map_append, List.sum_append,
      List.map_cons, List.map_nil, List.sum_cons, List.sum_nil]
    simp only [List.length_nil] at hcount
    omega
  · intro grp hg
    simp only [updateShuffleProgress] at hg
    rcases List.mem_append.1 hg with e | e
    · exact hinv.groups_nonempty grp e
    · rw [List.mem_singleton.1 e]
      intro e1
      rw [e1] at hne
      simp at hne
  · simp [updateShuffleProgress]

/-- The shuffle loop ends once the fuel exceeds the number of pairs still in the workers'
vectors, with the counting invariant kept; it ends with every vector empty or with the guard
`percentage < 100` failing. -/
theorem shuffleLoop_terminates (lt : K → K → Bool) (hirr : ∀ a, lt a a = false) (n : Nat) :
    ∀ job : JobContext K V, CountInv job → totalPairs job.intermediateVecs ≤ n →
      ∃ r, (∀ fuel, n + 1 ≤ fuel → shuffleLoop lt fuel job = some r) ∧ CountInv r ∧
        (totalPairs r.intermediateVecs = 0 ∨ ¬ r.jobState.percentage < 100) ∧
        r.maxSize = job.maxSize ∧
        r.intermediateVecs.length = job.intermediateVecs.length := by
  induction n with
  | zero =>
    intro job hinv hle
    have h0 : totalPairs job.intermediateVecs = 0 := by omega
    refine ⟨job, ?_, hinv, Or.inl h0, rfl, rfl⟩
    intro fuel hf
    obtain ⟨f, rfl⟩ : ∃ f, fuel = f + 1 := ⟨fuel - 1, by omega⟩
    unfold shuffleLoop
    by_cases hg : job.jobState.percentage < 100
    · rw [if_pos hg]
      cases hfl : findLargestKey lt job.intermediateVecs with
      | none => rfl
      | some L =>
        exfalso
        rcases findLargestLoop_mem lt _ _ L hfl with e | ⟨vec, hv, hl⟩
        · cases e
        · have := totalPairs_zero _ h0 vec hv
          rw [this] at hl
          simp at hl
    · rw [if_neg hg]
  | succ n ih =>
    intro job hinv hle
    by_cases hg : job.jobState.percentage < 100
    · cases hfl : findLargestKey lt job.intermediateVecs with
      | none =>
        have hall := (findLargestLoop_none lt _ _ hfl).2
        have h0 : totalPairs job.intermediateVecs = 0 := by
          have : ∀ vecs : List (List (K × V)), (∀ vec ∈ vecs, vec = []) → totalPairs vecs = 0 := by
            intro vecs
            induction vecs with
            | nil => intro _; rfl
            | cons v vs ihv =>
              intro h
              rw [totalPairs_cons, h v (List.mem_cons_self _ _),
                ihv (fun x hx => h x (List.mem_cons_of_mem _ hx))]
              rfl
          exact this _ hall
        refine ⟨job, ?_, hinv, Or.inl h0, rfl, rfl⟩
        intro fuel hf
        obtain ⟨f, rfl⟩ : ∃ f, fuel = f + 1 := ⟨fuel - 1, by omega⟩
        unfold shuffleLoop
        rw [if_pos hg, hfl]
      | some L =>
        have hback : ∃ vec ∈ job.intermediateVecs, vec.getLast? = some L := by
          rcases findLargestLoop_mem lt _ _ L hfl with e | h
          · cases e
          · exact h
        have hgrow := collectLoop_nonempty lt hirr L job.intermediateVecs [] hback
        have hcount := collectLoop_count lt L.1 job.intermediateVecs []
        simp only [List.length_nil] at hgrow hcount
        have hne : (collectPairsWithKey lt job.intermediateVecs L).2.isEmpty = false := by
          unfold collectPairsWithKey
          cases hc : (collectLoop lt L.1 job.intermediateVecs []).2 with
          | nil => rw [hc] at hgrow; simp at hgrow
          | cons _ _ => rfl
        have hinv2 := countInv_step lt job L hinv hne
        have hle2 : totalPairs (updateShuffleProgress
            { job with
              intermediateVecs := (collectPairsWithKey lt job.intermediateVecs L).1
              shuffleArray := job.shuffleArray ++
                [(collectPairsWithKey lt job.intermediateVecs L).2] }).intermediateVecs ≤ n := by
          simp only [updateShuffleProgress, collectPairsWithKey]
          omega
        obtain ⟨r, hr1, hr2, hr3, hr4, hr5⟩ := ih _ hinv2 hle2
        refine ⟨r, ?_, hr2, hr3, hr4, ?_⟩
        · intro fuel hf
          obtain ⟨f, rfl⟩ : ∃ f, fuel = f + 1 := ⟨fuel - 1, by omega⟩
          unfold shuffleLoop
          rw [if_pos hg, hfl]
          simp only [hne]
          exact hr1 f (by omega)
        · rw [hr5]
          simp only [updateShuffleProgress, collectPairsWithKey]
          exact collectLoop_length lt L.1 _ _
    · refine ⟨job, ?_, hinv, Or.inr hg, rfl, rfl⟩
      intro fuel hf
      obtain ⟨f, rfl⟩ : ∃ f, fuel = f + 1 := ⟨fuel - 1, by omega⟩
      unfold shuffleLoop
      rw [if_neg hg]

/-- The counting invariant holds after `configureShuffleEnvironment` on a fresh job. -/
theorem countInv_configure (job : JobContext K V) (hfresh : job.shuffleArray = []) :
    CountInv (configureShuffleEnvironment job) := by
  refine ⟨?_, ?_, ?_⟩
  · simp [configureShuffleEnvironment, hfresh, totalPairs]
  · intro grp hg
    simp [configureShuffleEnvironment, hfresh] at hg
  · simp [configureShuffleEnvironment, hfresh]

/-- The order of the natural numbers is irreflexive. -/
theorem natLt_irrefl : ∀ a, natLt a a = false := by
  intro a
  simp [natLt]

/-- The shuffle of a fresh job ends in a state that keeps the counting invariant and the number
of workers, with every vector empty or with the guard `percentage < 100` failing. -/
theorem shuffle_result (lt : K → K → Bool) (hirr : ∀ a, lt a a = false)
    (job : JobContext K V) (hfresh : job.shuffleArray = []) :
    ∃ r, (∀ fuel, (job.intermediateVecs.map List.length).sum + 1 ≤ fuel →
        executeShuffleOperation lt fuel job = some r) ∧
      CountInv r ∧
      (totalPairs r.intermediateVecs = 0 ∨ ¬ r.jobState.percentage < 100) ∧
      r.maxSize = (job.intermediateVecs.map List.length).sum ∧
      r.intermediateVecs.length = job.intermediateVecs.length := by
  obtain ⟨r, h1, h2, h3, h4, h5⟩ :=
    shuffleLoop_terminates lt hirr (totalPairs (configureShuffleEnvironment job).intermediateVecs)
      (configureShuffleEnvironment job) (countInv_configure job hfresh) (le_refl _)
  exact ⟨r, fun fuel hf => h1 fuel hf, h2, h3, h4, h5⟩

/-- Up to `2^24` pairs: for every family of worker vectors of a fresh job, and a key comparison
that is irreflexive (as every strict weak order is), `executeShuffleOperation` terminates (it
returns the same result for every fuel above the number of pairs), and afterwards the sizes of
the groups of the shuffle output add up to the sum of the sizes of the worker vectors before the
shuffle, and every worker vector is empty. -/
theorem small_shuffle_preserves_pair_count (lt : K → K → Bool) (hirr : ∀ a, lt a a = false)
    (job : JobContext K V) (hfresh : job.shuffleArray = [])
    (hsmall : (job.intermediateVecs.map List.length).sum ≤ 2 ^ 24) :
    ∃ r, (∀ fuel, (job.intermediateVecs.map List.length).sum + 1 ≤ fuel →
        executeShuffleOperation lt fuel job = some r) ∧
      (r.shuffleArray.map List.length).sum = (job.intermediateVecs.map List.length).sum ∧
      (∀ vec ∈ r.intermediateVecs, vec = []) ∧
      r.intermediateVecs.length = job.intermediateVecs.length := by
  obtain ⟨r, h1, h2, h3, h4, h5⟩ := shuffle_result lt hirr job hfresh
  have h0 : totalPairs r.intermediateVecs = 0 := by
    rcases h3 with e | e
    · exact e
    · exact guard_exit_empty r h2 (by rw [h4]; exact hsmall) e
  refine ⟨r, h1, ?_, totalPairs_zero _ h0, h5⟩
  have ht := h2.total
  rw [h0, h4] at ht
  exact ht

/-- Example for the shuffle of a small job: the example job under the order of the natural
numbers. -/
theorem small_shuffle_preserves_pair_count_example :
    ∃ r, (∀ fuel, (exampleJob.intermediateVecs.map List.length).sum + 1 ≤ fuel →
        executeShuffleOperation natLt fuel exampleJob = some r) ∧
      (r.shuffleArray.map List.length).sum = (exampleJob.intermediateVecs.map List.length).sum ∧
      (∀ vec ∈ r.intermediateVecs, vec = []) ∧
      r.intermediateVecs.length = exampleJob.intermediateVecs.length :=
  small_shuffle_preserves_pair_count natLt natLt_irrefl exampleJob rfl (by decide)

/-- In a strict weak order "not less than" is transitive. -/
theorem StrictWeakOrder.negtrans {lt : K → K → Bool} (h : StrictWeakOrder lt) (a b c : K)
    (hab : lt a b = false) (hbc : lt b c = false) : lt a c = false := by
  by_contra hac
  have hac1 : lt a c = true := by simpa using hac
  have hba : lt b a = false := by
    by_contra hba
    have hba1 : lt b a = true := by simpa using hba
    have := h.trans b a c hba1 hac1
    rw [hbc] at this
    cases this
  have hcb : lt c b = false := by
    by_contra hcb
    have hcb1 : lt c b = true := by simpa using hcb
    have := h.trans a c b hac1 hcb1
    rw [hab] at this
    cases this
  have := (h.incomp_trans a b c hab hba hbc hcb).1
  rw [hac1] at this
  cases this

/-- In a strict weak order, anything not above the smaller of two keys is below the larger. -/
theorem StrictWeakOrder.lt_of_not_lt_of_lt {lt : K → K → Bool} (h : StrictWeakOrder lt)
    (y z L : K) (hzy : lt z y = false) (hzL : lt z L = true) : lt y L = true := by
  by_contra hyL
  have hyL1 : lt y L = false := by simpa using hyL
  have := h.negtrans z y L hzy hyL1
  rw [hzL] at this
  cases this

/-- A key below `L` is below every key equivalent to `L`. -/
theorem StrictWeakOrder.lt_of_lt_of_equiv {lt : K → K → Bool} (h : StrictWeakOrder lt)
    (y L p : K) (hyL : lt y L = true) (hpL : lt p L = false) : lt y p = true := by
  by_contra hyp
  have hyp1 : lt y p = false := by simpa using hyp
  have := h.negtrans y p L hyp1 hpL
  rw [hyL] at this
  cases this

/-- The scan of `findLargestKey`, started with a candidate, ends on a key that no back and no
key the candidate dominates exceeds. -/
theorem findLargestLoop_max {lt : K → K → Bool} (hswo : StrictWeakOrder lt)
    (vecs : List (List (K × V))) (a L : K × V)
    (h : findLargestLoop lt vecs (some a) = some L) :
    (∀ x : K, lt a.1 x = false → lt L.1 x = false) ∧
    (∀ vec ∈ vecs, ∀ bk, vec.getLast? = some bk → lt L.1 bk.1 = false) := by
  induction vecs generalizing a with
  | nil =>
    simp only [findLargestLoop, Option.some.injEq] at h
    subst h
    exact ⟨fun x hx => hx, by simp⟩
  | cons vec rest ih =>
    unfold findLargestLoop at h
    cases hb : vec.getLast? with
    | none =>
      simp only [hb] at h
      obtain ⟨h1, h2⟩ := ih a h
      refine ⟨h1, ?_⟩
      intro v hv bk hbk
      rcases List.mem_cons.1 hv with e | e
      · subst e; rw [hb] at hbk; cases hbk
      · exact h2 v e bk hbk
    | some bk0 =>
      simp only [hb] at h
      by_cases hlt : lt a.1 bk0.1 = true
      · rw [if_pos hlt] at h
        obtain ⟨h1, h2⟩ := ih bk0 h
        refine ⟨?_, ?_⟩
        · intro x hx
          apply h1
          by_contra hc
          have hc1 : lt bk0.1 x = true := by simpa using hc
          have := hswo.trans _ _ _ hlt hc1
          rw [hx] at this
          cases this
        · intro v hv bk hbk
          rcases List.mem_cons.1 hv with e | e
          · subst e
            rw [hb] at hbk
            cases hbk
            exact h1 _ (hswo.irrefl _)
          · exact h2 v e bk hbk
      · rw [if_neg hlt] at h
        obtain ⟨h1, h2⟩ := ih a h
        refine ⟨h1, ?_⟩
        intro v hv bk hbk
        rcases List.mem_cons.1 hv with e | e
        · subst e
          rw [hb] at hbk
          cases hbk
          exact h1 _ (by simpa using hlt)
        · exact h2 v e bk hbk

/-- The pair returned by `findLargestKey` has a key that no vector's back exceeds. -/
theorem findLargestKey_max {lt : K → K → Bool} (hswo : StrictWeakOrder lt)
    (vecs : List (List (K × V))) (L : K × V) (h : findLargestKey lt vecs = some L) :
    ∀ vec ∈ vecs, ∀ bk, vec.getLast? = some bk → lt L.1 bk.1 = false := by
  unfold findLargestKey at h
  induction vecs with
  | nil => simp
  | cons vec rest ih =>
    unfold findLargestLoop at h
    cases hb : vec.getLast? with
    | none =>
      simp only [hb] at h
      intro v hv bk hbk
      rcases List.mem_cons.1 hv with e | e
      · subst e; rw [hb] at hbk; cases hbk
      · exact ih h v e bk hbk
    | some bk0 =>
      simp only [hb] at h
      obtain ⟨h1, h2⟩ := findLargestLoop_max hswo rest bk0 L h
      intro v hv bk hbk
      rcases List.mem_cons.1 hv with e | e
      · subst e
        rw [hb] at hbk
        cases hbk
        exact h1 _ (hswo.irrefl _)
      · exact h2 v e bk hbk

/-- Where the pairs go in `collectPairsWithKey`: every vector keeps a front part of itself whose
last pair, if any, is not equivalent to the key, and every pair added to `collectedPairs` is
equivalent to the key and comes from a vector. -/
theorem collectLoop_spec (lt : K → K → Bool) (k : K) (vecs : List (List (K × V)))
    (c : List (K × V)) :
    (∀ vec1 ∈ (collectLoop lt k vecs c).1, ∃ vec ∈ vecs, ∃ popped, vec = vec1 ++ popped ∧
      (∀ z init, vec1 = init ++ [z] → ¬ (lt z.1 k = false ∧ lt k z.1 = false))) ∧
    (∀ p ∈ (collectLoop lt k vecs c).2, p ∈ c ∨
      ((lt p.1 k = false ∧ lt k p.1 = false) ∧ ∃ vec ∈ vecs, p ∈ vec)) := by
  induction vecs generalizing c with
  | nil => simp [collectLoop]
  | cons vec rest ih =>
    obtain ⟨popped, h1, h2, h3, h4⟩ := popTrailingRev_spec lt k vec.reverse c
    obtain ⟨ih1, ih2⟩ := ih (popTrailingRev lt k vec.reverse c).2
    simp only [collectLoop]
    refine ⟨?_, ?_⟩
    · intro vec1 hv
      rcases List.mem_cons.1 hv with e | e
      · refine ⟨vec, List.mem_cons_self _ _, popped.reverse, ?_, ?_⟩
        · rw [e, ← List.reverse_append, ← h2, List.reverse_reverse]
        · intro z init hz
          rw [e] at hz
          have : (popTrailingRev lt k vec.reverse c).1 = z :: init.reverse := by
            have := congrArg List.reverse hz
            simpa using this
          exact h4 z _ this
      · obtain ⟨v, hv1, pp, hv2, hv3⟩ := ih1 vec1 e
        exact ⟨v, List.mem_cons_of_mem _ hv1, pp, hv2, hv3⟩
    · intro p hp
      rcases ih2 p hp with e | ⟨e1, v, hv1, hv2⟩
      · rw [h1] at e
        rcases List.mem_append.1 e with e | e
        · exact Or.inl e
        · right
          refine ⟨h3 p e, vec, List.mem_cons_self _ _, ?_⟩
          have : p ∈ vec.reverse := by rw [h2]; exact List.mem_append_left _ e
          simpa using this
      · exact Or.inr ⟨e1, v, List.mem_cons_of_mem _ hv1, hv2⟩

/-- A vector is empty or has a back. -/
theorem eq_nil_or_snoc (l : List (K × V)) : l = [] ∨ ∃ init z, l = init ++ [z] := by
  rcases List.eq_nil_or_concat l with e | ⟨init, z, e⟩
  · exact Or.inl e
  · exact Or.inr ⟨init, z, by rw [e, List.concat_eq_append]⟩

/-- In a sorted vector no pair has a key above the key of the back. -/
theorem sorted_le_back {lt : K → K → Bool} (hirr : ∀ a, lt a a = false) (vec : List (K × V))
    (bk : K × V) (hs : SortedByKey lt vec) (hb : vec.getLast? = some bk) :
    ∀ x ∈ vec, lt bk.1 x.1 = false := by
  intro x hx
  rcases eq_nil_or_snoc vec with e | ⟨l, b, e⟩
  · subst e; simp at hx
  · subst e
    rw [List.getLast?_concat] at hb
    cases hb
    rcases List.mem_append.1 hx with h | h
    · unfold SortedByKey at hs
      exact (List.pairwise_append.1 hs).2.2 x h bk (by simp)
    · rw [List.mem_singleton.1 h]
      exact hirr _

/-- One productive iteration of the shuffle loop keeps the ordering invariant. -/
theorem orderInv_step {lt : K → K → Bool} (hswo : StrictWeakOrder lt) (job : JobContext K V)
    (L : K × V) (hinv : OrderInv lt job) (hL : findLargestKey lt job.intermediateVecs = some L) :
    OrderInv lt (updateShuffleProgress
      { job with
        intermediateVecs := (collectPairsWithKey lt job.intermediateVecs L).1
        shuffleArray := job.shuffleArray ++ [(collectPairsWithKey lt job.intermediateVecs L).2] })
    := by
  obtain ⟨s1, s2⟩ := collectLoop_spec lt L.1 job.intermediateVecs []
  have hmax := findLargestKey_max hswo job.intermediateVecs L hL
  -- pairs collected in this round: equivalent to the key, and taken from a vector
  have hm : ∀ p ∈ (collectPairsWithKey lt job.intermediateVecs L).2,
      (lt p.1 L.1 = false ∧ lt L.1 p.1 = false) ∧ ∃ vec ∈ job.intermediateVecs, p ∈ vec := by
    intro p hp
    rcases s2 p hp with e | e
    · simp at e
    · exact e
  -- pairs left in the vectors: below the key
  have hbelow : ∀ vec1 ∈ (collectPairsWithKey lt job.intermediateVecs L).1, ∀ y ∈ vec1,
      lt y.1 L.1 = true := by
    intro vec1 hv1 y hy
    obtain ⟨vec, hv, popped, hsplit, hstop⟩ := s1 vec1 hv1
    have hsv := hinv.sorted vec hv
    rcases eq_nil_or_snoc vec1 with e | ⟨init, z, e⟩
    · subst e; simp at hy
    · have hzne := hstop z init e
      have hvne : vec ≠ [] := by rw [hsplit, e]; simp
      obtain ⟨bk, hbk⟩ : ∃ bk, vec.getLast? = some bk := by
        cases hg : vec.getLast? with
        | none => exact absurd (List.getLast?_eq_none_iff.1 hg) hvne
        | some bk => exact ⟨bk, rfl⟩
      have hzv : z ∈ vec := by rw [hsplit, e]; simp
      have h1 : lt L.1 bk.1 = false := hmax vec hv bk hbk
      have h2 : lt bk.1 z.1 = false := sorted_le_back hswo.irrefl vec bk hsv hbk z hzv
      have h3 : lt L.1 z.1 = false := hswo.negtrans _ _ _ h1 h2
      have h4 : lt z.1 L.1 = true := by
        by_contra hc
        exact hzne ⟨by simpa using hc, h3⟩
      have hs1 : SortedByKey lt vec1 := by
        unfold SortedByKey at hsv ⊢
        rw [hsplit] at hsv
        exact (List.pairwise_append.1 hsv).1
      have h5 : lt z.1 y.1 = false :=
        sorted_le_back hswo.irrefl vec1 z hs1 (by rw [e, List.getLast?_concat]) y hy
      exact hswo.lt_of_not_lt_of_lt _ _ _ h5 h4
  refine ⟨?_, ?_, ?_, ?_⟩
  · intro vec1 hv1
    obtain ⟨vec, hv, popped, hsplit, _⟩ := s1 vec1 hv1
    have hsv := hinv.sorted vec hv
    unfold SortedByKey at hsv ⊢
    rw [hsplit] at hsv
    exact (List.pairwise_append.1 hsv).1
  · intro grp hg p hp q hq
    rcases List.mem_append.1 hg with e | e
    · exact hinv.within grp e p hp q hq
    · rw [List.mem_singleton.1 e] at hp hq
      obtain ⟨⟨p1, p2⟩, _⟩ := hm p hp
      obtain ⟨⟨q1, q2⟩, _⟩ := hm q hq
      exact hswo.incomp_trans _ _ _ p1 p2 q2 q1
  · show List.Pairwise _ (job.shuffleArray ++ [_])
    rw [List.pairwise_append]
    refine ⟨hinv.descending, List.pairwise_singleton _ _, ?_⟩
    intro g1 hg1 g2 hg2 p hp q hq
    rw [List.mem_singleton.1 hg2] at hq
    obtain ⟨_, vec, hv, hqv⟩ := hm q hq
    exact hinv.above_rest g1 hg1 p hp vec hv q hqv
  · intro grp hg p hp vec1 hv1 y hy
    rcases List.mem_append.1 hg with e | e
    · obtain ⟨vec, hv, popped, hsplit, _⟩ := s1 vec1 hv1
      exact hinv.above_rest grp e p hp vec hv y (by rw [hsplit]; exact List.mem_append_left _ hy)
    · rw [List.mem_singleton.1 e] at hp
      obtain ⟨⟨p1, _⟩, _⟩ := hm p hp
      exact hswo.lt_of_lt_of_equiv _ _ _ (hbelow vec1 hv1 y hy) p1

/-- The shuffle loop keeps the ordering invariant. -/
theorem shuffleLoop_order {lt : K → K → Bool} (hswo : StrictWeakOrder lt) (fuel : Nat) :
    ∀ (job r : JobContext K V), OrderInv lt job → shuffleLoop lt fuel job = some r →
      OrderInv lt r := by
  induction fuel with
  | zero =>
    intro job r _ h
    simp [shuffleLoop] at h
  | succ f ih =>
    intro job r hinv h
    unfold shuffleLoop at h
    by_cases hg : job.jobState.percentage < 100
    · rw [if_pos hg] at h
      cases hfl : findLargestKey lt job.intermediateVecs with
      | none =>
        simp only [hfl, Option.some.injEq] at h
        subst h; exact hinv
      | some L =>
        simp only [hfl] at h
        have hback : ∃ vec ∈ job.intermediateVecs, vec.getLast? = some L := by
          rcases findLargestLoop_mem lt _ _ L hfl with e | h
          · cases e
          · exact h
        have hgrow := collectLoop_nonempty lt hswo.irrefl L job.intermediateVecs [] hback
        have hne : (collectPairsWithKey lt job.intermediateVecs L).2.isEmpty = false := by
          unfold collectPairsWithKey
          cases hc : (collectLoop lt L.1 job.intermediateVecs []).2 with
          | nil => rw [hc] at hgrow; simp at hgrow
          | cons _ _ => rfl
        simp only [hne] at h
        exact ih _ r (orderInv_step hswo job L hinv hfl) h
    · rw [if_neg hg] at h
      cases h
      exact hinv

/-- The ordering invariant holds after `configureShuffleEnvironment` on a fresh job with sorted vectors. -/
theorem orderInv_configure (lt : K → K → Bool) (job : JobContext K V)
    (hfresh : job.shuffleArray = [])
    (hsorted : ∀ vec ∈ job.intermediateVecs, SortedByKey lt vec) :
    OrderInv lt (configureShuffleEnvironment job) := by
  refine ⟨hsorted, ?_, ?_, ?_⟩
  · intro grp hg
    simp [configureShuffleEnvironment, hfresh] at hg
  · simp [configureShuffleEnvironment, hfresh]
  · intro grp hg
    simp [configureShuffleEnvironment, hfresh] at hg

/-- The order of the natural numbers is a strict weak order. -/
theorem natLt_swo : StrictWeakOrder natLt := by
  refine ⟨natLt_irrefl, ?_, ?_⟩
  · intro a b c h1 h2
    simp only [natLt, decide_eq_true_eq] at *
    omega
  · intro a b c h1 h2 h3 h4
    simp only [natLt, decide_eq_false_iff_not] at *
    omega

/-- The vectors of the example job are sorted. -/
theorem exampleJob_sorted : ∀ vec ∈ exampleJob.intermediateVecs, SortedByKey natLt vec := by
  intro vec hv
  simp only [exampleJob, List.mem_cons, List.mem_singleton, List.not_mem_nil, or_false] at hv
  rcases hv with e | e <;> subst e <;> simp [SortedByKey, natLt]

/-- C9: for every family of worker vectors of a fresh job, each sorted ascending by a key
comparison that is a strict weak order, `executeShuffleOperation` returns (for every fuel above
the number of pairs) a shuffle output in which any two pairs of one group have equivalent keys
(neither is less than the other) and, for group indices `i < j`, every key of group `i` is
strictly greater than every key of group `j`. -/
theorem shuffle_groups_descending (lt : K → K → Bool) (hswo : StrictWeakOrder lt)
    (job : JobContext K V) (hfresh : job.shuffleArray = [])
    (hsorted : ∀ vec ∈ job.intermediateVecs, SortedByKey lt vec) :
    ∃ r, (∀ fuel, (job.intermediateVecs.map List.length).sum + 1 ≤ fuel →
        executeShuffleOperation lt fuel job = some r) ∧
      (∀ grp ∈ r.shuffleArray, ∀ p ∈ grp, ∀ q ∈ grp,
        lt p.1 q.1 = false ∧ lt q.1 p.1 = false) ∧
      (∀ (i j : Nat) (gi gj : List (K × V)), i < j →
        r.shuffleArray[i]? = some gi → r.shuffleArray[j]? = some gj →
        ∀ p ∈ gi, ∀ q ∈ gj, lt q.1 p.1 = true) := by
  obtain ⟨r, h1, _, _, _, _⟩ :=
    shuffleLoop_terminates lt hswo.irrefl
      (totalPairs (configureShuffleEnvironment job).intermediateVecs)
      (configureShuffleEnvironment job) (countInv_configure job hfresh) (le_refl _)
  have hrun := h1 _ (le_refl _)
  have hinv := shuffleLoop_order hswo _ _ r (orderInv_configure lt job hfresh hsorted) hrun
  refine ⟨r, fun fuel hf => h1 fuel hf, hinv.within, ?_⟩
  intro i j gi gj hij hi hj p hp q hq
  obtain ⟨hi1, hi2⟩ := List.getElem?_eq_some_iff.1 hi
  obtain ⟨hj1, hj2⟩ := List.getElem?_eq_some_iff.1 hj
  have := (List.pairwise_iff_getElem.1 hinv.descending) i j hi1 hj1 hij
  rw [hi2, hj2] at this
  exact this p hp q hq

/-- Witness for C9: the example job under the order of the natural numbers. -/
theorem shuffle_groups_descending_witness :
    StrictWeakOrder natLt ∧ exampleJob.shuffleArray = [] ∧
    (∀ vec ∈ exampleJob.intermediateVecs, SortedByKey natLt vec) ∧
    ∃ r, (∀ fuel, (exampleJob.intermediateVecs.map List.length).sum + 1 ≤ fuel →
        executeShuffleOperation natLt fuel exampleJob = some r) ∧
      (∀ grp ∈ r.shuffleArray, ∀ p ∈ grp, ∀ q ∈ grp,
        natLt p.1 q.1 = false ∧ natLt q.1 p.1 = false) ∧
      (∀ (i j : Nat) (gi gj : List (Nat × String)), i < j →
        r.shuffleArray[i]? = some gi → r.shuffleArray[j]? = some gj →
        ∀ p ∈ gi, ∀ q ∈ gj, natLt q.1 p.1 = true) :=
  ⟨natLt_swo, rfl, exampleJob_sorted,
    shuffle_groups_descending natLt natLt_swo exampleJob rfl exampleJob_sorted⟩

/-- The shuffle output of the example job: the group of key 2, then the group of key 1. -/
theorem exampleJob_shuffle :
    (executeShuffleOperation natLt 4 exampleJob).map (fun r => r.shuffleArray)
      = some [[(2, "b")], [(1, "a"), (1, "c")]] := by
  have h13 : floatPercent 1 3 < 100 :=
    floatPercent_lt 1 3 (by norm_num) (by norm_num) (by norm_num)
  simp [executeShuffleOperation, shuffleLoop, configureShuffleEnvironment, exampleJob,
    findLargestKey, findLargestLoop, collectPairsWithKey, collectLoop, popTrailingRev, natLt,
    updateShuffleProgress, h13]

/-- The low 31 bits of a reduce-stage word are its next-index field. -/
theorem word_low (c d : Nat) (hc : c < 2 ^ 31) :
    (3 * 2 ^ 62 + d * 2 ^ 31 + c) &&& (2 ^ 31 - 1) = c := by
  rw [Nat.and_pow_two_sub_one_eq_mod]
  norm_num at hc ⊢
  omega

/-- Bits 31-61 of a reduce-stage word are its completed field. -/
theorem word_mid (c d : Nat) (hc : c < 2 ^ 31) (hd : d < 2 ^ 31) :
    ((3 * 2 ^ 62 + d * 2 ^ 31 + c) >>> 31) &&& 0x7fffffff = d := by
  have h : (0x7fffffff : Nat) = 2 ^ 31 - 1 := by norm_num
  rw [h, Nat.and_pow_two_sub_one_eq_mod, Nat.shiftRight_eq_div_pow]
  norm_num at hc hd ⊢
  omega

/-- A claim on a reduce-stage word whose next-index field is not full adds one to that field. -/
theorem word_claim (c d : Nat) (hc : c + 1 < 2 ^ 31) (hd : d < 2 ^ 31) :
    (3 * 2 ^ 62 + d * 2 ^ 31 + c + 1) % 2 ^ 64 = 3 * 2 ^ 62 + d * 2 ^ 31 + (c + 1) := by
  norm_num at hc hd ⊢
  omega

/-- A completion on a reduce-stage word whose completed field is not full adds one to that
field. -/
theorem word_complete (c d : Nat) (hc : c < 2 ^ 31) (hd : d + 1 < 2 ^ 31) :
    (3 * 2 ^ 62 + d * 2 ^ 31 + c + 0x80000000) % 2 ^ 64
      = 3 * 2 ^ 62 + (d + 1) * 2 ^ 31 + c := by
  norm_num at hc hd ⊢
  omega

/-- The word stored by `InitReduceStage`: stage bits 11, both counts 0. -/
theorem initReduce_word {K V : Type} (job : JobContext K V) :
    (InitReduceStage job).counterAtomic = 3 * 2 ^ 62 + 0 * 2 ^ 31 + 0 := by
  simp [InitReduceStage]

/-- Counting after `List.set`: the replaced element leaves, the new one enters. -/
theorem countP_set {α : Type} (p : α → Bool) (l : List α) (w : Nat) (x y : α)
    (h : l[w]? = some x) :
    (l.set w y).countP p + (if p x then 1 else 0) = l.countP p + (if p y then 1 else 0) := by
  induction l generalizing w with
  | nil => simp at h
  | cons a l ih =>
    cases w with
    | zero =>
      simp only [List.getElem?_cons_zero, Option.some.injEq] at h
      subst h
      simp only [List.set_cons_zero, List.countP_cons]
      omega
    | succ n =>
      simp only [List.getElem?_cons_succ] at h
      have := ih n h
      simp only [List.set_cons_succ, List.countP_cons]
      omega

/-- Membership after `List.set`. -/
theorem mem_set_cases {α : Type} (l : List α) (w : Nat) (y z : α) (h : z ∈ l.set w y) :
    z = y ∨ z ∈ l := by
  rcases List.mem_or_eq_of_mem_set h with h1 | h1
  · exact Or.inr h1
  · exact Or.inl h1

/-- Occurrences after `List.set`: the replaced element leaves, the new one enters. -/
theorem count_set {α : Type} [DecidableEq α] (l : List α) (w : Nat) (x y a : α)
    (h : l[w]? = some x) :
    (l.set w y).count a + (if x = a then 1 else 0) = l.count a + (if y = a then 1 else 0) := by
  have := countP_set (fun z => z == a) l w x y h
  simpa [List.count] using this

/-- A list of indices below `G` without repetition has at most `G` entries. -/
theorem length_le_of_count (l : List Nat) (G : Nat)
    (h : ∀ i, l.count i ≤ if i < G then 1 else 0) : l.length ≤ G := by
  have hnd : l.Nodup := by
    rw [List.nodup_iff_count_le_one]
    intro i
    have := h i
    split at this <;> omega
  have hsub : l ⊆ List.range G := by
    intro i hi
    have h1 : 0 < l.count i := List.count_pos_iff.2 hi
    have := h i
    rw [List.mem_range]
    by_contra hc
    rw [if_neg hc] at this
    omega
  have := (List.Nodup.subperm hnd hsub).length_le
  simpa using this

/-- A list holding each index below `G` once and nothing else has `G` entries. -/
theorem length_eq_of_count (l : List Nat) (G : Nat)
    (h : ∀ i, l.count i = if i < G then 1 else 0) : l.length = G := by
  have hp : l.Perm (List.range G) := by
    rw [List.perm_iff_count]
    intro i
    rw [h i, List.count_eq_of_nodup (List.nodup_range G)]
    simp [List.mem_range]
  simpa using hp.length_eq

/-- In the reduce phase at most `G` calls of `reduce` have been made. -/
theorem ReduceInv.calls_le {K V : Type} {G N c d : Nat} {s : ReducePhase K V}
    (h : ReduceInv G N s c d) : s.reduceCalls.length ≤ G := by
  apply length_le_of_count
  intro i
  have := h.once i
  split at this <;> split <;> omega

/-- The reduce phase starts in a state with the invariant. -/
theorem reduceInv_start {K V : Type} (job : JobContext K V) (N : Nat) :
    ReduceInv job.shuffleArray.length N (reduceStart job N) 0 0 := by
  refine ⟨by simp [reduceStart, InitReduceStage], by simp [reduceStart, InitReduceStage],
    by simp [reduceStart, InitReduceStage], by simp [reduceStart], initReduce_word job,
    Nat.zero_le _, ?_, ?_, ?_, ?_, ?_, ?_⟩
  · intro i
    simp [reduceStart, List.count_replicate]
  · simp [reduceStart, List.countP_replicate, ReduceWorker.awaitsMutex]
  · simp [reduceStart, List.countP_replicate, ReduceWorker.holdsMutex]
  · intro hm
    simp [reduceStart, List.mem_replicate] at hm
  · intro x hx
    simp only [reduceStart, List.mem_replicate] at hx
    obtain ⟨_, rfl⟩ := hx
    refine ⟨?_, ?_⟩
    · intro i hi
      cases hi
      exact Or.inl rfl
    · intro i hi
      rcases hi with hi | hi | hi <;> cases hi
  · intro _
    simp [reduceStart, InitReduceStage, floatPercent_zero]

variable {K V : Type}

/-- A worker that has not returned leaves room among the returned workers. -/
theorem returned_lt {G N c d : Nat} {s : ReducePhase K V} (h : ReduceInv G N s c d) (w : Nat)
    (x : ReduceWorker) (hget : s.workers[w]? = some x) (hx : x ≠ ReduceWorker.returned) :
    s.workers.count ReduceWorker.returned + 1 ≤ N := by
  have h1 := count_set s.workers w x ReduceWorker.returned ReduceWorker.returned hget
  rw [if_neg hx, if_pos rfl] at h1
  have h2 : (s.workers.set w ReduceWorker.returned).count ReduceWorker.returned
      ≤ (s.workers.set w ReduceWorker.returned).length := List.count_le_length _ _
  rw [List.length_set, h.nworkers] at h2
  omega

/-- The index returned by a claim is the number of claims made before. -/
theorem claim_index {G N c d : Nat} {s : ReducePhase K V} (h : ReduceInv G N s c d)
    (hc : c < 2 ^ 31) : (getInputPairIndex s.job).1 = c := by
  simp only [getInputPairIndex]
  rw [h.word]
  exact word_low c d hc

/-- The word after a claim. -/
theorem claim_word {G N c d : Nat} {s : ReducePhase K V} (h : ReduceInv G N s c d)
    (hc : c + 1 < 2 ^ 31) (hd : d < 2 ^ 31) :
    (getInputPairIndex s.job).2.counterAtomic = 3 * 2 ^ 62 + d * 2 ^ 31 + (c + 1) := by
  simp only [getInputPairIndex]
  rw [h.word]
  exact word_claim c d hc hd

/-- A worker at the loop test claims an index at or past the number of groups and returns. -/
theorem reduceInv_overclaim {G N c d : Nat} {s : ReducePhase K V} (hbound : G + N < 2 ^ 31)
    (h : ReduceInv G N s c d) (w i : Nat) (hget : s.workers[w]? = some (ReduceWorker.atLoop i))
    (hge : G ≤ c) :
    ReduceInv G N
      { s with job := (getInputPairIndex s.job).2,
               workers := s.workers.set w ReduceWorker.returned } (c + 1) d := by
  have hret := returned_lt h w _ hget (by simp)
  have hcl := h.claims_le
  have hcalls := h.calls_le
  have hcomp := h.completions
  have hc1 : c + 1 < 2 ^ 31 := by omega
  have hd : d < 2 ^ 31 := by omega
  have kret := count_set s.workers w _ ReduceWorker.returned ReduceWorker.returned hget
  have kaw := countP_set ReduceWorker.awaitsMutex s.workers w _ ReduceWorker.returned hget
  have khold := countP_set ReduceWorker.holdsMutex s.workers w _ ReduceWorker.returned hget
  simp only [ReduceWorker.awaitsMutex, ReduceWorker.holdsMutex, Bool.false_eq_true, if_false,
    Nat.add_zero, reduceCtorEq, if_true] at kret kaw khold
  refine ⟨h.size, h.maxSize, h.stage, by simp [h.nworkers], claim_word h hc1 hd, ?_, ?_, ?_,
    ?_, ?_, ?_, ?_⟩
  · dsimp only; omega
  · intro j
    have kj := count_set s.workers w _ ReduceWorker.returned (ReduceWorker.claimed j) hget
    simp only [reduceCtorEq, if_false, Nat.add_zero] at kj
    have := h.once j
    dsimp only
    rw [kj, this]
    by_cases hj : j < G
    · have hjc : j < c := by omega
      have hjc1 : j < c + 1 := by omega
      simp [hj, hjc, hjc1]
    · simp [hj]
  · dsimp only; rw [kaw]; exact hcomp
  · dsimp only; rw [khold]; exact h.mutex
  · intro _; omega
  · intro x hx
    rcases mem_set_cases _ _ _ _ hx with e | e
    · subst e
      refine ⟨?_, ?_⟩
      · intro i hi
        cases hi
      · intro i hi
        rcases hi with hi | hi | hi <;> cases hi
    · exact h.index_ok x e
  · dsimp only
    rw [khold]
    exact h.percent

/-- A worker at the loop test claims an index below the number of groups and holds it. -/
theorem reduceInv_claim {G N c d : Nat} {s : ReducePhase K V} (hbound : G + N < 2 ^ 31)
    (h : ReduceInv G N s c d) (w i : Nat) (hget : s.workers[w]? = some (ReduceWorker.atLoop i))
    (hlt : c < G) :
    ReduceInv G N
      { s with job := (getInputPairIndex s.job).2,
               workers := s.workers.set w (ReduceWorker.claimed c) } (c + 1) d := by
  have hret := returned_lt h w _ hget (by simp)
  have hcl := h.claims_le
  have hcalls := h.calls_le
  have hcomp := h.completions
  have hc1 : c + 1 < 2 ^ 31 := by omega
  have hd : d < 2 ^ 31 := by omega
  have kret := count_set s.workers w _ (ReduceWorker.claimed c) ReduceWorker.returned hget
  have kaw := countP_set ReduceWorker.awaitsMutex s.workers w _ (ReduceWorker.claimed c) hget
  have khold := countP_set ReduceWorker.holdsMutex s.workers w _ (ReduceWorker.claimed c) hget
  simp only [ReduceWorker.awaitsMutex, ReduceWorker.holdsMutex, Bool.false_eq_true, if_false,
    Nat.add_zero, reduceCtorEq] at kret kaw khold
  refine ⟨h.size, h.maxSize, h.stage, by simp [h.nworkers], claim_word h hc1 hd, ?_, ?_, ?_,
    ?_, ?_, ?_, ?_⟩
  · dsimp only; omega
  · intro j
    have kj := count_set s.workers w _ (ReduceWorker.claimed c) (ReduceWorker.claimed j) hget
    simp only [reduceCtorEq, if_false, Nat.add_zero, ReduceWorker.claimed.injEq] at kj
    have := h.once j
    dsimp only
    rw [kj]
    by_cases hj : c = j
    · subst hj
      have hnot : ¬ (c < c ∧ c < G) := by omega
      rw [if_neg hnot] at this
      have hyes : c < c + 1 ∧ c < G := ⟨by omega, hlt⟩
      rw [if_pos rfl, if_pos hyes]
      omega
    · rw [if_neg hj]
      have hiff : (j < c + 1 ∧ j < G) ↔ (j < c ∧ j < G) := by omega
      rw [Nat.add_zero, this]
      simp only [hiff]
  · dsimp only; rw [kaw]; exact hcomp
  · dsimp only; rw [khold]; exact h.mutex
  · intro hm
    rcases mem_set_cases _ _ _ _ hm with e | e
    · cases e
    · have := h.returned_late e
      omega
  · intro x hx
    rcases mem_set_cases _ _ _ _ hx with e | e
    · subst e
      refine ⟨?_, ?_⟩
      · intro i hi
        cases hi
      · intro i hi
        rcases hi with hi | hi | hi <;> cases hi
        exact hlt
    · exact h.index_ok x e
  · dsimp only
    rw [khold]
    exact h.percent

/-- A worker at the loop test with nothing to claim (no group at all) returns. -/
theorem reduceInv_leave {G N c d : Nat} {s : ReducePhase K V}
    (h : ReduceInv G N s c d) (w i : Nat) (hget : s.workers[w]? = some (ReduceWorker.atLoop i))
    (hnot : ¬ i < G) :
    ReduceInv G N { s with workers := s.workers.set w ReduceWorker.returned } c d := by
  have hi : i = 0 ∨ i < G :=
    (h.index_ok _ (List.getElem?_mem hget)).1 i rfl
  have hG : G = 0 := by omega
  have kret := count_set s.workers w _ ReduceWorker.returned ReduceWorker.returned hget
  have kaw := countP_set ReduceWorker.awaitsMutex s.workers w _ ReduceWorker.returned hget
  have khold := countP_set ReduceWorker.holdsMutex s.workers w _ ReduceWorker.returned hget
  simp only [ReduceWorker.awaitsMutex, ReduceWorker.holdsMutex, Bool.false_eq_true, if_false,
    Nat.add_zero, reduceCtorEq, if_true] at kret kaw khold
  have hcl := h.claims_le
  refine ⟨h.size, h.maxSize, h.stage, by simp [h.nworkers], h.word, ?_, ?_, ?_, ?_, ?_, ?_, ?_⟩
  · dsimp only; omega
  · intro j
    have kj := count_set s.workers w _ ReduceWorker.returned (ReduceWorker.claimed j) hget
    simp only [reduceCtorEq, if_false, Nat.add_zero] at kj
    dsimp only
    rw [kj]
    exact h.once j
  · dsimp only; rw [kaw]; exact h.completions
  · dsimp only; rw [khold]; exact h.mutex
  · intro _; omega
  · intro x hx
    rcases mem_set_cases _ _ _ _ hx with e | e
    · subst e
      refine ⟨?_, ?_⟩
      · intro i hi
        cases hi
      · intro i hi
        rcases hi with hi | hi | hi <;> cases hi
    · exact h.index_ok x e
  · dsimp only
    rw [khold]
    exact h.percent

/-- A worker holding an index calls `reduce` on that group. -/
theorem reduceInv_call {G N c d : Nat} {s : ReducePhase K V}
    (h : ReduceInv G N s c d) (w i : Nat) (hget : s.workers[w]? = some (ReduceWorker.claimed i)) :
    ReduceInv G N
      { s with reduceCalls := s.reduceCalls ++ [i],
               workers := s.workers.set w (ReduceWorker.reduced i) } c d := by
  have kret := count_set s.workers w _ (ReduceWorker.reduced i) ReduceWorker.returned hget
  have kaw := countP_set ReduceWorker.awaitsMutex s.workers w _ (ReduceWorker.reduced i) hget
  have khold := countP_set ReduceWorker.holdsMutex s.workers w _ (ReduceWorker.reduced i) hget
  simp only [ReduceWorker.awaitsMutex, ReduceWorker.holdsMutex, Bool.false_eq_true, if_false,
    Nat.add_zero, reduceCtorEq, if_true] at kret kaw khold
  have hiG : i < G := (h.index_ok _ (List.getElem?_mem hget)).2 i (Or.inl rfl)
  refine ⟨h.size, h.maxSize, h.stage, by simp [h.nworkers], h.word, ?_, ?_, ?_, ?_, ?_, ?_, ?_⟩
  · dsimp only; rw [kret]; exact h.claims_le
  · intro j
    have kj := count_set s.workers w _ (ReduceWorker.reduced i) (ReduceWorker.claimed j) hget
    simp only [reduceCtorEq, if_false, Nat.add_zero, ReduceWorker.claimed.injEq] at kj
    have := h.once j
    dsimp only
    rw [List.count_append]
    by_cases hj : i = j
    · subst hj
      rw [if_pos rfl] at kj
      simp only [List.count_cons_self, List.count_nil]
      omega
    · rw [if_neg hj] at kj
      have hji : ¬ j = i := fun e => hj e.symm
      simp only [List.count_cons, List.count_nil, beq_iff_eq, hj, if_false]
      omega
  · dsimp only
    rw [List.length_append, List.length_singleton]
    have := h.completions
    omega
  · dsimp only; rw [khold]; exact h.mutex
  · intro hm
    rcases mem_set_cases _ _ _ _ hm with e | e
    · cases e
    · exact h.returned_late e
  · intro x hx
    rcases mem_set_cases _ _ _ _ hx with e | e
    · subst e
      refine ⟨?_, ?_⟩
      · intro k hk
        cases hk
      · intro k hk
        rcases hk with hk | hk | hk <;> cases hk
        exact hiG
    · exact h.index_ok x e
  · dsimp only
    rw [khold]
    exact h.percent

/-- The `fetch_add` of a completion touches the word only. -/
theorem atomicCounterAdd_frame (job : JobContext K V) :
    (atomicCounterAdd job).shuffleArray = job.shuffleArray ∧
    (atomicCounterAdd job).maxSize = job.maxSize ∧
    (atomicCounterAdd job).jobState = job.jobState := by
  unfold atomicCounterAdd
  exact ⟨rfl, rfl, rfl⟩

/-- The `fetch_add` of a completion adds `0x80000000` to the 64-bit word. -/
theorem atomicCounterAdd_counter (job : JobContext K V) :
    (atomicCounterAdd job).counterAtomic = (job.counterAtomic + 0x80000000) % 2 ^ 64 := by
  unfold atomicCounterAdd
  rfl

/-- The percentage published from the word. -/
theorem atomicCounterPublish_percentage (job : JobContext K V) :
    (atomicCounterPublish job).jobState.percentage
      = floatPercent ((job.counterAtomic >>> 31) &&& 0x7fffffff) job.maxSize := by
  unfold atomicCounterPublish
  rfl

/-- Publishing the percentage touches the percentage only. -/
theorem atomicCounterPublish_frame (job : JobContext K V) :
    (atomicCounterPublish job).shuffleArray = job.shuffleArray ∧
    (atomicCounterPublish job).maxSize = job.maxSize ∧
    (atomicCounterPublish job).jobState.stage = job.jobState.stage ∧
    (atomicCounterPublish job).counterAtomic = job.counterAtomic := by
  unfold atomicCounterPublish
  exact ⟨rfl, rfl, rfl, rfl⟩

/-- No worker holds `counterMutex` when the test of `reduceStep` finds none. -/
theorem countP_holds_zero (ws : List ReduceWorker) (h : ws.any ReduceWorker.holdsMutex = false) :
    ws.countP ReduceWorker.holdsMutex = 0 := by
  rw [List.countP_eq_zero]
  intro x hx
  have := List.any_eq_false.1 h x hx
  simpa using this

/-- A worker whose `reduce` has returned takes `counterMutex` and records the completion. -/
theorem reduceInv_enter {G N c d : Nat} {s : ReducePhase K V} (hbound : G + N < 2 ^ 31)
    (h : ReduceInv G N s c d) (w i : Nat) (hget : s.workers[w]? = some (ReduceWorker.reduced i))
    (hfree : s.workers.any ReduceWorker.holdsMutex = false) :
    ReduceInv G N
      { s with job := atomicCounterAdd s.job,
               workers := s.workers.set w (ReduceWorker.inHandler i) } c (d + 1) := by
  have hret := returned_lt h w _ hget (by simp)
  have hcl := h.claims_le
  have hcalls := h.calls_le
  have hcomp := h.completions
  have hzero := countP_holds_zero _ hfree
  have kret := count_set s.workers w _ (ReduceWorker.inHandler i) ReduceWorker.returned hget
  have kaw := countP_set ReduceWorker.awaitsMutex s.workers w _ (ReduceWorker.inHandler i) hget
  have khold := countP_set ReduceWorker.holdsMutex s.workers w _ (ReduceWorker.inHandler i) hget
  simp only [ReduceWorker.awaitsMutex, ReduceWorker.holdsMutex, Bool.false_eq_true, if_false,
    Nat.add_zero, reduceCtorEq, if_true] at kret kaw khold
  have hc : c < 2 ^ 31 := by omega
  have hd1 : d + 1 < 2 ^ 31 := by omega
  have hiG : i < G := (h.index_ok _ (List.getElem?_mem hget)).2 i (Or.inr (Or.inl rfl))
  obtain ⟨f1, f2, f3⟩ := atomicCounterAdd_frame s.job
  refine ⟨by dsimp only; rw [f1]; exact h.size, by dsimp only; rw [f2]; exact h.maxSize,
    by dsimp only; rw [f3]; exact h.stage, by simp [h.nworkers], ?_, ?_, ?_, ?_, ?_, ?_, ?_, ?_⟩
  · show (atomicCounterAdd s.job).counterAtomic = _
    rw [atomicCounterAdd_counter, h.word]
    exact word_complete c d hc hd1
  · dsimp only; rw [kret]; exact hcl
  · intro j
    have kj := count_set s.workers w _ (ReduceWorker.inHandler i) (ReduceWorker.claimed j) hget
    simp only [reduceCtorEq, if_false, Nat.add_zero] at kj
    dsimp only
    rw [kj]
    exact h.once j
  · dsimp only; omega
  · dsimp only; omega
  · intro hm
    rcases mem_set_cases _ _ _ _ hm with e | e
    · cases e
    · exact h.returned_late e
  · intro x hx
    rcases mem_set_cases _ _ _ _ hx with e | e
    · subst e
      refine ⟨?_, ?_⟩
      · intro k hk
        cases hk
      · intro k hk
        rcases hk with hk | hk | hk <;> cases hk
        exact hiG
    · exact h.index_ok x e
  · intro hz
    dsimp only at hz
    omega

/-- The worker inside `atomicCounterHandler` publishes the percentage and gives the mutex
back. -/
theorem reduceInv_publish {G N c d : Nat} {s : ReducePhase K V} (hbound : G + N < 2 ^ 31)
    (h : ReduceInv G N s c d) (w i : Nat)
    (hget : s.workers[w]? = some (ReduceWorker.inHandler i)) :
    ReduceInv G N
      { s with job := atomicCounterPublish s.job,
               workers := s.workers.set w (ReduceWorker.atLoop i) } c d := by
  have hret := returned_lt h w _ hget (by simp)
  have hcl := h.claims_le
  have hcalls := h.calls_le
  have hcomp := h.completions
  have hmut := h.mutex
  have kret := count_set s.workers w _ (ReduceWorker.atLoop i) ReduceWorker.returned hget
  have kaw := countP_set ReduceWorker.awaitsMutex s.workers w _ (ReduceWorker.atLoop i) hget
  have khold := countP_set ReduceWorker.holdsMutex s.workers w _ (ReduceWorker.atLoop i) hget
  simp only [ReduceWorker.awaitsMutex, ReduceWorker.holdsMutex, Bool.false_eq_true, if_false,
    Nat.add_zero, reduceCtorEq, if_true] at kret kaw khold
  have hc : c < 2 ^ 31 := by omega
  have hd : d < 2 ^ 31 := by omega
  have hiG : i < G := (h.index_ok _ (List.getElem?_mem hget)).2 i (Or.inr (Or.inr rfl))
  obtain ⟨f1, f2, f3, f4⟩ := atomicCounterPublish_frame s.job
  refine ⟨by dsimp only; rw [f1]; exact h.size, by dsimp only; rw [f2]; exact h.maxSize,
    by dsimp only; rw [f3]; exact h.stage, by simp [h.nworkers],
    by dsimp only; rw [f4]; exact h.word, ?_, ?_, ?_, ?_, ?_, ?_, ?_⟩
  · dsimp only; rw [kret]; exact hcl
  · intro j
    have kj := count_set s.workers w _ (ReduceWorker.atLoop i) (ReduceWorker.claimed j) hget
    simp only [reduceCtorEq, if_false, Nat.add_zero] at kj
    dsimp only
    rw [kj]
    exact h.once j
  · dsimp only; rw [kaw]; exact hcomp
  · dsimp only; omega
  · intro hm
    rcases mem_set_cases _ _ _ _ hm with e | e
    · cases e
    · exact h.returned_late e
  · intro x hx
    rcases mem_set_cases _ _ _ _ hx with e | e
    · subst e
      refine ⟨?_, ?_⟩
      · intro k hk
        cases hk
        exact Or.inr hiG
      · intro k hk
        rcases hk with hk | hk | hk <;> cases hk
    · exact h.index_ok x e
  · intro _
    show (atomicCounterPublish s.job).jobState.percentage = _
    rw [atomicCounterPublish_percentage, h.word, word_mid c d hc hd, h.maxSize]

variable {K V : Type}

/-- Replacing one worker changes the sum of the ranks by the difference of the two ranks. -/
theorem rank_sum_set (ws : List ReduceWorker) (w : Nat) (x y : ReduceWorker)
    (h : ws[w]? = some x) :
    ((ws.set w y).map ReduceWorker.rank).sum + x.rank
      = (ws.map ReduceWorker.rank).sum + y.rank := by
  induction ws generalizing w with
  | nil => simp at h
  | cons a l ih =>
    cases w with
    | zero =>
      simp only [List.getElem?_cons_zero, Option.some.injEq] at h
      subst h
      simp only [List.set_cons_zero, List.map_cons, List.sum_cons]
      omega
    | succ n =>
      simp only [List.getElem?_cons_succ] at h
      have := ih n h
      simp only [List.set_cons_succ, List.map_cons, List.sum_cons]
      omega

/-- Every atomic action of a worker keeps the invariant of the reduce phase and lowers the
measure `4 * (G + N - c) + sum of the ranks`. -/
theorem reduceInv_step {G N c d : Nat} {s s1 : ReducePhase K V} (hbound : G + N < 2 ^ 31)
    (h : ReduceInv G N s c d) (w : Nat) (hstep : reduceStep s w = some s1) :
    ∃ c1 d1, ReduceInv G N s1 c1 d1 ∧
      4 * (G + N - c1) + (s1.workers.map ReduceWorker.rank).sum + 1
        ≤ 4 * (G + N - c) + (s.workers.map ReduceWorker.rank).sum := by
  unfold reduceStep at hstep
  cases hget : s.workers[w]? with
  | none => simp [hget] at hstep
  | some x =>
    have hret := returned_lt h w _ hget
    have hcl := h.claims_le
    cases x with
    | atLoop i =>
      simp only [hget, h.size] at hstep
      have hret := hret (by simp)
      have hc : c < 2 ^ 31 := by omega
      by_cases hi : i < G
      · rw [if_pos hi, claim_index h hc] at hstep
        by_cases hge : c ≥ G
        · rw [if_pos hge] at hstep
          cases hstep
          have k := rank_sum_set s.workers w _ ReduceWorker.returned hget
          simp only [ReduceWorker.rank] at k
          refine ⟨c + 1, d, reduceInv_overclaim hbound h w i hget hge, ?_⟩
          dsimp only
          omega
        · rw [if_neg hge] at hstep
          cases hstep
          have k := rank_sum_set s.workers w _ (ReduceWorker.claimed c) hget
          simp only [ReduceWorker.rank] at k
          refine ⟨c + 1, d, reduceInv_claim hbound h w i hget (by omega), ?_⟩
          dsimp only
          omega
      · rw [if_neg hi] at hstep
        cases hstep
        have k := rank_sum_set s.workers w _ ReduceWorker.returned hget
        simp only [ReduceWorker.rank] at k
        refine ⟨c, d, reduceInv_leave h w i hget hi, ?_⟩
        dsimp only
        omega
    | claimed i =>
      simp only [hget] at hstep
      cases hstep
      have k := rank_sum_set s.workers w _ (ReduceWorker.reduced i) hget
      simp only [ReduceWorker.rank] at k
      refine ⟨c, d, reduceInv_call h w i hget, ?_⟩
      dsimp only
      omega
    | reduced i =>
      simp only [hget] at hstep
      by_cases hfree : s.workers.any ReduceWorker.holdsMutex = true
      · rw [if_pos hfree] at hstep
        cases hstep
      · rw [if_neg hfree] at hstep
        cases hstep
        have k := rank_sum_set s.workers w _ (ReduceWorker.inHandler i) hget
        simp only [ReduceWorker.rank] at k
        refine ⟨c, d + 1, reduceInv_enter hbound h w i hget (by simpa using hfree), ?_⟩
        dsimp only
        omega
    | inHandler i =>
      simp only [hget] at hstep
      cases hstep
      have k := rank_sum_set s.workers w _ (ReduceWorker.atLoop i) hget
      simp only [ReduceWorker.rank] at k
      refine ⟨c, d, reduceInv_publish hbound h w i hget, ?_⟩
      dsimp only
      omega
    | returned => simp [hget] at hstep

/-- The invariant of the reduce phase holds after every interleaving, and the interleaving is no
longer than the measure has dropped. -/
theorem reduceInv_run {G N : Nat} (hbound : G + N < 2 ^ 31) (sched : List Nat) :
    ∀ (s s1 : ReducePhase K V) (c d : Nat), ReduceInv G N s c d →
      runSchedule s sched = some s1 →
      ∃ c1 d1, ReduceInv G N s1 c1 d1 ∧
        4 * (G + N - c1) + (s1.workers.map ReduceWorker.rank).sum + sched.length
          ≤ 4 * (G + N - c) + (s.workers.map ReduceWorker.rank).sum := by
  induction sched with
  | nil =>
    intro s s1 c d h hrun
    simp only [runSchedule, Option.some.injEq] at hrun
    subst hrun
    exact ⟨c, d, h, by simp⟩
  | cons w ws ih =>
    intro s s1 c d h hrun
    unfold runSchedule at hrun
    cases hs : reduceStep s w with
    | none => simp [hs] at hrun
    | some s2 =>
      simp only [hs] at hrun
      obtain ⟨c2, d2, h2, m2⟩ := reduceInv_step hbound h w hs
      obtain ⟨c3, d3, h3, m3⟩ := ih s2 s1 c2 d2 h2 hrun
      refine ⟨c3, d3, h3, ?_⟩
      simp only [List.length_cons]
      omega

/-- While a worker has not returned some worker can act: the holder of `counterMutex` if there
is one, any worker that has not returned otherwise. -/
theorem reduce_progress (s : ReducePhase K V)
    (hsome : ∃ x ∈ s.workers, x ≠ ReduceWorker.returned) :
    ∃ w s1, reduceStep s w = some s1 := by
  by_cases hany : s.workers.any ReduceWorker.holdsMutex = true
  · obtain ⟨x, hx, hhold⟩ := List.any_eq_true.1 hany
    obtain ⟨w, hw⟩ := List.getElem?_of_mem hx
    cases x with
    | inHandler i =>
      refine ⟨w, ?_⟩
      unfold reduceStep
      simp only [hw]
      exact ⟨_, rfl⟩
    | atLoop i => simp [ReduceWorker.holdsMutex] at hhold
    | claimed i => simp [ReduceWorker.holdsMutex] at hhold
    | reduced i => simp [ReduceWorker.holdsMutex] at hhold
    | returned => simp [ReduceWorker.holdsMutex] at hhold
  · obtain ⟨x, hx, hne⟩ := hsome
    obtain ⟨w, hw⟩ := List.getElem?_of_mem hx
    refine ⟨w, ?_⟩
    unfold reduceStep
    cases x with
    | atLoop i =>
      simp only [hw]
      by_cases hi : i < s.job.shuffleArray.length
      · rw [if_pos hi]
        by_cases hge : (getInputPairIndex s.job).1 ≥ s.job.shuffleArray.length
        · rw [if_pos hge]
          exact ⟨_, rfl⟩
        · rw [if_neg hge]
          exact ⟨_, rfl⟩
      · rw [if_neg hi]
        exact ⟨_, rfl⟩
    | claimed i =>
      simp only [hw]
      exact ⟨_, rfl⟩
    | reduced i =>
      simp only [hw, if_neg hany]
      exact ⟨_, rfl⟩
    | inHandler i =>
      simp only [hw]
      exact ⟨_, rfl⟩
    | returned => exact absurd rfl hne

variable {K V : Type}

/-- Masking with `0x7fffffff` keeps the low 31 bits. -/
theorem and_mask31 (x : Nat) : x &&& 2147483647 = x % 2147483648 :=
  Nat.and_pow_two_sub_one_eq_mod x 31

/-- The shuffle of `exampleJob` ends in `exampleShuffled`. -/
theorem exampleShuffled_shuffle :
    executeShuffleOperation natLt 4 exampleJob = some exampleShuffled := by
  have h13 : floatPercent 1 3 < 100 :=
    floatPercent_lt 1 3 (by norm_num) (by norm_num) (by norm_num)
  simp [executeShuffleOperation, shuffleLoop, configureShuffleEnvironment, exampleJob,
    findLargestKey, findLargestLoop, collectPairsWithKey, collectLoop, popTrailingRev, natLt,
    updateShuffleProgress, exampleShuffled, h13, floatPercent_two_three]

/-- The interleaving `exampleSchedule` of two workers ends in `exampleReduced`. -/
theorem exampleReduced_run :
    runSchedule (reduceStart exampleShuffled 2) exampleSchedule = some exampleReduced := by
  have h22 : floatPercent 2 2 = 100 := floatPercent_self 2 (by norm_num)
  simp [runSchedule, reduceStep, reduceStart, InitReduceStage, getInputPairIndex,
    atomicCounterAdd, atomicCounterPublish, exampleShuffled, exampleSchedule, exampleReduced,
    ReduceWorker.holdsMutex, and_mask31, h22]

/-- The shuffle of `emptyInputJob` ends in `emptyShuffled`. -/
theorem emptyShuffled_shuffle :
    executeShuffleOperation natLt 1 emptyInputJob = some emptyShuffled := by
  simp [executeShuffleOperation, shuffleLoop, configureShuffleEnvironment, emptyInputJob,
    findLargestKey, findLargestLoop, emptyShuffled]

/-- The only action of the one worker on `emptyShuffled` ends the phase in `emptyReduced`. -/
theorem emptyReduced_run :
    runSchedule (reduceStart emptyShuffled 1) [0] = some emptyReduced := by
  simp [runSchedule, reduceStep, reduceStart, InitReduceStage, emptyShuffled, emptyReduced]

/-- The measure of the reduce phase at its start. -/
theorem reduceStart_rank (job : JobContext K V) (N : Nat) :
    ((reduceStart job N).workers.map ReduceWorker.rank).sum = N := by
  simp [reduceStart, List.map_replicate, List.sum_replicate, ReduceWorker.rank]

/-- When every worker has returned, and there is a worker unless there is no group, all groups
were claimed, each was handed to `reduce` once and all completions are recorded. -/
theorem reduceInv_done {G N c d : Nat} {s : ReducePhase K V} (h : ReduceInv G N s c d)
    (hN : 0 < N ∨ G = 0) (hdone : ∀ x ∈ s.workers, x = ReduceWorker.returned) :
    (∀ i, s.reduceCalls.count i = if i < G then 1 else 0) ∧ d = G ∧
      s.workers.countP ReduceWorker.holdsMutex = 0 := by
  have hGc : G ≤ c := by
    rcases hN with hN | hN
    · apply h.returned_late
      have hlen := h.nworkers
      cases hw : s.workers with
      | nil => rw [hw] at hlen; simp at hlen; omega
      | cons a l =>
        have := hdone a (by rw [hw]; simp)
        rw [this]
        simp
    · omega
  have hcount : ∀ i, s.reduceCalls.count i = if i < G then 1 else 0 := by
    intro i
    have ho := h.once i
    have hz : s.workers.count (ReduceWorker.claimed i) = 0 := by
      rw [List.count_eq_zero]
      intro hc
      have := hdone _ hc
      cases this
    rw [hz, Nat.add_zero] at ho
    rw [ho]
    by_cases hi : i < G
    · have : i < c := by omega
      simp [hi, this]
    · simp [hi]
  have haw : s.workers.countP ReduceWorker.awaitsMutex = 0 := by
    rw [List.countP_eq_zero]
    intro x hx
    rw [hdone x hx]
    simp [ReduceWorker.awaitsMutex]
  have hho : s.workers.countP ReduceWorker.holdsMutex = 0 := by
    rw [List.countP_eq_zero]
    intro x hx
    rw [hdone x hx]
    simp [ReduceWorker.holdsMutex]
  have hlen := length_eq_of_count _ _ hcount
  have hcomp := h.completions
  exact ⟨hcount, by omega, hho⟩

variable {K V : Type}

/-- C11: for a job with `G` groups and `N` workers, `G + N < 2^31`, with a worker unless there
is no group, after every interleaving of the workers' actions in `executeReduce`: the
interleaving has at most `4 * G + 5 * N` actions; while a worker has not returned some worker
can act; no group index was handed to `reduce` twice and no index `≥ G` at all; the completed
field of the progress word counts exactly the `reduce` calls whose worker has gone on to record
the completion; and once all workers have returned every index below `G` was handed to `reduce`
exactly once and the completed field equals `G`. -/
theorem reduce_each_group_once (job : JobContext K V) (N : Nat) (sched : List Nat)
    (s : ReducePhase K V) (hbound : job.shuffleArray.length + N < 2 ^ 31)
    (hN : 0 < N ∨ job.shuffleArray.length = 0)
    (hrun : runSchedule (reduceStart job N) sched = some s) :
    sched.length ≤ 4 * job.shuffleArray.length + 5 * N ∧
    ((∃ x ∈ s.workers, x ≠ ReduceWorker.returned) → ∃ w s1, reduceStep s w = some s1) ∧
    (∀ i, s.reduceCalls.count i ≤ 1 ∧
      (job.shuffleArray.length ≤ i → s.reduceCalls.count i = 0)) ∧
    ((s.job.counterAtomic >>> 31) &&& 0x7fffffff)
        + s.workers.countP ReduceWorker.awaitsMutex = s.reduceCalls.length ∧
    ((∀ x ∈ s.workers, x = ReduceWorker.returned) →
      (∀ i, s.reduceCalls.count i = if i < job.shuffleArray.length then 1 else 0) ∧
      (s.job.counterAtomic >>> 31) &&& 0x7fffffff = job.shuffleArray.length) := by
  obtain ⟨c, d, h, m⟩ := reduceInv_run hbound sched _ s 0 0 (reduceInv_start job N) hrun
  rw [reduceStart_rank] at m
  have hcl := h.claims_le
  have hcount : s.workers.count ReduceWorker.returned ≤ N := by
    rw [← h.nworkers]
    exact List.count_le_length _ _
  have hcalls := h.calls_le
  have hcomp := h.completions
  have hc : c < 2 ^ 31 := by omega
  have hd : d < 2 ^ 31 := by omega
  have hmid : (s.job.counterAtomic >>> 31) &&& 0x7fffffff = d := by
    rw [h.word]
    exact word_mid c d hc hd
  refine ⟨by omega, reduce_progress s, ?_, by rw [hmid]; exact hcomp, ?_⟩
  · intro i
    have ho := h.once i
    refine ⟨?_, ?_⟩
    · by_cases hi : i < c ∧ i < job.shuffleArray.length
      · rw [if_pos hi] at ho
        omega
      · rw [if_neg hi] at ho
        omega
    · intro hi
      rw [if_neg (by omega)] at ho
      omega
  · intro hdone
    obtain ⟨h1, h2, _⟩ := reduceInv_done h hN hdone
    exact ⟨h1, by rw [hmid]; exact h2⟩

/-- Witness for C11: two workers on the two groups of `exampleShuffled` under
`exampleSchedule`. -/
theorem reduce_each_group_once_witness :
    exampleShuffled.shuffleArray.length + 2 < 2 ^ 31 ∧
    (0 < 2 ∨ exampleShuffled.shuffleArray.length = 0) ∧
    runSchedule (reduceStart exampleShuffled 2) exampleSchedule = some exampleReduced ∧
    (∀ x ∈ exampleReduced.workers, x = ReduceWorker.returned) ∧
    exampleSchedule.length ≤ 4 * exampleShuffled.shuffleArray.length + 5 * 2 ∧
    (∀ i, exampleReduced.reduceCalls.count i
      = if i < exampleShuffled.shuffleArray.length then 1 else 0) ∧
    (exampleReduced.job.counterAtomic >>> 31) &&& 0x7fffffff
      = exampleShuffled.shuffleArray.length :=
  have hb : exampleShuffled.shuffleArray.length + 2 < 2 ^ 31 := by decide
  have hd : ∀ x ∈ exampleReduced.workers, x = ReduceWorker.returned := by decide
  have t := reduce_each_group_once exampleShuffled 2 exampleSchedule exampleReduced hb
    (Or.inl (by decide)) exampleReduced_run
  ⟨hb, Or.inl (by decide), exampleReduced_run, hd, t.1, (t.2.2.2.2 hd).1, (t.2.2.2.2 hd).2⟩

/-- C12 (amended): for a job with `G` groups and `N` workers, `G + N < 2^31`, with a worker
unless there is no group, once every worker has returned from `executeReduce` the state read by
`getJobState` is the reduce stage at 100 percent when there is a group and at 0 percent when
there is none. -/
theorem final_job_state (job : JobContext K V) (N : Nat) (sched : List Nat)
    (s : ReducePhase K V) (hbound : job.shuffleArray.length + N < 2 ^ 31)
    (hN : 0 < N ∨ job.shuffleArray.length = 0)
    (hrun : runSchedule (reduceStart job N) sched = some s)
    (hdone : ∀ x ∈ s.workers, x = ReduceWorker.returned) :
    getJobState s.job
      = { stage := stage_t.REDUCE_STAGE,
          percentage := if job.shuffleArray.length = 0 then 0 else 100 } := by
  obtain ⟨c, d, h, _⟩ := reduceInv_run hbound sched _ s 0 0 (reduceInv_start job N) hrun
  obtain ⟨_, h2, h3⟩ := reduceInv_done h hN hdone
  have hp := h.percent h3
  have hs := h.stage
  unfold getJobState
  cases hjs : s.job.jobState with
  | mk st pc =>
    rw [hjs] at hp hs
    dsimp only at hp hs
    rw [hp, hs, h2]
    by_cases hG : job.shuffleArray.length = 0
    · simp [hG, floatPercent_zero]
    · simp [hG, floatPercent_self _ (Nat.pos_of_ne_zero hG)]

/-- Witness for C12 (amended): two workers on the two groups of `exampleShuffled` end at 100
percent. -/
theorem final_job_state_witness :
    exampleShuffled.shuffleArray.length + 2 < 2 ^ 31 ∧
    runSchedule (reduceStart exampleShuffled 2) exampleSchedule = some exampleReduced ∧
    (∀ x ∈ exampleReduced.workers, x = ReduceWorker.returned) ∧
    getJobState exampleReduced.job
      = { stage := stage_t.REDUCE_STAGE,
          percentage := if exampleShuffled.shuffleArray.length = 0 then 0 else 100 } :=
  have hb : exampleShuffled.shuffleArray.length + 2 < 2 ^ 31 := by decide
  have hd : ∀ x ∈ exampleReduced.workers, x = ReduceWorker.returned := by decide
  ⟨hb, exampleReduced_run, hd,
    final_job_state exampleShuffled 2 exampleSchedule exampleReduced hb (Or.inl (by decide))
      exampleReduced_run hd⟩

/-- C12 fails on an empty input collection: the map phase of one worker emits nothing, the
shuffle forms no group, the worker leaves `executeReduce` at once, and the state read by
`getJobState` is the reduce stage at 0 percent, not at 100. -/
theorem empty_input_ends_at_zero :
    ∃ r s, executeShuffleOperation natLt 1 emptyInputJob = some r ∧
      r.shuffleArray = [] ∧
      runSchedule (reduceStart r 1) [0] = some s ∧
      (∀ x ∈ s.workers, x = ReduceWorker.returned) ∧
      getJobState s.job = { stage := stage_t.REDUCE_STAGE, percentage := 0 } ∧
      getJobState s.job ≠ { stage := stage_t.REDUCE_STAGE, percentage := 100 } := by
  refine ⟨emptyShuffled, emptyReduced, emptyShuffled_shuffle, rfl, emptyReduced_run, ?_, rfl, ?_⟩
  · decide
  · simp [getJobState, emptyReduced]

variable {K V : Type}

/-- The index returned by `getInputPairIndex` is the word under the mask. -/
theorem getInputPairIndex_fst (job : JobContext K V) :
    (getInputPairIndex job).1 = job.counterAtomic &&& (2 ^ 31 - 1) := by
  unfold getInputPairIndex
  rfl

/-- The `fetch_add(1)` of `getInputPairIndex` adds one to the 64-bit word. -/
theorem getInputPairIndex_counter (job : JobContext K V) :
    (getInputPairIndex job).2.counterAtomic = (job.counterAtomic + 1) % 2 ^ 64 := by
  unfold getInputPairIndex
  rfl

/-- The word stored by `configureShuffleEnvironment`. -/
theorem configure_counter (job : JobContext K V) :
    (configureShuffleEnvironment job).counterAtomic
      = (0x8000000000000000 + (totalPairs job.intermediateVecs * 2 ^ 31) % 2 ^ 64) % 2 ^ 64 := by
  unfold configureShuffleEnvironment totalPairs
  rfl

/-- The three fields of a word in terms of division and remainder. -/
theorem word_fields (w : Nat) :
    w &&& 0x7fffffff = w % 2 ^ 31 ∧ (w >>> 31) &&& 0x7fffffff = w / 2 ^ 31 % 2 ^ 31 ∧
      w >>> 62 = w / 2 ^ 62 := by
  have h : (0x7fffffff : Nat) = 2 ^ 31 - 1 := by norm_num
  rw [h, Nat.and_pow_two_sub_one_eq_mod, Nat.and_pow_two_sub_one_eq_mod,
    Nat.shiftRight_eq_div_pow, Nat.shiftRight_eq_div_pow]
  exact ⟨rfl, rfl, rfl⟩

/-- C22: on a 64-bit progress word, `getInputPairIndex` returns the low 31 bits of the word
before its `fetch_add(1)` and, when the next-index field is below `2^31 - 1`, adds one to that
field and leaves the completed field and the two stage bits as they were; the
`fetch_add(0x80000000)` of `atomicCounterHandler`, when the completed field is below `2^31 - 1`,
adds one to the completed field and leaves the next-index field and the stage bits as they
were. -/
theorem progress_word_operations (job : JobContext K V) (hw : job.counterAtomic < 2 ^ 64) :
    (getInputPairIndex job).1 = job.counterAtomic % 2 ^ 31 ∧
    (job.counterAtomic &&& 0x7fffffff < 2 ^ 31 - 1 →
      (getInputPairIndex job).2.counterAtomic &&& 0x7fffffff
          = (job.counterAtomic &&& 0x7fffffff) + 1 ∧
      ((getInputPairIndex job).2.counterAtomic >>> 31) &&& 0x7fffffff
          = (job.counterAtomic >>> 31) &&& 0x7fffffff ∧
      (getInputPairIndex job).2.counterAtomic >>> 62 = job.counterAtomic >>> 62) ∧
    ((job.counterAtomic >>> 31) &&& 0x7fffffff < 2 ^ 31 - 1 →
      ((atomicCounterAdd job).counterAtomic >>> 31) &&& 0x7fffffff
          = ((job.counterAtomic >>> 31) &&& 0x7fffffff) + 1 ∧
      (atomicCounterAdd job).counterAtomic &&& 0x7fffffff = job.counterAtomic &&& 0x7fffffff ∧
      (atomicCounterAdd job).counterAtomic >>> 62 = job.counterAtomic >>> 62) := by
  obtain ⟨a1, a2, a3⟩ := word_fields job.counterAtomic
  refine ⟨?_, ?_, ?_⟩
  · rw [getInputPairIndex_fst, Nat.and_pow_two_sub_one_eq_mod]
  · intro hlow
    obtain ⟨b1, b2, b3⟩ := word_fields ((job.counterAtomic + 1) % 2 ^ 64)
    rw [getInputPairIndex_counter, b1, b2, b3, a1, a2, a3]
    rw [a1] at hlow
    norm_num at hw hlow ⊢
    omega
  · intro hmid
    obtain ⟨b1, b2, b3⟩ := word_fields ((job.counterAtomic + 0x80000000) % 2 ^ 64)
    rw [atomicCounterAdd_counter, b1, b2, b3, a1, a2, a3]
    rw [a2] at hmid
    norm_num at hw hmid ⊢
    omega

/-- Witness for C22: the word `0xC000000100000004` of `exampleReduced`. -/
theorem progress_word_operations_witness :
    exampleReduced.job.counterAtomic < 2 ^ 64 ∧
    (getInputPairIndex exampleReduced.job).1 = exampleReduced.job.counterAtomic % 2 ^ 31 ∧
    (exampleReduced.job.counterAtomic &&& 0x7fffffff < 2 ^ 31 - 1 →
      (getInputPairIndex exampleReduced.job).2.counterAtomic &&& 0x7fffffff
          = (exampleReduced.job.counterAtomic &&& 0x7fffffff) + 1 ∧
      ((getInputPairIndex exampleReduced.job).2.counterAtomic >>> 31) &&& 0x7fffffff
          = (exampleReduced.job.counterAtomic >>> 31) &&& 0x7fffffff ∧
      (getInputPairIndex exampleReduced.job).2.counterAtomic >>> 62
          = exampleReduced.job.counterAtomic >>> 62) ∧
    ((exampleReduced.job.counterAtomic >>> 31) &&& 0x7fffffff < 2 ^ 31 - 1 →
      ((atomicCounterAdd exampleReduced.job).counterAtomic >>> 31) &&& 0x7fffffff
          = ((exampleReduced.job.counterAtomic >>> 31) &&& 0x7fffffff) + 1 ∧
      (atomicCounterAdd exampleReduced.job).counterAtomic &&& 0x7fffffff
          = exampleReduced.job.counterAtomic &&& 0x7fffffff ∧
      (atomicCounterAdd exampleReduced.job).counterAtomic >>> 62
          = exampleReduced.job.counterAtomic >>> 62) :=
  have hw : exampleReduced.job.counterAtomic < 2 ^ 64 := by decide
  ⟨hw, progress_word_operations exampleReduced.job hw⟩

/-- C23: for a pre-shuffle pair count `P ≤ 2^31 - 1`, the progress word stored by
`configureShuffleEnvironment` is `2 * 2^62 + P * 2^31`: stage bits 10, completed field `P`,
next-index field 0; and the word stored by `InitReduceStage` is exactly `3 * 2^62`: stage bits
11, completed field 0, next-index field 0. -/
theorem stage_transition_words (job : JobContext K V)
    (hP : totalPairs job.intermediateVecs ≤ 2 ^ 31 - 1) :
    (configureShuffleEnvironment job).counterAtomic
        = 2 * 2 ^ 62 + totalPairs job.intermediateVecs * 2 ^ 31 ∧
    (configureShuffleEnvironment job).counterAtomic >>> 62 = 2 ∧
    ((configureShuffleEnvironment job).counterAtomic >>> 31) &&& 0x7fffffff
        = totalPairs job.intermediateVecs ∧
    (configureShuffleEnvironment job).counterAtomic &&& 0x7fffffff = 0 ∧
    (InitReduceStage job).counterAtomic = 3 * 2 ^ 62 ∧
    (InitReduceStage job).counterAtomic >>> 62 = 3 ∧
    ((InitReduceStage job).counterAtomic >>> 31) &&& 0x7fffffff = 0 ∧
    (InitReduceStage job).counterAtomic &&& 0x7fffffff = 0 := by
  have hc : (configureShuffleEnvironment job).counterAtomic
      = 2 * 2 ^ 62 + totalPairs job.intermediateVecs * 2 ^ 31 := by
    rw [configure_counter]
    norm_num at hP ⊢
    omega
  have hr : (InitReduceStage job).counterAtomic = 3 * 2 ^ 62 := by
    rw [initReduce_word]
    norm_num
  obtain ⟨a1, a2, a3⟩ := word_fields (2 * 2 ^ 62 + totalPairs job.intermediateVecs * 2 ^ 31)
  obtain ⟨b1, b2, b3⟩ := word_fields (3 * 2 ^ 62)
  rw [hc, hr, a1, a2, a3, b1, b2, b3]
  refine ⟨rfl, ?_, ?_, ?_, rfl, ?_, ?_, ?_⟩ <;> norm_num at hP ⊢ <;> omega

/-- Witness for C23: the three pairs of `exampleJob`. -/
theorem stage_transition_words_witness :
    totalPairs exampleJob.intermediateVecs ≤ 2 ^ 31 - 1 ∧
    (configureShuffleEnvironment exampleJob).counterAtomic
        = 2 * 2 ^ 62 + totalPairs exampleJob.intermediateVecs * 2 ^ 31 ∧
    (configureShuffleEnvironment exampleJob).counterAtomic >>> 62 = 2 ∧
    ((configureShuffleEnvironment exampleJob).counterAtomic >>> 31) &&& 0x7fffffff
        = totalPairs exampleJob.intermediateVecs ∧
    (configureShuffleEnvironment exampleJob).counterAtomic &&& 0x7fffffff = 0 ∧
    (InitReduceStage exampleJob).counterAtomic = 3 * 2 ^ 62 ∧
    (InitReduceStage exampleJob).counterAtomic >>> 62 = 3 ∧
    ((InitReduceStage exampleJob).counterAtomic >>> 31) &&& 0x7fffffff = 0 ∧
    (InitReduceStage exampleJob).counterAtomic &&& 0x7fffffff = 0 :=
  have hP : totalPairs exampleJob.intermediateVecs ≤ 2 ^ 31 - 1 := by decide
  ⟨hP, stage_transition_words exampleJob hP⟩

variable {K V : Type}

/-- The inner loop of `collectPairsWithKey` moves pairs: as multisets, what is left of the vector
and what was collected make up the vector and the pairs collected before. -/
theorem popTrailingRev_multiset (lt : K → K → Bool) (k : K) (r c : List (K × V)) :
    ((popTrailingRev lt k r c).1 : Multiset (K × V)) + ((popTrailingRev lt k r c).2 : Multiset (K × V))
      = (r : Multiset (K × V)) + (c : Multiset (K × V)) := by
  obtain ⟨popped, h2, h1, _, _⟩ := popTrailingRev_spec lt k r c
  have e : (r : Multiset (K × V))
      = (popped : Multiset (K × V)) + ((popTrailingRev lt k r c).1 : Multiset (K × V)) := by
    rw [Multiset.coe_add]
    exact congrArg (fun l : List (K × V) => (l : Multiset (K × V))) h1
  rw [h2, e, ← Multiset.coe_add]
  abel

/-- The call of `collectPairsWithKey` moves pairs: as multisets, the vectors afterwards and the
collected pairs make up the vectors before and the pairs collected before. -/
theorem collectLoop_multiset (lt : K → K → Bool) (k : K) (vecs : List (List (K × V))) :
    ∀ c : List (K × V),
      ((collectLoop lt k vecs c).1.flatten : Multiset (K × V))
          + ((collectLoop lt k vecs c).2 : Multiset (K × V))
        = (vecs.flatten : Multiset (K × V)) + (c : Multiset (K × V)) := by
  induction vecs with
  | nil =>
    intro c
    simp [collectLoop]
  | cons vec rest ih =>
    intro c
    have hp := popTrailingRev_multiset lt k vec.reverse c
    have hr := ih (popTrailingRev lt k vec.reverse c).2
    simp only [collectLoop, List.flatten_cons, ← Multiset.coe_add, Multiset.coe_reverse] at hp hr ⊢
    rw [add_assoc, hr, ← add_assoc, add_comm _ (rest.flatten : Multiset (K × V)), add_assoc, hp]
    abel

/-- The shuffle loop moves pairs from the workers' vectors to the groups: the multiset of all
pairs held by the groups and the vectors does not change. -/
theorem shuffleLoop_multiset (lt : K → K → Bool) (fuel : Nat) :
    ∀ (job r : JobContext K V), shuffleLoop lt fuel job = some r →
      (r.shuffleArray.flatten : Multiset (K × V)) + (r.intermediateVecs.flatten : Multiset (K × V))
        = (job.shuffleArray.flatten : Multiset (K × V))
          + (job.intermediateVecs.flatten : Multiset (K × V)) := by
  induction fuel with
  | zero =>
    intro job r h
    simp [shuffleLoop] at h
  | succ f ih =>
    intro job r h
    unfold shuffleLoop at h
    by_cases hg : job.jobState.percentage < 100
    · rw [if_pos hg] at h
      cases hfl : findLargestKey lt job.intermediateVecs with
      | none =>
        simp only [hfl, Option.some.injEq] at h
        subst h; rfl
      | some L =>
        simp only [hfl] at h
        have hm := collectLoop_multiset lt L.1 job.intermediateVecs []
        cases hemp : (collectPairsWithKey lt job.intermediateVecs L).2.isEmpty with
        | true =>
          simp only [hemp, if_true] at h
          rw [ih _ r h]
          have hnil : (collectLoop lt L.1 job.intermediateVecs []).2 = [] := by
            simpa [collectPairsWithKey] using hemp
          rw [hnil] at hm
          simp only [Multiset.coe_nil, add_zero] at hm
          simp only [collectPairsWithKey]
          rw [hm]
        | false =>
          simp only [hemp] at h
          rw [ih _ r h]
          simp only [updateShuffleProgress, collectPairsWithKey, List.flatten_concat,
            ← Multiset.coe_add]
          simp only [← Multiset.coe_add] at hm
          rw [add_assoc, add_comm ((collectLoop lt L.1 job.intermediateVecs []).2 : Multiset (K × V)),
            hm]
          simp
    · rw [if_neg hg] at h
      cases h
      rfl

variable {K V : Type}

/-- Two keys are equivalent exactly when neither is less than the other. -/
theorem keyEquiv_iff (lt : K → K → Bool) (a b : K) :
    keyEquiv lt a b = true ↔ lt a b = false ∧ lt b a = false := by
  simp [keyEquiv]

/-- Equivalence of keys is symmetric. -/
theorem keyEquiv_symm (lt : K → K → Bool) (a b : K) : keyEquiv lt a b = keyEquiv lt b a := by
  unfold keyEquiv
  rw [Bool.and_comm]

/-- Under a strict weak order equivalence of keys is transitive. -/
theorem keyEquiv_trans {lt : K → K → Bool} (hswo : StrictWeakOrder lt) (a b c : K)
    (hab : keyEquiv lt a b = true) (hbc : keyEquiv lt b c = true) : keyEquiv lt a c = true := by
  rw [keyEquiv_iff] at hab hbc ⊢
  exact hswo.incomp_trans a b c hab.1 hab.2 hbc.1 hbc.2

/-- Equivalent keys have an equivalent key in the same lists. -/
theorem any_keyEquiv_congr {lt : K → K → Bool} (hswo : StrictWeakOrder lt) (a b : K)
    (l : List K) (hab : keyEquiv lt a b = true) :
    l.any (keyEquiv lt a) = l.any (keyEquiv lt b) := by
  have hba : keyEquiv lt b a = true := by rw [keyEquiv_symm]; exact hab
  rw [Bool.eq_iff_iff, List.any_eq_true, List.any_eq_true]
  constructor
  · rintro ⟨x, hx, h⟩
    exact ⟨x, hx, keyEquiv_trans hswo b a x hba h⟩
  · rintro ⟨x, hx, h⟩
    exact ⟨x, hx, keyEquiv_trans hswo a b x hab h⟩

/-- Whether a list holds an element with a property does not depend on the order. -/
theorem any_perm {α : Type} (p : α → Bool) {l1 l2 : List α} (h : l1.Perm l2) :
    l1.any p = l2.any p := by
  rw [Bool.eq_iff_iff, List.any_eq_true, List.any_eq_true]
  constructor
  · rintro ⟨x, hx, hp⟩
    exact ⟨x, h.mem_iff.1 hx, hp⟩
  · rintro ⟨x, hx, hp⟩
    exact ⟨x, h.mem_iff.2 hx, hp⟩

/-- Under a strict weak order the number of classes does not depend on the order of the keys. -/
theorem classCount_perm {lt : K → K → Bool} (hswo : StrictWeakOrder lt) {l1 l2 : List K}
    (h : l1.Perm l2) : classCount lt l1 = classCount lt l2 := by
  induction h with
  | nil => rfl
  | cons x hp ih =>
    simp only [classCount]
    rw [any_perm _ hp, ih]
  | swap x y l =>
    simp only [classCount, List.any_cons]
    by_cases hxy : keyEquiv lt x y = true
    · have hyx : keyEquiv lt y x = true := by rw [keyEquiv_symm]; exact hxy
      have hc := any_keyEquiv_congr hswo x y l hxy
      simp [hxy, hyx, hc]
    · have hxy1 : keyEquiv lt x y = false := by simpa using hxy
      have hyx : keyEquiv lt y x = false := by rw [keyEquiv_symm]; exact hxy1
      simp only [hxy1, hyx, Bool.false_or]
      omega
  | trans _ _ ih1 ih2 => rw [ih1, ih2]

/-- A non-empty run of mutually equivalent keys, none of them equivalent to a key that
follows, adds one class. -/
theorem classCount_group (lt : K → K → Bool) (g rest : List K) (hne : g ≠ [])
    (hin : ∀ a ∈ g, ∀ b ∈ g, keyEquiv lt a b = true)
    (hout : ∀ a ∈ g, ∀ b ∈ rest, keyEquiv lt a b = false) :
    classCount lt (g ++ rest) = classCount lt rest + 1 := by
  induction g with
  | nil => exact absurd rfl hne
  | cons a g ih =>
    cases hg : g with
    | nil =>
      have hno : rest.any (keyEquiv lt a) = false := by
        rw [List.any_eq_false]
        intro x hx
        rw [hout a (List.mem_cons_self _ _) x hx]
        simp
      show (if rest.any (keyEquiv lt a) = true then 0 else 1) + classCount lt rest
        = classCount lt rest + 1
      simp only [hno, Bool.false_eq_true, if_false]
      omega
    | cons b g1 =>
      have hyes : (g ++ rest).any (keyEquiv lt a) = true := by
        rw [List.any_eq_true]
        refine ⟨b, ?_, ?_⟩
        · rw [hg]; simp
        · exact hin a (List.mem_cons_self _ _) b (by rw [hg]; simp)
      have := ih (by rw [hg]; simp)
        (fun x hx y hy => hin x (List.mem_cons_of_mem _ hx) y (List.mem_cons_of_mem _ hy))
        (fun x hx y hy => hout x (List.mem_cons_of_mem _ hx) y hy)
      rw [← hg]
      show (if (g ++ rest).any (keyEquiv lt a) = true then 0 else 1) + classCount lt (g ++ rest)
        = classCount lt rest + 1
      simp only [hyes, if_true]
      omega

/-- Non-empty groups of mutually equivalent keys, no two groups sharing a class, hold as many
classes as there are groups. -/
theorem classCount_groups (lt : K → K → Bool) (gs : List (List K)) (hne : ∀ g ∈ gs, g ≠ [])
    (hin : ∀ g ∈ gs, ∀ a ∈ g, ∀ b ∈ g, keyEquiv lt a b = true)
    (hout : gs.Pairwise (fun g1 g2 => ∀ a ∈ g1, ∀ b ∈ g2, keyEquiv lt a b = false)) :
    classCount lt gs.flatten = gs.length := by
  induction gs with
  | nil => rfl
  | cons g gs ih =>
    rw [List.pairwise_cons] at hout
    rw [List.flatten_cons, classCount_group lt g gs.flatten (hne g (List.mem_cons_self _ _))
      (hin g (List.mem_cons_self _ _)) ?_, ih (fun x hx => hne x (List.mem_cons_of_mem _ hx))
      (fun x hx => hin x (List.mem_cons_of_mem _ hx)) hout.2]
    · rfl
    · intro a ha b hb
      obtain ⟨g2, hg2, hb2⟩ := List.mem_flatten.1 hb
      exact hout.1 g2 hg2 a ha b hb2

/-- Up to `2^24` pairs: for every family of worker vectors of a fresh job, each sorted ascending
by a key comparison that is a strict weak order, `executeShuffleOperation` returns (for every
fuel above the number of pairs) a shuffle output whose pairs are, as a multiset, exactly the
pairs of all worker vectors before the shuffle, in which every group is non-empty, and whose
number of groups is the number of distinct key-equivalence classes among the keys of the
input. -/
theorem small_shuffle_output_is_input_grouped (lt : K → K → Bool) (hswo : StrictWeakOrder lt)
    (job : JobContext K V) (hfresh : job.shuffleArray = [])
    (hsorted : ∀ vec ∈ job.intermediateVecs, SortedByKey lt vec)
    (hsmall : (job.intermediateVecs.map List.length).sum ≤ 2 ^ 24) :
    ∃ r, (∀ fuel, (job.intermediateVecs.map List.length).sum + 1 ≤ fuel →
        executeShuffleOperation lt fuel job = some r) ∧
      (r.shuffleArray.flatten : Multiset (K × V))
        = (job.intermediateVecs.flatten : Multiset (K × V)) ∧
      (∀ grp ∈ r.shuffleArray, grp ≠ []) ∧
      r.shuffleArray.length = classCount lt (job.intermediateVecs.flatten.map Prod.fst) := by
  obtain ⟨r, h1, h2, h3, h4, _⟩ :=
    shuffleLoop_terminates lt hswo.irrefl
      (totalPairs (configureShuffleEnvironment job).intermediateVecs)
      (configureShuffleEnvironment job) (countInv_configure job hfresh) (le_refl _)
  have hrun := h1 _ (le_refl _)
  have hinv := shuffleLoop_order hswo _ _ r (orderInv_configure lt job hfresh hsorted) hrun
  have hm := shuffleLoop_multiset lt _ _ r hrun
  have h0 : totalPairs r.intermediateVecs = 0 := by
    rcases h3 with e | e
    · exact e
    · exact guard_exit_empty r h2 (by rw [h4]; exact hsmall) e
  have hempty : r.intermediateVecs.flatten = [] := by
    rw [List.flatten_eq_nil_iff]
    exact totalPairs_zero _ h0
  have hcs : (configureShuffleEnvironment job).shuffleArray = [] := hfresh
  have hcv : (configureShuffleEnvironment job).intermediateVecs = job.intermediateVecs := rfl
  rw [hempty, hcs, hcv] at hm
  simp only [List.flatten_nil, Multiset.coe_nil, add_zero, zero_add] at hm
  refine ⟨r, fun fuel hf => h1 fuel hf, hm, h2.groups_nonempty, ?_⟩
  have hperm : (r.shuffleArray.flatten.map Prod.fst).Perm
      (job.intermediateVecs.flatten.map Prod.fst) :=
    (Multiset.coe_eq_coe.1 hm).map Prod.fst
  rw [← classCount_perm hswo hperm, List.map_flatten, classCount_groups, List.length_map]
  · intro g hg
    obtain ⟨grp, hgrp, rfl⟩ := List.mem_map.1 hg
    intro e
    exact h2.groups_nonempty grp hgrp (List.map_eq_nil_iff.1 e)
  · intro g hg a ha b hb
    obtain ⟨grp, hgrp, rfl⟩ := List.mem_map.1 hg
    obtain ⟨p, hp, rfl⟩ := List.mem_map.1 ha
    obtain ⟨q, hq, rfl⟩ := List.mem_map.1 hb
    rw [keyEquiv_iff]
    exact hinv.within grp hgrp p hp q hq
  · rw [List.pairwise_map]
    refine hinv.descending.imp ?_
    intro g1 g2 h a ha b hb
    obtain ⟨p, hp, rfl⟩ := List.mem_map.1 ha
    obtain ⟨q, hq, rfl⟩ := List.mem_map.1 hb
    have := h p hp q hq
    simp [keyEquiv, this]

/-- Example for the shuffle of a small job: the example job under the order of the natural
numbers; its keys 1, 2, 1 fall into two classes. -/
theorem small_shuffle_output_is_input_grouped_example :
    classCount natLt (exampleJob.intermediateVecs.flatten.map Prod.fst) = 2 ∧
    ∃ r, (∀ fuel, (exampleJob.intermediateVecs.map List.length).sum + 1 ≤ fuel →
        executeShuffleOperation natLt fuel exampleJob = some r) ∧
      (r.shuffleArray.flatten : Multiset (Nat × String))
        = (exampleJob.intermediateVecs.flatten : Multiset (Nat × String)) ∧
      (∀ grp ∈ r.shuffleArray, grp ≠ []) ∧
      r.shuffleArray.length
        = classCount natLt (exampleJob.intermediateVecs.flatten.map Prod.fst) :=
  ⟨by decide,
    small_shuffle_output_is_input_grouped natLt natLt_swo exampleJob rfl exampleJob_sorted
      (by decide)⟩

/-- When equivalent keys are equal keys, as for a linear order, the number of classes is the
number of distinct keys. -/
theorem classCount_eq_dedup [DecidableEq K] (lt : K → K → Bool)
    (hlin : ∀ a b, keyEquiv lt a b = true ↔ a = b) (ks : List K) :
    classCount lt ks = ks.dedup.length := by
  induction ks with
  | nil => rfl
  | cons k ks ih =>
    have hany : ks.any (keyEquiv lt k) = true ↔ k ∈ ks := by
      rw [List.any_eq_true]
      constructor
      · rintro ⟨x, hx, h⟩
        rw [(hlin k x).1 h]
        exact hx
      · intro h
        exact ⟨k, h, (hlin k k).2 rfl⟩
    by_cases hk : k ∈ ks
    · rw [List.dedup_cons_of_mem hk, ← ih]
      show (if ks.any (keyEquiv lt k) = true then 0 else 1) + classCount lt ks
        = classCount lt ks
      rw [if_pos (hany.2 hk)]
      omega
    · have hf : ¬ ks.any (keyEquiv lt k) = true := fun h => hk (hany.1 h)
      rw [List.dedup_cons_of_not_mem hk, List.length_cons, ← ih]
      show (if ks.any (keyEquiv lt k) = true then 0 else 1) + classCount lt ks
        = classCount lt ks + 1
      rw [if_neg hf]
      omega

/-- For the order of the natural numbers equivalent keys are equal. -/
theorem natLt_keyEquiv (a b : Nat) : keyEquiv natLt a b = true ↔ a = b := by
  simp only [keyEquiv, natLt, Bool.and_eq_true, Bool.not_eq_true', decide_eq_false_iff_not]
  omega

/-- The run of keys up to `n` is the run below `n` followed by the pair with key `n`. -/
theorem keyRun_succ (n : Nat) : keyRun (n + 1) = keyRun n ++ [(n, ())] := by
  unfold keyRun
  rw [List.range_succ, List.map_append]
  rfl

/-- The run of the keys below `n` holds `n` pairs. -/
theorem keyRun_length (n : Nat) : (keyRun n).length = n := by
  unfold keyRun
  rw [List.length_map, List.length_range]

/-- The largest key of a single run is its last. -/
theorem findLargestKey_keyRun (n : Nat) :
    findLargestKey natLt [keyRun (n + 1)] = some (n, ()) := by
  unfold findLargestKey
  rw [keyRun_succ]
  simp [findLargestLoop]

/-- The inner loop of `collectPairsWithKey` for the key `n` takes nothing from the run of the
keys below `n`. -/
theorem popTrailingRev_keyRun_stop (n : Nat) (c : List (Nat × Unit)) :
    popTrailingRev natLt n (keyRun n).reverse c = ((keyRun n).reverse, c) := by
  cases n with
  | zero => rfl
  | succ m =>
    rw [keyRun_succ, List.reverse_append]
    simp [popTrailingRev, natLt]

/-- The inner loop of `collectPairsWithKey` for the key `n` takes exactly the last pair of the
run of the keys up to `n`. -/
theorem popTrailingRev_keyRun (n : Nat) :
    popTrailingRev natLt n (keyRun (n + 1)).reverse [] = ((keyRun n).reverse, [(n, ())]) := by
  rw [keyRun_succ, List.reverse_append]
  simp only [List.reverse_cons, List.reverse_nil, List.nil_append, List.singleton_append]
  unfold popTrailingRev
  simp only [natLt, lt_self_iff_false, decide_False, Bool.not_false, Bool.and_self, if_true,
    List.nil_append]
  exact popTrailingRev_keyRun_stop n _

/-- The call of `collectPairsWithKey` on a single run takes its last pair. -/
theorem collect_keyRun (n : Nat) :
    collectPairsWithKey natLt [keyRun (n + 1)] (n, ()) = ([keyRun n], [(n, ())]) := by
  unfold collectPairsWithKey
  simp only [collectLoop]
  rw [popTrailingRev_keyRun]
  simp

/-- With `16777217` pairs the percentage after `16777216` groups is `100.0f`. -/
theorem floatPercent_full : floatPercent 16777216 16777217 = 100 := by
  have := floatPercent_big_eq
  norm_num at this
  exact this

/-- With `16777217` pairs the percentage after fewer than `16777216` groups is below 100. -/
theorem floatPercent_below (g : Nat) (hg : 0 < g) (hlt : g < 16777216) :
    floatPercent g 16777217 < 100 := by
  have := floatPercent_big_lt g hg (by norm_num; exact hlt)
  norm_num at this
  exact this

/-- The shuffle loop on a single run of pairwise different keys out of `16777217` pairs: with
`d + 1` pairs left it makes `d` more groups of one pair and stops with one pair left, when the
percentage has reached 100. -/
theorem manyKeys_loop (d : Nat) :
    ∀ job : JobContext Nat Unit, CountInv job → job.maxSize = 16777217 →
      job.intermediateVecs = [keyRun (d + 1)] → job.shuffleArray.length + d = 16777216 →
      ∃ r, (∀ fuel, d + 1 ≤ fuel → shuffleLoop natLt fuel job = some r) ∧ CountInv r ∧
        r.maxSize = 16777217 ∧ r.intermediateVecs = [keyRun 1] ∧
        r.shuffleArray.length = 16777216 := by
  induction d with
  | zero =>
    intro job hinv hmax hvec hlen
    have hl : job.shuffleArray.length = 16777216 := by omega
    have hp := hinv.percent
    rw [if_neg (by omega), hl, hmax, floatPercent_full] at hp
    have hg : ¬ job.jobState.percentage < 100 := by
      rw [hp]
      norm_num
    refine ⟨job, ?_, hinv, hmax, hvec, hl⟩
    intro fuel hf
    obtain ⟨f, rfl⟩ : ∃ f, fuel = f + 1 := ⟨fuel - 1, by omega⟩
    unfold shuffleLoop
    rw [if_neg hg]
  | succ d ih =>
    intro job hinv hmax hvec hlen
    have hp := hinv.percent
    have hg : job.jobState.percentage < 100 := by
      rw [hp]
      by_cases h0 : job.shuffleArray.length = 0
      · rw [if_pos h0]
        norm_num
      · rw [if_neg h0, hmax]
        exact floatPercent_below _ (by omega) (by omega)
    have hfl : findLargestKey natLt job.intermediateVecs = some (d + 1, ()) := by
      rw [hvec]
      exact findLargestKey_keyRun (d + 1)
    have hcol : collectPairsWithKey natLt job.intermediateVecs (d + 1, ())
        = ([keyRun (d + 1)], [(d + 1, ())]) := by
      rw [hvec]
      exact collect_keyRun (d + 1)
    have hne : (collectPairsWithKey natLt job.intermediateVecs (d + 1, ())).2.isEmpty = false := by
      rw [hcol]
      rfl
    have hinv2 := countInv_step natLt job (d + 1, ()) hinv hne
    obtain ⟨r, hr1, hr2, hr3, hr4, hr5⟩ := ih _ hinv2
      (by simp only [updateShuffleProgress]; exact hmax)
      (by simp only [updateShuffleProgress]; rw [hcol])
      (by simp only [updateShuffleProgress, List.length_append, List.length_singleton]; omega)
    refine ⟨r, ?_, hr2, hr3, hr4, hr5⟩
    intro fuel hf
    obtain ⟨f, rfl⟩ : ∃ f, fuel = f + 1 := ⟨fuel - 1, by omega⟩
    unfold shuffleLoop
    rw [if_pos hg, hfl]
    simp only [hne]
    exact hr1 f (by omega)

/-- The shuffle of `manyKeysJob` stops after `16777216` groups with the pair of key 0 still in
the worker's vector. -/
theorem manyKeysJob_shuffle :
    ∃ r, (∀ fuel, 16777217 ≤ fuel → executeShuffleOperation natLt fuel manyKeysJob = some r) ∧
      CountInv r ∧ r.maxSize = 16777217 ∧ r.intermediateVecs = [keyRun 1] ∧
      r.shuffleArray.length = 16777216 := by
  have hmax : (configureShuffleEnvironment manyKeysJob).maxSize = 16777217 := by
    show ([keyRun 16777217].map List.length).sum = 16777217
    rw [List.map_cons, List.map_nil, List.sum_cons, List.sum_nil, keyRun_length, Nat.add_zero]
  exact manyKeys_loop 16777216 (configureShuffleEnvironment manyKeysJob)
    (countInv_configure manyKeysJob rfl) hmax rfl rfl

/-- The pair count of `manyKeysJob`. -/
theorem manyKeysJob_pairs : (manyKeysJob.intermediateVecs.map List.length).sum = 16777217 := by
  show ([keyRun 16777217].map List.length).sum = 16777217
  rw [List.map_cons, List.map_nil, List.sum_cons, List.sum_nil, keyRun_length, Nat.add_zero]

/-- A run of keys is sorted ascending. -/
theorem keyRun_sorted (n : Nat) : SortedByKey natLt (keyRun n) := by
  unfold SortedByKey keyRun
  rw [List.pairwise_map]
  refine (List.pairwise_lt_range n).imp ?_
  intro a b hab
  simp only [natLt, decide_eq_false_iff_not, not_lt]
  exact le_of_lt hab

/-- The keys of a run of `n` pairs fall into `n` classes. -/
theorem keyRun_classes (n : Nat) : classCount natLt ((keyRun n).map Prod.fst) = n := by
  have hk : (keyRun n).map Prod.fst = List.range n := by
    unfold keyRun
    rw [List.map_map]
    exact List.map_id _
  rw [hk, classCount_eq_dedup natLt natLt_keyEquiv, (List.nodup_range n).dedup,
    List.length_range]

/-- C10 (code at the failing input): one worker holds `16777217` pairs with pairwise different
keys, sorted. `executeShuffleOperation` returns after `16777216` groups of one pair each, when
the `float` percentage has reached `100.0f`: the group sizes add up to `16777216`, not to the
`16777217` pairs of the input, and the worker's vector still holds the pair of key 0. -/
theorem shuffle_leaves_pair_behind :
    manyKeysJob.shuffleArray = [] ∧
    (∀ a, natLt a a = false) ∧
    (manyKeysJob.intermediateVecs.map List.length).sum = 16777217 ∧
    ∃ r, (∀ fuel, (manyKeysJob.intermediateVecs.map List.length).sum + 1 ≤ fuel →
        executeShuffleOperation natLt fuel manyKeysJob = some r) ∧
      r.jobState.percentage = 100 ∧
      (r.shuffleArray.map List.length).sum = 16777216 ∧
      (r.shuffleArray.map List.length).sum ≠ (manyKeysJob.intermediateVecs.map List.length).sum ∧
      r.intermediateVecs = [[(0, ())]] := by
  obtain ⟨r, h1, h2, h3, h4, h5⟩ := manyKeysJob_shuffle
  have hsum : (r.shuffleArray.map List.length).sum = 16777216 := by
    have ht := h2.total
    rw [h3, h4] at ht
    have : totalPairs [keyRun 1] = 1 := rfl
    omega
  have hp := h2.percent
  rw [if_neg (by omega), h5, h3, floatPercent_full] at hp
  refine ⟨rfl, natLt_irrefl, manyKeysJob_pairs, r, ?_, hp, hsum, ?_, h4⟩
  · intro fuel hf
    rw [manyKeysJob_pairs] at hf
    exact h1 fuel (by omega)
  · rw [hsum, manyKeysJob_pairs]
    norm_num

/-- C27 (code at the failing input): one worker holds `16777217` pairs with pairwise different
keys, sorted ascending under the order of the natural numbers, so the input has `16777217` key
classes. The shuffle output of `executeShuffleOperation` has `16777216` groups holding
`16777216` pairs: as a multiset it is not the input, and the number of groups is not the number
of classes. -/
theorem shuffle_output_misses_pair :
    StrictWeakOrder natLt ∧ manyKeysJob.shuffleArray = [] ∧
    (∀ vec ∈ manyKeysJob.intermediateVecs, SortedByKey natLt vec) ∧
    manyKeysJob.intermediateVecs.flatten.length = 16777217 ∧
    classCount natLt (manyKeysJob.intermediateVecs.flatten.map Prod.fst) = 16777217 ∧
    ∃ r, (∀ fuel, (manyKeysJob.intermediateVecs.map List.length).sum + 1 ≤ fuel →
        executeShuffleOperation natLt fuel manyKeysJob = some r) ∧
      r.shuffleArray.flatten.length = 16777216 ∧
      (r.shuffleArray.flatten : Multiset (Nat × Unit))
        ≠ (manyKeysJob.intermediateVecs.flatten : Multiset (Nat × Unit)) ∧
      r.shuffleArray.length = 16777216 ∧
      r.shuffleArray.length
        ≠ classCount natLt (manyKeysJob.intermediateVecs.flatten.map Prod.fst) := by
  obtain ⟨r, h1, h2, h3, h4, h5⟩ := manyKeysJob_shuffle
  have hflat : manyKeysJob.intermediateVecs.flatten = keyRun 16777217 := by
    show [keyRun 16777217].flatten = keyRun 16777217
    rw [List.flatten_cons, List.flatten_nil, List.append_nil]
  have hin : manyKeysJob.intermediateVecs.flatten.length = 16777217 := by
    rw [hflat, keyRun_length]
  have hcls : classCount natLt (manyKeysJob.intermediateVecs.flatten.map Prod.fst)
      = 16777217 := by
    rw [hflat, keyRun_classes]
  have hout : r.shuffleArray.flatten.length = 16777216 := by
    rw [List.length_flatten]
    have ht := h2.total
    rw [h3, h4] at ht
    have : totalPairs [keyRun 1] = 1 := rfl
    omega
  refine ⟨natLt_swo, rfl, ?_, hin, hcls, r, ?_, hout, ?_, h5, ?_⟩
  · intro vec hv
    have : vec = keyRun 16777217 := by
      have hv1 : vec ∈ [keyRun 16777217] := hv
      exact List.mem_singleton.1 hv1
    rw [this]
    exact keyRun_sorted _
  · intro fuel hf
    rw [manyKeysJob_pairs] at hf
    exact h1 fuel (by omega)
  · intro e
    have hc := congrArg Multiset.card e
    rw [Multiset.coe_card, Multiset.coe_card, hout, hin] at hc
    norm_num at hc
  · rw [h5, hcls]
    norm_num

end MapReduce
